import Mathlib

/-!
# yxlang: the expression tree of `expression.h` and its evaluator

The development embeds the node classes of `src/expression.h`
(`YxlangNode` and its subclasses `CNConstant` ... `CNCallUDF`), the two
static tables `YxlangNode::variables` / `YxlangNode::functions`, and the
virtual method `evaluate()`.

* `Dbl` is the value type `double` (IEEE-754 binary64, round to nearest even).
* `YxlangNode` is the type of a `YxlangNode*`: the constructor `NULL` is the
  null pointer, every other constructor is an object of the class of the
  same name, holding its member pointers.
* `Env` holds the two static tables and the text written to `std::cout`.
* `evaluate` is the virtual `evaluate()`; since user functions may recurse
  for ever it takes a fuel bound, and `Returns` says that some fuel suffices.
-/

set_option autoImplicit false

/-! ## The value type `double` -/

/-- The values of the C++ type `double`: NaN, the two infinities and the finite
numbers `(-1)^neg * m * 2^e`.  A finite number is written in the unique form
with `m < 2^53` where `e = 0` (integers below `2^53`), or `e < 0` and `m` odd,
or `e > 0` and `2^52 ≤ m`; every operation returns this form and reads its
arguments by their numeric value. -/
inductive Dbl where
  | nan
  | inf (neg : Bool)
  | fin (neg : Bool) (m : Nat) (e : Int)
  deriving DecidableEq, Repr

namespace Dbl

/-- Number of binary digits of `m`, with `fuel ≥` that number. -/
def bitLenAux : Nat → Nat → Nat
  | 0, _ => 0
  | fuel + 1, m => if m = 0 then 0 else bitLenAux fuel (m / 2) + 1

/-- Number of binary digits of `m` (`0` for `m = 0`). -/
def bitLen (m : Nat) : Nat := bitLenAux m m

/-- Writes `m * 2^(-k)`, halving `m` while it is even and the exponent is negative. -/
def canonNeg : Nat → Nat → Nat × Nat
  | 0, m => (m, 0)
  | k + 1, m => if m % 2 = 0 then canonNeg k (m / 2) else (m, k + 1)

/-- Writes `m * 2^k`, doubling `m` while it stays below `2^53` and the exponent is positive. -/
def canonPos : Nat → Nat → Nat × Nat
  | 0, m => (m, 0)
  | k + 1, m => if m < 2 ^ 52 then canonPos k (2 * m) else (m, k + 1)

/-- The finite number `(-1)^neg * m * 2^e`, `m ≤ 2^53`, in the unique form. -/
def canon (neg : Bool) (m : Nat) (e : Int) : Dbl :=
  let m1 := if m = 2 ^ 53 then 2 ^ 52 else m
  let e1 := if m = 2 ^ 53 then e + 1 else e
  match e1 with
  | Int.ofNat k => fin neg (canonPos k m1).1 (Int.ofNat (canonPos k m1).2)
  | Int.negSucc k => fin neg (canonNeg (k + 1) m1).1 (-Int.ofNat (canonNeg (k + 1) m1).2)

/-- Overflow to infinity when `m * 2^e ≥ 2^1024`, the unique form otherwise. -/
def finish (neg : Bool) (m : Nat) (e : Int) : Dbl :=
  if e + bitLen m > 1024 then inf neg else canon neg m e

/-- Rounding to nearest, ties to even, of the exact value `(-1)^neg * (m + s) * 2^e`
where `0 < s < 1` when `sticky` is set and `s = 0` otherwise.  The result keeps 53
significant bits, fewer below `2^(-1022)` (subnormal numbers, quantum `2^(-1074)`). -/
def round (neg : Bool) (m : Nat) (e : Int) (sticky : Bool) : Dbl :=
  if m = 0 then fin neg 0 0
  else
    let q : Int := max (e + bitLen m - 53) (-1074)
    let d : Nat := (q - e).toNat
    if d = 0 then finish neg m e
    else
      let hi := m >>> d
      let lo := m % (1 <<< d)
      let half := 1 <<< (d - 1)
      let up := decide (half < lo) || (decide (lo = half) && (sticky || decide (hi % 2 = 1)))
      finish neg (if up then hi + 1 else hi) q

/-- The signed integer `k` with `(-1)^neg * m * 2^e = k * 2^x`, for `x ≤ e`. -/
def scaled (x : Int) (neg : Bool) (m : Nat) (e : Int) : Int :=
  if neg then -((m <<< (e - x).toNat : Nat) : Int) else ((m <<< (e - x).toNat : Nat) : Int)

/-- Positive zero, the value of the literal `0`. -/
def zero : Dbl := fin false 0 0

/-- Conversion `int → double` (exact for every 32-bit `int`). -/
def ofInt (i : Int) : Dbl := round (decide (i < 0)) i.natAbs 0 false

/-- Unary minus: flips the sign bit. -/
def neg : Dbl → Dbl
  | nan => nan
  | inf s => inf (!s)
  | fin s m e => fin (!s) m e

/-- The operator `+` on `double`. -/
def add : Dbl → Dbl → Dbl
  | nan, _ => nan
  | _, nan => nan
  | inf s, inf t => if s = t then inf s else nan
  | inf s, fin _ _ _ => inf s
  | fin _ _ _, inf t => inf t
  | fin s m e, fin t n f =>
    let c := scaled (min e f) s m e + scaled (min e f) t n f
    if c = 0 then fin (s && t) 0 0 else round (decide (c < 0)) c.natAbs (min e f) false

/-- The operator `-` on `double`. -/
def sub (a b : Dbl) : Dbl := add a (neg b)

/-- The operator `*` on `double`. -/
def mul : Dbl → Dbl → Dbl
  | nan, _ => nan
  | _, nan => nan
  | inf s, inf t => inf (xor s t)
  | inf s, fin t n _ => if n = 0 then nan else inf (xor s t)
  | fin s m _, inf t => if m = 0 then nan else inf (xor s t)
  | fin s m e, fin t n f => round (xor s t) (m * n) (e + f) false

/-- The operator `/` on `double`: the quotient is computed to at least 56 bits plus a
sticky bit for the remainder, then rounded. -/
def div : Dbl → Dbl → Dbl
  | nan, _ => nan
  | _, nan => nan
  | inf _, inf _ => nan
  | inf s, fin t _ _ => inf (xor s t)
  | fin s _ _, inf t => fin (xor s t) 0 0
  | fin s m e, fin t n f =>
    if n = 0 then (if m = 0 then nan else inf (xor s t))
    else
      let k := 56 + bitLen n
      round (xor s t) ((m <<< k) / n) (e - f - (k : Int)) (decide ((m <<< k) % n ≠ 0))

/-- The library function `std::fmod`: the remainder of the division truncated toward zero,
with the sign of the first argument; it is exact. -/
def fmod : Dbl → Dbl → Dbl
  | nan, _ => nan
  | _, nan => nan
  | inf _, _ => nan
  | fin s m e, inf _ => fin s m e
  | fin s m e, fin _ n f =>
    if n = 0 then nan
    else round s ((m <<< (e - min e f).toNat) % (n <<< (f - min e f).toNat)) (min e f) false

/-- Three-way comparison of two numbers; `none` when one of them is NaN (unordered). -/
def cmp : Dbl → Dbl → Option Ordering
  | nan, _ => none
  | _, nan => none
  | inf s, inf t => some (if s = t then .eq else if s then .lt else .gt)
  | inf s, fin _ _ _ => some (if s then .lt else .gt)
  | fin _ _ _, inf t => some (if t then .gt else .lt)
  | fin s m e, fin t n f => some (compare (scaled (min e f) s m e) (scaled (min e f) t n f))

/-- The operator `>` on `double`. -/
def gt (a b : Dbl) : Bool := decide (cmp a b = some .gt)
/-- The operator `<` on `double`. -/
def lt (a b : Dbl) : Bool := decide (cmp a b = some .lt)
/-- The operator `==` on `double`. -/
def eq (a b : Dbl) : Bool := decide (cmp a b = some .eq)
/-- The operator `!=` on `double`. -/
def ne (a b : Dbl) : Bool := !(eq a b)
/-- The operator `>=` on `double`. -/
def ge (a b : Dbl) : Bool := gt a b || eq a b
/-- The operator `<=` on `double`. -/
def le (a b : Dbl) : Bool := lt a b || eq a b

/-- Conversion `double → int` (32 bits): the fractional part is discarded; the behaviour is
undefined (`none`) when the truncated value is not an `int`, or for NaN and infinities. -/
def toInt32 : Dbl → Option Int
  | nan => none
  | inf _ => none
  | fin s m e =>
    let a : Nat := match e with
      | Int.ofNat k => m <<< k
      | Int.negSucc k => m >>> (k + 1)
    let v : Int := if s then -(a : Int) else (a : Int)
    if -2147483648 ≤ v ∧ v ≤ 2147483647 then some v else none

/-- The rational number a finite `double` stands for: `(-1)^neg * m * 2^e`.  NaN and the
infinities stand for no number; they are sent to `0`. -/
def toRat : Dbl → ℚ
  | fin neg m e => (if neg then -1 else 1) * (m : ℚ) * (2 : ℚ) ^ e
  | _ => 0

/-- The finite values of the type `double`, in any of their writings: at most 53
significant bits, no bit below `2^(-1074)`, magnitude below `2^1024`. -/
def isFinite : Dbl → Bool
  | fin _ m e => decide (m < 2 ^ 53) && decide (-1074 ≤ e) && decide (e + bitLen m ≤ 1024)
  | _ => false

end Dbl

/-- The integer part of a rational number, rounding toward zero (`trunc`). -/
def truncQ (q : ℚ) : ℤ := if 0 ≤ q then ⌊q⌋ else ⌈q⌉

/-! ## Nodes, tables and what the implementation leaves open -/

/-- A `YxlangNode*`: the null pointer or an object of one of the node classes with its
members.  Members that `evaluate()` never reads (`CNVariable::value`, `CNAssignment::right`)
are left out; `name` members are never null in a tree the parser builds and are strings. -/
inductive YxlangNode where
  | NULL
  | CNConstant (value : Dbl)
  | CNVariable (name : String)
  | CNNegate (node : YxlangNode)
  | CNAdd (left right : YxlangNode)
  | CNSubtract (left right : YxlangNode)
  | CNMultiply (left right : YxlangNode)
  | CNDivide (left right : YxlangNode)
  | CNModulo (left right : YxlangNode)
  | CNPower (left right : YxlangNode)
  | CNCompare (fn : Int) (left right : YxlangNode)
  | CNUnaryFunction (fn : Int) (left right : YxlangNode)
  | CNBinaryFunction (fn : Int) (left right : YxlangNode)
  | CNExprlist (left right : YxlangNode)
  | CNAssignment (name : String) (left : YxlangNode)
  | CNCondition (cond left right : YxlangNode)
  | CNStatement (left right : YxlangNode)
  | CNParamlist (name : String) (left right : YxlangNode)
  | CNCustomFunction (name : String) (left right : YxlangNode)
  | CNCallUDF (name : String) (left right : YxlangNode)
  deriving DecidableEq, Repr

/-- The object a `CNCustomFunction*` of the function table points to: the copy
`new CNCustomFunction(name, left, right)` made at registration. -/
structure CustomFunction where
  name : String
  /-- The paramlist. -/
  left : YxlangNode
  /-- The sentencelist. -/
  right : YxlangNode
  deriving DecidableEq, Repr

/-- The static members `YxlangNode::variables` (field `variablemap`) and
`YxlangNode::functions` (field `functionmap`), a `std::map` being a finite function from keys
to values, and the characters written to `std::cout`. -/
structure Env where
  variablemap : String → Option Dbl
  functionmap : String → Option CustomFunction
  out : String

/-- The classes whose `evaluate` computes both operands inside one expression, so that the
language does not fix which operand runs first. -/
inductive ArithOp where
  | add | sub | mul | div | mod | pow
  deriving DecidableEq, Repr

/-- What the sources take from the C++ implementation: the `<cmath>` functions whose results
are not fixed bit for bit, the text `operator<<` prints for a `double`, and for each
arithmetic class whether the compiled code evaluates the right operand first. -/
structure Platform where
  sqrt : Dbl → Dbl
  exp : Dbl → Dbl
  log : Dbl → Dbl
  pow : Dbl → Dbl → Dbl
  shows : Dbl → String
  rightFirst : ArithOp → Bool

/-- Why an evaluation does not return a number. -/
inductive Fault where
  /-- A member function is called through a null pointer. -/
  | nullDeref
  /-- A `double` is converted to `int` and its truncated value is not an `int`. -/
  | badConversion
  /-- The fuel bound of the embedding was reached. -/
  | outOfFuel
  deriving DecidableEq, Repr

/-- The method `YxlangNode::setVariable`: `variables[varname] = value`. -/
def setVariable (s : Env) (varname : String) (value : Dbl) : Env :=
  { s with variablemap := Function.update s.variablemap varname (some value) }

/-- The method `YxlangNode::existsVariable`: whether `find` reaches the key. -/
def existsVariable (s : Env) (varname : String) : Bool :=
  (s.variablemap varname).isSome

/-- The method `YxlangNode::getVariable`: `0` when the key is not found. -/
def getVariable (s : Env) (varname : String) : Dbl :=
  match s.variablemap varname with
  | none => Dbl.zero
  | some v => v

/-- The method `YxlangNode::setFunction`: `functions[funcname] = value`. -/
def setFunction (s : Env) (funcname : String) (value : CustomFunction) : Env :=
  { s with functionmap := Function.update s.functionmap funcname (some value) }

/-- The method `YxlangNode::existsFunction`: whether `find` reaches the key. -/
def existsFunction (s : Env) (funcname : String) : Bool :=
  (s.functionmap funcname).isSome

/-- The method `YxlangNode::getFunction`: `NULL` (`none`) when the key is not found. -/
def getFunction (s : Env) (funcname : String) : Option CustomFunction :=
  s.functionmap funcname

/-- The outcome of an `evaluate()` call: the returned number and the tables afterwards. -/
abbrev Result := Except Fault (Dbl × Env)

/-- The two operand calls `left->evaluate()` and `right->evaluate()` of an arithmetic
expression, in the order the compiled code runs them; returns both values. -/
def evalOperands (ev : YxlangNode → Env → Result) (rightFirst : Bool)
    (left right : YxlangNode) (s : Env) : Except Fault (Dbl × Dbl × Env) :=
  if rightFirst then
    match ev right s with
    | .error f => .error f
    | .ok (r, s1) =>
      match ev left s1 with
      | .error f => .error f
      | .ok (l, s2) => .ok (l, r, s2)
  else
    match ev left s with
    | .error f => .error f
    | .ok (l, s1) =>
      match ev right s1 with
      | .error f => .error f
      | .ok (r, s2) => .ok (l, r, s2)

/-- The statements `double leftValue = left->evaluate(); double rightValue =
right->evaluate();` of `CNCompare` and `CNBinaryFunction`. -/
def evalBoth (ev : YxlangNode → Env → Result)
    (left right : YxlangNode) (s : Env) : Except Fault (Dbl × Dbl × Env) :=
  evalOperands ev false left right s

/-- The first loop of `CNCallUDF::evaluate`.  `paramnode` is the first argument and
`exprnode` the second; a `dynamic_cast` that fails leaves the null pointer, so every node
that is not a `CNParamlist` (`CNExprlist`) ends the loop (counts as no argument).  Each
round saves the parameter's value in `oldVal`, evaluates the next argument if there is one,
stores the value (or `0`) under the parameter's name and follows `paramnode->left`. -/
def bindLoop (ev : YxlangNode → Env → Result) :
    YxlangNode → YxlangNode → (String → Option Dbl) → Env →
      Except Fault ((String → Option Dbl) × Env)
  | .CNParamlist name left _, exprnode, oldVal, s =>
    match exprnode with
    | .CNExprlist eleft eright =>
      match ev eleft s with
      | .error f => .error f
      | .ok (val, s1) =>
        bindLoop ev left eright
          (Function.update oldVal name (some (getVariable s name))) (setVariable s1 name val)
    | _ =>
      bindLoop ev left .NULL
        (Function.update oldVal name (some (getVariable s name))) (setVariable s name Dbl.zero)
  | _, _, oldVal, s => .ok (oldVal, s)

/-- Reading `oldVal[varname]` in the local map of `CNCallUDF::evaluate`: a missing key reads
as `0` (the entry `operator[]` then inserts is `0` too, so later reads agree). -/
def oldValAt (oldVal : String → Option Dbl) (varname : String) : Dbl :=
  match oldVal varname with
  | none => Dbl.zero
  | some v => v

/-- The second loop of `CNCallUDF::evaluate` (`restore old values`): stores
`oldVal[*varname]` under the parameter's name and follows `paramnode->right`. -/
def restoreLoop : YxlangNode → (String → Option Dbl) → Env → Env
  | .CNParamlist name _ right, oldVal, s =>
    restoreLoop right oldVal (setVariable s name (oldValAt oldVal name))
  | _, _, s => s

/-! ## `evaluate()` -/

/-- The bodies of the `evaluate()` overrides, by the class of the object `node` points to; the
calls `child->evaluate()` a body makes are run by `ev`.  A call through the null pointer does
not return (`nullDeref`). -/
def evaluateBody (P : Platform) (ev : YxlangNode → Env → Result) : YxlangNode → Env → Result
  | .NULL, _ => .error .nullDeref
  | .CNConstant value, s => .ok (value, s)
  | .CNVariable name, s =>
    .ok (if existsVariable s name then getVariable s name else Dbl.zero, s)
  | .CNNegate node, s =>
    match ev node s with
    | .error f => .error f
    | .ok (v, s1) => .ok (Dbl.neg v, s1)
  | .CNAdd left right, s =>
    match evalOperands ev (P.rightFirst .add) left right s with
    | .error f => .error f
    | .ok (l, r, s1) => .ok (Dbl.add l r, s1)
  | .CNSubtract left right, s =>
    match evalOperands ev (P.rightFirst .sub) left right s with
    | .error f => .error f
    | .ok (l, r, s1) => .ok (Dbl.sub l r, s1)
  | .CNMultiply left right, s =>
    match evalOperands ev (P.rightFirst .mul) left right s with
    | .error f => .error f
    | .ok (l, r, s1) => .ok (Dbl.mul l r, s1)
  | .CNDivide left right, s =>
    match evalOperands ev (P.rightFirst .div) left right s with
    | .error f => .error f
    | .ok (l, r, s1) => .ok (Dbl.div l r, s1)
  | .CNModulo left right, s =>
    match evalOperands ev (P.rightFirst .mod) left right s with
    | .error f => .error f
    | .ok (l, r, s1) => .ok (Dbl.fmod l r, s1)
  | .CNPower left right, s =>
    match evalOperands ev (P.rightFirst .pow) left right s with
    | .error f => .error f
    | .ok (l, r, s1) => .ok (P.pow l r, s1)
  | .CNCompare fn left right, s =>
    match evalBoth ev left right s with
    | .error f => .error f
    | .ok (leftValue, rightValue, s1) =>
      let v : Int :=
        if fn = 1 then (if Dbl.gt leftValue rightValue then 1 else 0)
        else if fn = 2 then (if Dbl.lt leftValue rightValue then 1 else 0)
        else if fn = 3 then (if Dbl.ne leftValue rightValue then 1 else 0)
        else if fn = 4 then (if Dbl.eq leftValue rightValue then 1 else 0)
        else if fn = 5 then (if Dbl.ge leftValue rightValue then 1 else 0)
        else if fn = 6 then (if Dbl.le leftValue rightValue then 1 else 0)
        else 0
      .ok (Dbl.ofInt v, s1)
  | .CNUnaryFunction fn left _, s =>
    match ev left s with
    | .error f => .error f
    | .ok (leftValue, s1) =>
      if fn = 1 then .ok (P.sqrt leftValue, s1)
      else if fn = 2 then .ok (P.exp leftValue, s1)
      else if fn = 3 then .ok (P.log leftValue, s1)
      else if fn = 4 then
        -- `std::cout << "= " << v << std::endl;` runs while `v` still holds `0`
        .ok (leftValue, { s1 with out := s1.out ++ ("= " ++ P.shows Dbl.zero ++ "\n") })
      else .ok (Dbl.zero, s1)
  | .CNBinaryFunction fn left right, s =>
    match evalBoth ev left right s with
    | .error f => .error f
    | .ok (leftValue, rightValue, s1) =>
      if fn = 1 then .ok (P.pow leftValue rightValue, s1) else .ok (Dbl.zero, s1)
  | .CNExprlist left _, s => ev left s
  | .CNAssignment name left, s =>
    match ev left s with
    | .error f => .error f
    | .ok (v, s1) => .ok (v, setVariable s1 name v)
  | .CNCondition cond left right, s =>
    match ev cond s with
    | .error f => .error f
    | .ok (c, s1) =>
      match Dbl.toInt32 c with
      | none => .error .badConversion
      | some k =>
        if k ≠ 0 then ev left s1
        else if right = .NULL then .ok (Dbl.zero, s1)
        else ev right s1
  | .CNStatement left right, s =>
    match ev left s with
    | .error f => .error f
    | .ok (_, s1) => ev right s1
  | .CNParamlist _ _ _, s => .ok (Dbl.zero, s)
  | .CNCustomFunction name left right, s =>
    .ok (Dbl.zero, setFunction s name ⟨name, left, right⟩)
  | .CNCallUDF name left _, s =>
    match getFunction s name with
    | none => .ok (Dbl.zero, s)
    | some func =>
      match bindLoop ev func.left left (fun _ => none) s with
      | .error f => .error f
      | .ok (oldVal, s1) =>
        match ev func.right s1 with
        | .error f => .error f
        | .ok (v, s2) => .ok (v, restoreLoop func.left oldVal s2)

/-- The virtual call `node->evaluate()` on the tables `s`, with at most `fuel` nested calls of
`evaluate()`: a user function may call itself for ever, so the depth is bounded and a deeper
evaluation ends in `outOfFuel`. -/
def evaluate (P : Platform) : Nat → YxlangNode → Env → Result
  | 0, _, _ => .error .outOfFuel
  | fuel + 1, node, s => evaluateBody P (evaluate P fuel) node s

/-- The call `node->evaluate()` on the tables `s` returns `v` and leaves the tables `s'`. -/
def Returns (P : Platform) (node : YxlangNode) (s : Env) (v : Dbl) (s' : Env) : Prop :=
  ∃ fuel, evaluate P fuel node s = .ok (v, s')

/-- Whether a tree is built from the classes whose `evaluate()` writes no table and prints
nothing: constants, variable references, negation, the six arithmetic classes, comparisons,
the unary functions with code 1, 2, 3 (sqrt, exp, log), the binary functions, expression
lists and parameter lists.  Children a node never evaluates (the tail of an expression
list, the links of a parameter list, the unused `right` of a unary function) may be
anything, the null pointer included. -/
def isPure : YxlangNode → Bool
  | .CNConstant _ => true
  | .CNVariable _ => true
  | .CNNegate node => isPure node
  | .CNAdd left right => isPure left && isPure right
  | .CNSubtract left right => isPure left && isPure right
  | .CNMultiply left right => isPure left && isPure right
  | .CNDivide left right => isPure left && isPure right
  | .CNModulo left right => isPure left && isPure right
  | .CNPower left right => isPure left && isPure right
  | .CNCompare _ left right => isPure left && isPure right
  | .CNUnaryFunction fn left _ => (decide (fn = 1) || decide (fn = 2) || decide (fn = 3)) && isPure left
  | .CNBinaryFunction _ left right => isPure left && isPure right
  | .CNExprlist left _ => isPure left
  | .CNParamlist _ _ _ => true
  | _ => false

/-- Whether a tree holds no `CNCallUDF` object, at any place (the null pointer is no
object). -/
def callFree : YxlangNode → Bool
  | .NULL => true
  | .CNConstant _ => true
  | .CNVariable _ => true
  | .CNNegate node => callFree node
  | .CNAdd left right => callFree left && callFree right
  | .CNSubtract left right => callFree left && callFree right
  | .CNMultiply left right => callFree left && callFree right
  | .CNDivide left right => callFree left && callFree right
  | .CNModulo left right => callFree left && callFree right
  | .CNPower left right => callFree left && callFree right
  | .CNCompare _ left right => callFree left && callFree right
  | .CNUnaryFunction _ left right => callFree left && callFree right
  | .CNBinaryFunction _ left right => callFree left && callFree right
  | .CNExprlist left right => callFree left && callFree right
  | .CNAssignment _ left => callFree left
  | .CNCondition cond left right => callFree cond && callFree left && callFree right
  | .CNStatement left right => callFree left && callFree right
  | .CNParamlist _ left right => callFree left && callFree right
  | .CNCustomFunction _ left right => callFree left && callFree right
  | .CNCallUDF _ _ _ => false

/-- The height of a tree: one more than the height of its highest child, `1` for a leaf and
for the null pointer. -/
def height : YxlangNode → Nat
  | .NULL => 1
  | .CNConstant _ => 1
  | .CNVariable _ => 1
  | .CNNegate node => height node + 1
  | .CNAdd left right => max (height left) (height right) + 1
  | .CNSubtract left right => max (height left) (height right) + 1
  | .CNMultiply left right => max (height left) (height right) + 1
  | .CNDivide left right => max (height left) (height right) + 1
  | .CNModulo left right => max (height left) (height right) + 1
  | .CNPower left right => max (height left) (height right) + 1
  | .CNCompare _ left right => max (height left) (height right) + 1
  | .CNUnaryFunction _ left right => max (height left) (height right) + 1
  | .CNBinaryFunction _ left right => max (height left) (height right) + 1
  | .CNExprlist left right => max (height left) (height right) + 1
  | .CNAssignment _ left => height left + 1
  | .CNCondition cond left right => max (height cond) (max (height left) (height right)) + 1
  | .CNStatement left right => max (height left) (height right) + 1
  | .CNParamlist _ left right => max (height left) (height right) + 1
  | .CNCustomFunction _ left right => max (height left) (height right) + 1
  | .CNCallUDF _ left right => max (height left) (height right) + 1

/-! ## `print()` -/

/-- The static method `YxlangNode::indent`: `std::string(d * 2, ' ')`.  The product is
computed in `unsigned int` (32 bits), so it wraps at `2^32`; the character is the space,
code 32. -/
def indent (d : Nat) : String :=
  String.mk (List.replicate ((d * 2) % 4294967296) (Char.ofNat 32))

/-- The argument `depth+1` of the nested calls of `print`, an `unsigned int`. -/
def nextDepth (depth : Nat) : Nat := (depth + 1) % 4294967296

/-- The `print(os, depth)` overrides, by the class of the object.  The stream `os` is the
list of the lines written so far, one entry for each statement `os << ... << std::endl`
(the text without the line end).  `CNVariable::value` is never initialised: the number
printed for it is whatever the object holds, `junk k` for the object that writes line `k`.
A call through the null pointer does not return (`nullDeref`). -/
def print (P : Platform) (junk : Nat → Dbl) :
    YxlangNode → Nat → List String → Except Fault (List String)
  | .NULL, _, _ => .error .nullDeref
  | .CNConstant value, depth, os => .ok (os ++ [indent depth ++ P.shows value])
  | .CNVariable name, depth, os =>
    .ok (os ++ [indent depth ++ name ++ ":" ++ P.shows (junk os.length)])
  | .CNNegate node, depth, os =>
    print P junk node (nextDepth depth) (os ++ [indent depth ++ "- negate"])
  | .CNAdd left right, depth, os =>
    match print P junk left (nextDepth depth) (os ++ [indent depth ++ "+ add"]) with
    | .error f => .error f
    | .ok os1 => print P junk right (nextDepth depth) os1
  | .CNSubtract left right, depth, os =>
    match print P junk left (nextDepth depth) (os ++ [indent depth ++ "- subtract"]) with
    | .error f => .error f
    | .ok os1 => print P junk right (nextDepth depth) os1
  | .CNMultiply left right, depth, os =>
    match print P junk left (nextDepth depth) (os ++ [indent depth ++ "* multiply"]) with
    | .error f => .error f
    | .ok os1 => print P junk right (nextDepth depth) os1
  | .CNDivide left right, depth, os =>
    match print P junk left (nextDepth depth) (os ++ [indent depth ++ "/ divide"]) with
    | .error f => .error f
    | .ok os1 => print P junk right (nextDepth depth) os1
  | .CNModulo left right, depth, os =>
    match print P junk left (nextDepth depth) (os ++ [indent depth ++ "% modulo"]) with
    | .error f => .error f
    | .ok os1 => print P junk right (nextDepth depth) os1
  | .CNPower left right, depth, os =>
    match print P junk left (nextDepth depth) (os ++ [indent depth ++ "^ power"]) with
    | .error f => .error f
    | .ok os1 => print P junk right (nextDepth depth) os1
  | .CNCompare fn left right, depth, os =>
    match print P junk left (nextDepth depth)
      (os ++ [indent depth ++ toString fn ++ " compare"]) with
    | .error f => .error f
    | .ok os1 => print P junk right (nextDepth depth) os1
  | .CNUnaryFunction fn left _, depth, os =>
    print P junk left (nextDepth depth) (os ++ [indent depth ++ toString fn ++ " unaryfunction"])
  | .CNBinaryFunction fn left right, depth, os =>
    match print P junk left (nextDepth depth)
      (os ++ [indent depth ++ toString fn ++ " binaryfunction"]) with
    | .error f => .error f
    | .ok os1 => print P junk right (nextDepth depth) os1
  | .CNExprlist left right, depth, os =>
    match print P junk left (nextDepth depth) (os ++ [indent depth ++ " exprlist"]) with
    | .error f => .error f
    | .ok os1 => if right = .NULL then .ok os1 else print P junk right (nextDepth depth) os1
  | .CNAssignment name left, depth, os =>
    print P junk left (nextDepth depth) (os ++ [indent depth ++ " assignment:" ++ name])
  | .CNCondition cond left right, depth, os =>
    match print P junk cond (nextDepth depth) (os ++ [indent depth ++ " condition"]) with
    | .error f => .error f
    | .ok os1 =>
      match print P junk left (nextDepth depth) os1 with
      | .error f => .error f
      | .ok os2 => if right = .NULL then .ok os2 else print P junk right (nextDepth depth) os2
  | .CNStatement left right, depth, os =>
    match print P junk left (nextDepth depth) (os ++ [indent depth ++ " statement"]) with
    | .error f => .error f
    | .ok os1 => print P junk right (nextDepth depth) os1
  | .CNParamlist name left right, depth, os =>
    match (if left = .NULL then .ok (os ++ [indent depth ++ " paramlist: " ++ name])
      else print P junk left (nextDepth depth)
        (os ++ [indent depth ++ " paramlist: " ++ name])) with
    | .error f => .error f
    | .ok os1 => if right = .NULL then .ok os1 else print P junk right (nextDepth depth) os1
  | .CNCustomFunction name left right, depth, os =>
    match print P junk left (nextDepth depth) (os ++ [indent depth ++ " function:" ++ name]) with
    | .error f => .error f
    | .ok os1 => print P junk right (nextDepth depth) os1
  | .CNCallUDF name left right, depth, os =>
    match print P junk left (nextDepth depth) (os ++ [indent depth ++ " call UDF:" ++ name]) with
    | .error f => .error f
    | .ok os1 => if right = .NULL then .ok os1 else print P junk right (nextDepth depth) os1

/-- What a node writes after the indentation on the line of its own, `u` being the number
printed for the uninitialised member of a `CNVariable`. -/
def label (P : Platform) (u : Dbl) : YxlangNode → String
  | .NULL => ""
  | .CNConstant value => P.shows value
  | .CNVariable name => name ++ ":" ++ P.shows u
  | .CNNegate _ => "- negate"
  | .CNAdd _ _ => "+ add"
  | .CNSubtract _ _ => "- subtract"
  | .CNMultiply _ _ => "* multiply"
  | .CNDivide _ _ => "/ divide"
  | .CNModulo _ _ => "% modulo"
  | .CNPower _ _ => "^ power"
  | .CNCompare fn _ _ => toString fn ++ " compare"
  | .CNUnaryFunction fn _ _ => toString fn ++ " unaryfunction"
  | .CNBinaryFunction fn _ _ => toString fn ++ " binaryfunction"
  | .CNExprlist _ _ => " exprlist"
  | .CNAssignment name _ => " assignment:" ++ name
  | .CNCondition _ _ _ => " condition"
  | .CNStatement _ _ => " statement"
  | .CNParamlist name _ _ => " paramlist: " ++ name
  | .CNCustomFunction name _ _ => " function:" ++ name
  | .CNCallUDF name _ _ => " call UDF:" ++ name

/-- The children whose `print` the method of a node calls, in the order of the calls; a
child behind a test `if (child)` is listed when it is not the null pointer. -/
def printedChildren : YxlangNode → List YxlangNode
  | .NULL => []
  | .CNConstant _ => []
  | .CNVariable _ => []
  | .CNNegate node => [node]
  | .CNAdd left right => [left, right]
  | .CNSubtract left right => [left, right]
  | .CNMultiply left right => [left, right]
  | .CNDivide left right => [left, right]
  | .CNModulo left right => [left, right]
  | .CNPower left right => [left, right]
  | .CNCompare _ left right => [left, right]
  | .CNUnaryFunction _ left _ => [left]
  | .CNBinaryFunction _ left right => [left, right]
  | .CNExprlist left right => if right = .NULL then [left] else [left, right]
  | .CNAssignment _ left => [left]
  | .CNCondition cond left right =>
    if right = .NULL then [cond, left] else [cond, left, right]
  | .CNStatement left right => [left, right]
  | .CNParamlist _ left right =>
    (if left = .NULL then [] else [left]) ++ (if right = .NULL then [] else [right])
  | .CNCustomFunction _ left right => [left, right]
  | .CNCallUDF _ left right => if right = .NULL then [left] else [left, right]

/-- The calls `child->print(os, depth)` for the children of a list, one after the other. -/
def printList (P : Platform) (junk : Nat → Dbl) :
    List YxlangNode → Nat → List String → Except Fault (List String)
  | [], _, os => .ok os
  | child :: rest, depth, os =>
    match print P junk child depth os with
    | .error f => .error f
    | .ok os1 => printList P junk rest depth os1

/-- The node `sub` lies `n` levels below `root`, along children that `print` visits. -/
inductive NestedAt : Nat → YxlangNode → YxlangNode → Prop
  | self (root : YxlangNode) : NestedAt 0 root root
  | step {n : Nat} {root child sub : YxlangNode} (hc : child ∈ printedChildren root)
      (hs : NestedAt n child sub) : NestedAt (n + 1) root sub

/-! ## The class `YxlangContext` and the host program -/

/-- The class `YxlangContext`: its own member `variables` (field `variablemap`), which is
not the static `YxlangNode::variables`, and the vector `expressions` of the top-level trees
the parser has built. -/
structure YxlangContext where
  variablemap : String → Option Dbl
  expressions : List YxlangNode

namespace YxlangContext

/-- The method `YxlangContext::clearExpressions`: deletes every tree and clears the vector. -/
def clearExpressions (c : YxlangContext) : YxlangContext :=
  { c with expressions := [] }

/-- The method `YxlangContext::existsVariable`, on the context's own map. -/
def existsVariable (c : YxlangContext) (varname : String) : Bool :=
  (c.variablemap varname).isSome

/-- The method `YxlangContext::getVariable`, on the context's own map: `0` when the key is
not found. -/
def getVariable (c : YxlangContext) (varname : String) : Dbl :=
  match c.variablemap varname with
  | none => Dbl.zero
  | some v => v

/-- The action of the grammar rule `start: stmtlist`:
`driver.calc.expressions.push_back(tree)`. -/
def pushExpression (c : YxlangContext) (tree : YxlangNode) : YxlangContext :=
  { c with expressions := c.expressions ++ [tree] }

/-- A host writes `calc.variables[varname] = value` (the member is public). -/
def seedVariable (c : YxlangContext) (varname : String) (value : Dbl) : YxlangContext :=
  { c with variablemap := Function.update c.variablemap varname (some value) }

end YxlangContext

/-- What a host program holds: its `YxlangContext` object (the driver's member `calc`) and
the static tables of `YxlangNode`. -/
structure HostState where
  context : YxlangContext
  statics : Env

/-- The host calls `node->evaluate()`.  The method takes no argument and no node holds a
reference to a context: it works on the static tables, and the context object is as
before. -/
def hostEvaluate (P : Platform) (fuel : Nat) (node : YxlangNode) (h : HostState) :
    Except Fault (Dbl × HostState) :=
  match evaluate P fuel node h.statics with
  | .error f => .error f
  | .ok (v, s) => .ok (v, { h with statics := s })

/-- A freshly constructed context: no variable, no expression. -/
def emptyContext : YxlangContext := ⟨fun _ => none, []⟩

/-- Every result `ev` returns is returned by `ev'` too (as with more fuel). -/
def Extends (ev ev' : YxlangNode → Env → Result) : Prop :=
  ∀ node s r, ev node s = .ok r → ev' node s = .ok r

/-! ## Trees as the grammar actions of `parser.cc` build them -/

/-- The rule `paramlist`: `new CNParamlist(name, NULL)` for the last name and
`new CNParamlist(name, rest)` before it; the second constructor argument is `left`, and
`right` keeps its default `NULL`.  The empty list stands for the null pointer. -/
def paramlist : List String → YxlangNode
  | [] => .NULL
  | name :: rest => .CNParamlist name (paramlist rest) .NULL

/-- The rule `exprlist`: `new CNExprlist(expr, NULL)` for the last expression and
`new CNExprlist(expr, rest)` before it.  The empty list stands for the null pointer. -/
def exprlist : List YxlangNode → YxlangNode
  | [] => .NULL
  | e :: rest => .CNExprlist e (exprlist rest)

/-- The rule `sentencelist` (statements closed by `;`): the null pointer for the empty list,
and for `stmt ';' sentencelist` the statement itself when the rest is the null pointer and
`new CNStatement(stmt, rest)` otherwise. -/
def sentencelist : List YxlangNode → YxlangNode
  | [] => .NULL
  | stmt :: rest =>
    if sentencelist rest = .NULL then stmt else .CNStatement stmt (sentencelist rest)

/-- The rule `stmtlist` (statements closed by the end of a line or of the file): the same
two actions as `sentencelist`. -/
def stmtlist : List YxlangNode → YxlangNode
  | [] => .NULL
  | stmt :: rest =>
    if stmtlist rest = .NULL then stmt else .CNStatement stmt (stmtlist rest)

/-- The rule `ifstmt: IF expr THEN sentencelist FI`: `new CNCondition(expr, list, NULL)`. -/
def ifstmt (cond : YxlangNode) (thenList : List YxlangNode) : YxlangNode :=
  .CNCondition cond (sentencelist thenList) .NULL

/-- The rule `ifstmt: IF expr THEN sentencelist ELSE sentencelist FI`. -/
def ifelsestmt (cond : YxlangNode) (thenList elseList : List YxlangNode) : YxlangNode :=
  .CNCondition cond (sentencelist thenList) (sentencelist elseList)

/-- The rule `funcstmt: LET name '(' paramlist ')' '=' sentencelist`:
`new CNCustomFunction(name, paramlist, list)`. -/
def funcstmt (name : String) (params : List String) (body : List YxlangNode) : YxlangNode :=
  .CNCustomFunction name (paramlist params) (sentencelist body)

/-! ## Concrete inputs -/

/-- The tables when the program starts: both maps empty, nothing printed. -/
def initialEnv : Env := ⟨fun _ => none, fun _ => none, ""⟩

/-- A platform for the concrete evaluations below.  They call no `<cmath>` function, so
these four fields are stand-ins; the only number `evaluate` prints is `0`, printed as `0`;
operands run left to right. -/
def samplePlatform : Platform :=
  ⟨fun _ => Dbl.nan, fun _ => Dbl.nan, fun _ => Dbl.nan, fun _ _ => Dbl.nan, fun _ => "0",
    fun _ => false⟩

/-- An implementation that runs the operands of `+ - * /` left to right and the arguments of
a function call (`std::fmod`, `std::pow`) right to left, as builds with g++ on x86-64
commonly do; the functions of `cmath` are the stand-ins of `samplePlatform`. -/
def gccPlatform : Platform :=
  { samplePlatform with
    rightFirst := fun op =>
      match op with
      | .mod => true
      | .pow => true
      | _ => false }

/-- The sentence `if n <= 1 then 1; else n * f(n-1); fi`, the body of the factorial `f`. -/
def factBody : YxlangNode :=
  .CNCondition (.CNCompare 6 (.CNVariable "n") (.CNConstant (Dbl.ofInt 1)))
    (.CNConstant (Dbl.ofInt 1))
    (.CNMultiply (.CNVariable "n")
      (.CNCallUDF "f"
        (exprlist [.CNSubtract (.CNVariable "n") (.CNConstant (Dbl.ofInt 1))]) .NULL))

/-- The registration `let f(n) = if n <= 1 then 1; else n * f(n-1); fi` leaves in the
function table. -/
def factFunction : CustomFunction := ⟨"f", paramlist ["n"], factBody⟩

/-- The call `f(k)` for an integer literal `k`. -/
def factCall (k : Nat) : YxlangNode :=
  .CNCallUDF "f" (exprlist [.CNConstant (Dbl.ofInt k)]) .NULL

/-- The lines `b = 7` and `let g(a, b) = a + b;` of a program. -/
def sumProgram : YxlangNode :=
  .CNStatement (.CNAssignment "b" (.CNConstant (Dbl.ofInt 7)))
    (.CNCustomFunction "g" (paramlist ["a", "b"]) (.CNAdd (.CNVariable "a") (.CNVariable "b")))

/-- What `let g(a, b) = a + b;` leaves in the function table. -/
def sumFunction : CustomFunction :=
  ⟨"g", paramlist ["a", "b"], .CNAdd (.CNVariable "a") (.CNVariable "b")⟩

/-- The call `g(1, 2)`. -/
def sumCall : YxlangNode :=
  .CNCallUDF "g" (exprlist [.CNConstant (Dbl.ofInt 1), .CNConstant (Dbl.ofInt 2)]) .NULL

/-- What `let f(a, a) = a;` leaves in the function table: one name declared twice. -/
def dupFunction : CustomFunction := ⟨"f", paramlist ["a", "a"], .CNVariable "a"⟩

/-- What `let w(z) = a = 99;` leaves in the function table: the body assigns the global `a`. -/
def spoilFunction : CustomFunction :=
  ⟨"w", paramlist ["z"], .CNAssignment "a" (.CNConstant (Dbl.ofInt 99))⟩

/-- What `let f(a, b, c) = a;` leaves in the function table. -/
def firstFunction : CustomFunction := ⟨"f", paramlist ["a", "b", "c"], .CNVariable "a"⟩

/-- The call `f(1, w(0))`. -/
def spoilCall : YxlangNode :=
  .CNCallUDF "f" (exprlist [.CNConstant (Dbl.ofInt 1),
    .CNCallUDF "w" (exprlist [.CNConstant (Dbl.ofInt 0)]) .NULL]) .NULL

/-- What `let h(a, b) = b;` leaves in the function table. -/
def secondFunction : CustomFunction := ⟨"h", paramlist ["a", "b"], .CNVariable "b"⟩

/-- What `let f(x) = 2;` leaves in the function table. -/
def twoFunction : CustomFunction := ⟨"f", paramlist ["x"], .CNConstant (Dbl.ofInt 2)⟩

/-- What `let f(p) = g = y;` leaves in the function table: the body reads the global `y`
and assigns the global `g`. -/
def leakFunction : CustomFunction :=
  ⟨"f", paramlist ["p"], .CNAssignment "g" (.CNVariable "y")⟩

/-- What `let f(a, b) = a * 10 + b;` leaves in the function table. -/
def pairFunction : CustomFunction :=
  ⟨"f", paramlist ["a", "b"],
    .CNAdd (.CNMultiply (.CNVariable "a") (.CNConstant (Dbl.ofInt 10))) (.CNVariable "b")⟩

/-- The call `f(b, a)`. -/
def swapCall : YxlangNode :=
  .CNCallUDF "f" (exprlist [.CNVariable "b", .CNVariable "a"]) .NULL

/-- What `let w(z) = b = 99;` leaves in the function table: the body assigns the global `b`. -/
def spoilSecondFunction : CustomFunction :=
  ⟨"w", paramlist ["z"], .CNAssignment "b" (.CNConstant (Dbl.ofInt 99))⟩

/-- The call `f(1, 2, w(0))`. -/
def spoilSecondCall : YxlangNode :=
  .CNCallUDF "f" (exprlist [.CNConstant (Dbl.ofInt 1), .CNConstant (Dbl.ofInt 2),
    .CNCallUDF "w" (exprlist [.CNConstant (Dbl.ofInt 0)]) .NULL]) .NULL

/-- What `let f(x) = f(x);` leaves in the function table. -/
def loopFunction : CustomFunction :=
  ⟨"f", paramlist ["x"], .CNCallUDF "f" (exprlist [.CNVariable "x"]) .NULL⟩

/-- The call `f(1)`. -/
def loopCall : YxlangNode :=
  .CNCallUDF "f" (exprlist [.CNConstant (Dbl.ofInt 1)]) .NULL

/-! ## The binding of actuals to parameters, step by step -/

/-- The actuals `es` are evaluated in turn, each after the earlier parameters have been
stored: the `i`-th actual returns `vs[i]`, which is then stored under `qs[i]`; the last
argument is the environment after the last store.  The three lists have the same length. -/
inductive BindsArgs (P : Platform) :
    List String → List YxlangNode → Env → List Dbl → Env → Prop
  | nil (s : Env) : BindsArgs P [] [] s [] s
  | cons {q : String} {qs : List String} {e : YxlangNode} {es : List YxlangNode}
      {s s1 s2 : Env} {v : Dbl} {vs : List Dbl} (he : Returns P e s v s1)
      (hrest : BindsArgs P qs es (setVariable s1 q v) vs s2) :
      BindsArgs P (q :: qs) (e :: es) s (v :: vs) s2

/-- The statements of a list are evaluated one after the other, each in the environment the
one before it left; the value and the environment are those of the last statement.  The
empty list does not run. -/
inductive RunsInOrder (P : Platform) : List YxlangNode → Env → Dbl → Env → Prop
  | last {stmt : YxlangNode} {s s1 : Env} {v : Dbl} (h : Returns P stmt s v s1) :
      RunsInOrder P [stmt] s v s1
  | next {stmt second : YxlangNode} {rest : List YxlangNode} {s s1 s2 : Env} {w v : Dbl}
      (h : Returns P stmt s w s1) (hrest : RunsInOrder P (second :: rest) s1 v s2) :
      RunsInOrder P (stmt :: second :: rest) s v s2


/-! # Theorems

## Fuel: more fuel returns the same result -/

/-- The operand calls return the same when the callee returns more. -/
theorem evalOperands_mono {ev ev' : YxlangNode → Env → Result} (h : Extends ev ev')
    (b : Bool) (l r : YxlangNode) (s : Env) (x : Dbl × Dbl × Env)
    (hx : evalOperands ev b l r s = .ok x) : evalOperands ev' b l r s = .ok x := by
  unfold evalOperands at hx ⊢
  cases b
  · simp only [Bool.false_eq_true, if_false] at hx ⊢
    cases h1 : ev l s with
    | error f => simp [h1] at hx
    | ok p =>
      obtain ⟨v, s1⟩ := p
      simp only [h1] at hx
      cases h2 : ev r s1 with
      | error f => simp [h2] at hx
      | ok p2 =>
        obtain ⟨v2, s2⟩ := p2
        simp only [h2] at hx
        simp only [h _ _ _ h1, h _ _ _ h2]
        exact hx
  · simp only [if_true] at hx ⊢
    cases h1 : ev r s with
    | error f => simp [h1] at hx
    | ok p =>
      obtain ⟨v, s1⟩ := p
      simp only [h1] at hx
      cases h2 : ev l s1 with
      | error f => simp [h2] at hx
      | ok p2 =>
        obtain ⟨v2, s2⟩ := p2
        simp only [h2] at hx
        simp only [h _ _ _ h1, h _ _ _ h2]
        exact hx

/-- The first loop of a call returns the same when the callee returns more. -/
theorem bindLoop_mono {ev ev' : YxlangNode → Env → Result} (h : Extends ev ev') :
    ∀ (p e : YxlangNode) (o : String → Option Dbl) (s : Env) (x : (String → Option Dbl) × Env),
      bindLoop ev p e o s = .ok x → bindLoop ev' p e o s = .ok x := by
  intro p
  induction p with
  | CNParamlist name left right ihl _ =>
    intro e o s x hx
    cases e with
    | CNExprlist eleft eright =>
      simp only [bindLoop] at hx ⊢
      cases h1 : ev eleft s with
      | error f => simp [h1] at hx
      | ok p =>
        obtain ⟨v, s1⟩ := p
        simp only [h1] at hx
        simp only [h _ _ _ h1]
        exact ihl _ _ _ _ hx
    | _ =>
      simp only [bindLoop] at hx ⊢
      exact ihl _ _ _ _ hx
  | _ =>
    intro e o s x hx
    simpa [bindLoop] using hx

/-- Every body of `evaluate()` returns the same when the calls it makes return more. -/
theorem evaluateBody_mono (P : Platform) {ev ev' : YxlangNode → Env → Result}
    (h : Extends ev ev') : Extends (evaluateBody P ev) (evaluateBody P ev') := by
  intro node s r hr
  cases node with
  | NULL => simp [evaluateBody] at hr
  | CNConstant value => simpa [evaluateBody] using hr
  | CNVariable name => simpa [evaluateBody] using hr
  | CNNegate node =>
    simp only [evaluateBody] at hr ⊢
    cases h1 : ev node s with
    | error f => simp [h1] at hr
    | ok p => obtain ⟨v, s1⟩ := p; simp only [h1] at hr; simp only [h _ _ _ h1]; exact hr
  | CNAdd left right =>
    simp only [evaluateBody] at hr ⊢
    cases h1 : evalOperands ev (P.rightFirst .add) left right s with
    | error f => simp [h1] at hr
    | ok p => simp only [h1] at hr; simp only [evalOperands_mono h _ _ _ _ _ h1]; exact hr
  | CNSubtract left right =>
    simp only [evaluateBody] at hr ⊢
    cases h1 : evalOperands ev (P.rightFirst .sub) left right s with
    | error f => simp [h1] at hr
    | ok p => simp only [h1] at hr; simp only [evalOperands_mono h _ _ _ _ _ h1]; exact hr
  | CNMultiply left right =>
    simp only [evaluateBody] at hr ⊢
    cases h1 : evalOperands ev (P.rightFirst .mul) left right s with
    | error f => simp [h1] at hr
    | ok p => simp only [h1] at hr; simp only [evalOperands_mono h _ _ _ _ _ h1]; exact hr
  | CNDivide left right =>
    simp only [evaluateBody] at hr ⊢
    cases h1 : evalOperands ev (P.rightFirst .div) left right s with
    | error f => simp [h1] at hr
    | ok p => simp only [h1] at hr; simp only [evalOperands_mono h _ _ _ _ _ h1]; exact hr
  | CNModulo left right =>
    simp only [evaluateBody] at hr ⊢
    cases h1 : evalOperands ev (P.rightFirst .mod) left right s with
    | error f => simp [h1] at hr
    | ok p => simp only [h1] at hr; simp only [evalOperands_mono h _ _ _ _ _ h1]; exact hr
  | CNPower left right =>
    simp only [evaluateBody] at hr ⊢
    cases h1 : evalOperands ev (P.rightFirst .pow) left right s with
    | error f => simp [h1] at hr
    | ok p => simp only [h1] at hr; simp only [evalOperands_mono h _ _ _ _ _ h1]; exact hr
  | CNCompare fn left right =>
    simp only [evaluateBody, evalBoth] at hr ⊢
    cases h1 : evalOperands ev false left right s with
    | error f => simp [h1] at hr
    | ok p => simp only [h1] at hr; simp only [evalOperands_mono h _ _ _ _ _ h1]; exact hr
  | CNUnaryFunction fn left right =>
    simp only [evaluateBody] at hr ⊢
    cases h1 : ev left s with
    | error f => simp [h1] at hr
    | ok p => obtain ⟨v, s1⟩ := p; simp only [h1] at hr; simp only [h _ _ _ h1]; exact hr
  | CNBinaryFunction fn left right =>
    simp only [evaluateBody, evalBoth] at hr ⊢
    cases h1 : evalOperands ev false left right s with
    | error f => simp [h1] at hr
    | ok p => simp only [h1] at hr; simp only [evalOperands_mono h _ _ _ _ _ h1]; exact hr
  | CNExprlist left right =>
    simp only [evaluateBody] at hr ⊢
    exact h _ _ _ hr
  | CNAssignment name left =>
    simp only [evaluateBody] at hr ⊢
    cases h1 : ev left s with
    | error f => simp [h1] at hr
    | ok p => obtain ⟨v, s1⟩ := p; simp only [h1] at hr; simp only [h _ _ _ h1]; exact hr
  | CNCondition cond left right =>
    simp only [evaluateBody] at hr ⊢
    cases h1 : ev cond s with
    | error f => simp [h1] at hr
    | ok p =>
      obtain ⟨c, s1⟩ := p
      simp only [h1] at hr
      simp only [h _ _ _ h1]
      cases h2 : Dbl.toInt32 c with
      | none => simp [h2] at hr
      | some k =>
        simp only [h2] at hr ⊢
        by_cases hk : k = 0
        · by_cases hn : right = YxlangNode.NULL
          · simpa [hk, hn] using hr
          · simp only [hk, hn, ne_eq, not_true_eq_false, if_false] at hr ⊢
            exact h _ _ _ hr
        · simp only [hk, ne_eq, not_false_eq_true, if_true] at hr ⊢
          exact h _ _ _ hr
  | CNStatement left right =>
    simp only [evaluateBody] at hr ⊢
    cases h1 : ev left s with
    | error f => simp [h1] at hr
    | ok p =>
      obtain ⟨v, s1⟩ := p
      simp only [h1] at hr
      simp only [h _ _ _ h1]
      exact h _ _ _ hr
  | CNParamlist name left right => simpa [evaluateBody] using hr
  | CNCustomFunction name left right => simpa [evaluateBody] using hr
  | CNCallUDF name left right =>
    simp only [evaluateBody] at hr ⊢
    cases h0 : getFunction s name with
    | none => simpa [h0] using hr
    | some func =>
      simp only [h0] at hr ⊢
      cases h1 : bindLoop ev func.left left (fun _ => none) s with
      | error f => simp [h1] at hr
      | ok p =>
        obtain ⟨o, s1⟩ := p
        simp only [h1] at hr
        simp only [bindLoop_mono h _ _ _ _ _ h1]
        cases h2 : ev func.right s1 with
        | error f => simp [h2] at hr
        | ok p2 =>
          obtain ⟨v, s2⟩ := p2
          simp only [h2] at hr
          simp only [h _ _ _ h2]
          exact hr

/-- One more unit of fuel keeps every returned result. -/
theorem evaluate_mono (P : Platform) (n : Nat) : Extends (evaluate P n) (evaluate P (n + 1)) := by
  induction n with
  | zero => intro node s r hr; simp [evaluate] at hr
  | succ n ih =>
    intro node s r hr
    rw [evaluate] at hr ⊢
    exact evaluateBody_mono P ih _ _ _ hr

/-- More fuel keeps every returned result. -/
theorem evaluate_mono_le (P : Platform) {n m : Nat} (hnm : n ≤ m) :
    Extends (evaluate P n) (evaluate P m) := by
  induction hnm with
  | refl => intro node s r hr; exact hr
  | step _ ih => intro node s r hr; exact evaluate_mono P _ _ _ _ (ih _ _ _ hr)

/-- A call returns at most one result. -/
theorem Returns.unique {P : Platform} {node : YxlangNode} {s : Env} {v v' : Dbl} {s' s'' : Env}
    (h1 : Returns P node s v s') (h2 : Returns P node s v' s'') : v = v' ∧ s' = s'' := by
  obtain ⟨n, hn⟩ := h1
  obtain ⟨m, hm⟩ := h2
  have e1 := evaluate_mono_le P (Nat.le_max_left n m) _ _ _ hn
  have e2 := evaluate_mono_le P (Nat.le_max_right n m) _ _ _ hm
  rw [e1] at e2
  simpa using e2

/-- Two evaluations that return can be run with one common fuel. -/
theorem Returns.common {P : Platform} {a b : YxlangNode} {s t : Env} {v w : Dbl} {s' t' : Env}
    (h1 : Returns P a s v s') (h2 : Returns P b t w t') :
    ∃ n, evaluate P n a s = .ok (v, s') ∧ evaluate P n b t = .ok (w, t') := by
  obtain ⟨n, hn⟩ := h1
  obtain ⟨m, hm⟩ := h2
  exact ⟨max n m, evaluate_mono_le P (Nat.le_max_left n m) _ _ _ hn,
    evaluate_mono_le P (Nat.le_max_right n m) _ _ _ hm⟩

/-! ## The variable table -/

theorem getVariable_of_some {s : Env} {x : String} {v : Dbl} (h : s.variablemap x = some v) :
    getVariable s x = v := by
  simp [getVariable, h]

theorem getVariable_congr {s t : Env} {x : String} (h : s.variablemap x = t.variablemap x) :
    getVariable s x = getVariable t x := by
  simp [getVariable, h]

theorem getVariable_setVariable_same (s : Env) (x : String) (v : Dbl) :
    getVariable (setVariable s x v) x = v := by
  simp [getVariable, setVariable]

theorem getVariable_setVariable_other (s : Env) {x y : String} (v : Dbl) (h : y ≠ x) :
    getVariable (setVariable s x v) y = getVariable s y := by
  simp [getVariable, setVariable, Function.update_noteq h]

theorem setVariable_setVariable (s : Env) (x : String) (v w : Dbl) :
    setVariable (setVariable s x v) x w = setVariable s x w := by
  simp [setVariable]

theorem setVariable_self {s : Env} {x : String} {v : Dbl} (h : s.variablemap x = some v) :
    setVariable s x v = s := by
  cases s
  simp only [setVariable, Env.mk.injEq, and_true, true_and] at h ⊢
  rw [← h]
  exact Function.update_eq_self _ _

/-! ## Single nodes -/

theorem evaluate_constant (P : Platform) (n : Nat) (v : Dbl) (s : Env) :
    evaluate P (n + 1) (.CNConstant v) s = .ok (v, s) := by
  simp [evaluate, evaluateBody]

theorem evaluate_variable (P : Platform) (n : Nat) (x : String) (s : Env) :
    evaluate P (n + 1) (.CNVariable x) s = .ok (getVariable s x, s) := by
  simp only [evaluate, evaluateBody, existsVariable, getVariable]
  cases s.variablemap x <;> simp

/-- Operands that leave the tables alone may run in either order. -/
theorem evalOperands_pure {ev : YxlangNode → Env → Result} {l r : YxlangNode} {s : Env}
    {a b : Dbl} (hl : ev l s = .ok (a, s)) (hr : ev r s = .ok (b, s)) (flag : Bool) :
    evalOperands ev flag l r s = .ok (a, b, s) := by
  cases flag <;> simp [evalOperands, hl, hr]

theorem Returns.constant (P : Platform) (v : Dbl) (s : Env) :
    Returns P (.CNConstant v) s v s :=
  ⟨1, evaluate_constant P 0 v s⟩

theorem Returns.variable (P : Platform) (x : String) (s : Env) :
    Returns P (.CNVariable x) s (getVariable s x) s :=
  ⟨1, evaluate_variable P 0 x s⟩

theorem Returns.assignment {P : Platform} {e : YxlangNode} {s s1 : Env} {v : Dbl}
    (h : Returns P e s v s1) (x : String) :
    Returns P (.CNAssignment x e) s v (setVariable s1 x v) := by
  obtain ⟨n, hn⟩ := h
  exact ⟨n + 1, by simp only [evaluate, evaluateBody, hn]⟩

theorem Returns.statement {P : Platform} {first second : YxlangNode} {s s1 s2 : Env}
    {v1 v2 : Dbl} (h1 : Returns P first s v1 s1) (h2 : Returns P second s1 v2 s2) :
    Returns P (.CNStatement first second) s v2 s2 := by
  obtain ⟨n, hn1, hn2⟩ := Returns.common h1 h2
  exact ⟨n + 1, by simp only [evaluate, evaluateBody, hn1, hn2]⟩

theorem Returns.statement_inv {P : Platform} {first second : YxlangNode} {s s2 : Env}
    {v2 : Dbl} (h : Returns P (.CNStatement first second) s v2 s2) :
    ∃ v1 s1, Returns P first s v1 s1 ∧ Returns P second s1 v2 s2 := by
  obtain ⟨n, hn⟩ := h
  cases n with
  | zero => simp [evaluate] at hn
  | succ n =>
    simp only [evaluate, evaluateBody] at hn
    cases h1 : evaluate P n first s with
    | error f => simp [h1] at hn
    | ok p =>
      obtain ⟨v1, s1⟩ := p
      simp only [h1] at hn
      exact ⟨v1, s1, ⟨n, h1⟩, ⟨n, hn⟩⟩

theorem Returns.condition_then {P : Platform} {cond left : YxlangNode} {s s1 s2 : Env}
    {c v : Dbl} {k : Int} (hc : Returns P cond s c s1) (hk : Dbl.toInt32 c = some k)
    (hk0 : k ≠ 0) (hl : Returns P left s1 v s2) (right : YxlangNode) :
    Returns P (.CNCondition cond left right) s v s2 := by
  obtain ⟨n, hn1, hn2⟩ := Returns.common hc hl
  exact ⟨n + 1, by simp [evaluate, evaluateBody, hn1, hn2, hk, hk0]⟩

theorem Returns.condition_else {P : Platform} {cond right : YxlangNode} {s s1 s2 : Env}
    {c v : Dbl} (hc : Returns P cond s c s1) (hk : Dbl.toInt32 c = some 0)
    (hr : Returns P right s1 v s2) (left : YxlangNode) :
    Returns P (.CNCondition cond left right) s v s2 := by
  obtain ⟨n, hn1, hn2⟩ := Returns.common hc hr
  have hne : right ≠ YxlangNode.NULL := by
    rintro rfl
    cases n with
    | zero => simp [evaluate] at hn2
    | succ n => simp [evaluate, evaluateBody] at hn2
  exact ⟨n + 1, by simp [evaluate, evaluateBody, hn1, hn2, hk, hne]⟩

theorem Returns.condition_none {P : Platform} {cond : YxlangNode} {s s1 : Env}
    {c : Dbl} (hc : Returns P cond s c s1) (hk : Dbl.toInt32 c = some 0) (left : YxlangNode) :
    Returns P (.CNCondition cond left YxlangNode.NULL) s Dbl.zero s1 := by
  obtain ⟨n, hn⟩ := hc
  exact ⟨n + 1, by simp [evaluate, evaluateBody, hn, hk]⟩

/-! ## A number that compares equal to zero converts to the `int` 0 -/

theorem Dbl.scaled_zero (x : Int) (neg : Bool) (e : Int) : Dbl.scaled x neg 0 e = 0 := by
  cases neg <;> simp [Dbl.scaled]

theorem Dbl.scaled_eq_zero {x : Int} {neg : Bool} {m : Nat} {e : Int}
    (h : Dbl.scaled x neg m e = 0) : m = 0 := by
  cases neg <;>
    simpa [Dbl.scaled, Nat.shiftLeft_eq] using h

theorem Dbl.toInt32_of_eq_zero {c : Dbl} (h : Dbl.eq c Dbl.zero = true) :
    Dbl.toInt32 c = some 0 := by
  cases c with
  | nan => simp [Dbl.eq, Dbl.cmp, Dbl.zero] at h
  | inf s => cases s <;> simp [Dbl.eq, Dbl.cmp, Dbl.zero] at h
  | fin s m e =>
    simp only [Dbl.eq, Dbl.cmp, Dbl.zero, Dbl.scaled_zero, decide_eq_true_eq,
      Option.some.injEq] at h
    have hm : m = 0 := by
      have := (compare_eq_iff_eq (a := Dbl.scaled (min e 0) s m e) (b := 0)).1 h
      exact Dbl.scaled_eq_zero this
    subst hm
    cases e <;> cases s <;> simp [Dbl.toInt32]

/-! ## The first loop of a call -/

/-- With no actual left the first loop stores `0` under every remaining parameter and
touches nothing else. -/
theorem bindLoop_no_args (ev : YxlangNode → Env → Result) :
    ∀ (rs : List String) (o : String → Option Dbl) (s : Env),
      ∃ o' s', bindLoop ev (paramlist rs) YxlangNode.NULL o s = .ok (o', s') ∧
        (∀ r ∈ rs, getVariable s' r = Dbl.zero) ∧
        (∀ x, x ∉ rs → s'.variablemap x = s.variablemap x) ∧
        s'.functionmap = s.functionmap ∧ s'.out = s.out := by
  intro rs
  induction rs with
  | nil => intro o s; exact ⟨o, s, by simp [paramlist, bindLoop]⟩
  | cons r rs ih =>
    intro o s
    obtain ⟨o', s', h1, h2, h3, h4, h5⟩ :=
      ih (Function.update o r (some (getVariable s r))) (setVariable s r Dbl.zero)
    refine ⟨o', s', by simpa [paramlist, bindLoop] using h1, ?_, ?_, h4, h5⟩
    · intro x hx
      by_cases hxr : x ∈ rs
      · exact h2 x hxr
      · have hxe : x = r := by simpa [hxr] using hx
        subst hxe
        rw [getVariable_congr (h3 x hxr), getVariable_setVariable_same]
    · intro x hx
      have hx1 : x ≠ r := fun h => hx (by simp [h])
      have hx2 : x ∉ rs := fun h => hx (by simp [h])
      rw [h3 x hx2]
      simp [setVariable, Function.update_noteq hx1]

/-- While actuals remain the first loop runs them as `BindsArgs` says, then goes on with
the parameters `rs` that are left and no actual. -/
theorem bindLoop_args {P : Platform} {qs : List String} {es : List YxlangNode} {s s1 : Env}
    {vs : List Dbl} (h : BindsArgs P qs es s vs s1) (rs : List String) :
    ∀ o : String → Option Dbl, ∃ fuel o1, ∀ n, fuel ≤ n →
      bindLoop (evaluate P n) (paramlist (qs ++ rs)) (exprlist es) o s
        = bindLoop (evaluate P n) (paramlist rs) YxlangNode.NULL o1 s1 := by
  induction h with
  | nil s => intro o; exact ⟨0, o, fun n _ => by simp [exprlist]⟩
  | @cons q qs e es s sa s2 v vs he _ ih =>
    intro o
    obtain ⟨a, ha⟩ := he
    obtain ⟨b, o1, hb⟩ := ih (Function.update o q (some (getVariable s q)))
    refine ⟨max a b, o1, fun n hn => ?_⟩
    have hev := evaluate_mono_le P (le_trans (Nat.le_max_left a b) hn) _ _ _ ha
    have := hb n (le_trans (Nat.le_max_right a b) hn)
    simp only [List.cons_append, paramlist, exprlist, bindLoop, hev]
    exact this

/-- A name outside `qs` that no actual writes keeps its value through the stores. -/
theorem BindsArgs.frame {P : Platform} {qs : List String} {es : List YxlangNode} {s s1 : Env}
    {vs : List Dbl} (h : BindsArgs P qs es s vs s1) (x : String)
    (hpure : ∀ e ∈ es, ∀ t w t', Returns P e t w t' → getVariable t' x = getVariable t x)
    (hx : x ∉ qs) : getVariable s1 x = getVariable s x := by
  induction h with
  | nil s => rfl
  | @cons q qs e es s sa s2 v vs he _ ih =>
    have hx1 : x ≠ q := fun h => hx (by simp [h])
    have hx2 : x ∉ qs := fun h => hx (by simp [h])
    rw [ih (fun e' he' => hpure e' (by simp [he'])) hx2,
      getVariable_setVariable_other _ _ hx1]
    exact hpure e (by simp) _ _ _ he

/-- With distinct names that no actual writes, every parameter ends with the value its
actual returned. -/
theorem BindsArgs.values {P : Platform} {qs : List String} {es : List YxlangNode} {s s1 : Env}
    {vs : List Dbl} (h : BindsArgs P qs es s vs s1) (hnd : qs.Nodup) (Q : List String)
    (hQ : ∀ q ∈ qs, q ∈ Q)
    (hpure : ∀ e ∈ es, ∀ t w t', Returns P e t w t' →
      ∀ q ∈ Q, getVariable t' q = getVariable t q) :
    ∀ q v, (q, v) ∈ qs.zip vs → getVariable s1 q = v := by
  induction h with
  | nil s => intro q v hqv; simp at hqv
  | @cons q qs e es s sa s2 v vs he hrest ih =>
    intro q' v' hqv
    have hnd' := List.nodup_cons.1 hnd
    simp only [List.zip_cons_cons, List.mem_cons, Prod.mk.injEq] at hqv
    rcases hqv with ⟨rfl, rfl⟩ | hqv
    · rw [BindsArgs.frame hrest q'
        (fun e' he' t w t' hr => hpure e' (by simp [he']) t w t' hr q' (hQ q' (by simp)))
        hnd'.1, getVariable_setVariable_same]
    · exact ih hnd'.2 (fun q hq => hQ q (by simp [hq]))
        (fun e' he' => hpure e' (by simp [he'])) q' v' hqv

/-- The first loop never looks at the actuals beyond the last parameter. -/
theorem bindLoop_extra_args (ev : YxlangNode → Env → Result) :
    ∀ (ps : List String) (first extra : List YxlangNode) (o : String → Option Dbl) (s : Env),
      first.length = ps.length →
      bindLoop ev (paramlist ps) (exprlist (first ++ extra)) o s
        = bindLoop ev (paramlist ps) (exprlist first) o s := by
  intro ps
  induction ps with
  | nil => intro first extra o s _; simp [paramlist, bindLoop]
  | cons p ps ih =>
    intro first extra o s hlen
    cases first with
    | nil => simp at hlen
    | cons e first =>
      simp only [List.cons_append, paramlist, exprlist, bindLoop]
      cases ev e s with
      | error f => rfl
      | ok r => exact ih first extra _ _ (by simpa using hlen)

/-! ## The factorial -/

/-- The arithmetic the factorial needs is exact up to `18!`. -/
theorem fact_arith (k : Nat) (h2 : 2 ≤ k) (h18 : k ≤ 18) :
    Dbl.le (Dbl.ofInt k) (Dbl.ofInt 1) = false ∧
    Dbl.sub (Dbl.ofInt k) (Dbl.ofInt 1) = Dbl.ofInt ((k - 1 : Nat)) ∧
    Dbl.mul (Dbl.ofInt k) (Dbl.ofInt ((k - 1).factorial)) = Dbl.ofInt (k.factorial) := by
  interval_cases k <;> decide

/-- Up to `18!` the factorial is a `double`: the conversion from `int` does not round. -/
theorem ofInt_factorial (k : Nat) (h18 : k ≤ 18) :
    Dbl.ofInt k.factorial = Dbl.fin false k.factorial 0 := by
  interval_cases k <;> decide

/-- With `n` holding `k` the body of `f` returns `k!` and leaves the tables as they were. -/
theorem fact_body (P : Platform) : ∀ k : Nat, 1 ≤ k → k ≤ 18 → ∀ s : Env,
    getFunction s "f" = some factFunction → s.variablemap "n" = some (Dbl.ofInt k) →
    ∃ fuel, evaluate P fuel factBody s = .ok (Dbl.ofInt k.factorial, s) := by
  intro k hk
  induction k, hk using Nat.le_induction with
  | base =>
    intro _ s _ hn
    refine ⟨3, ?_⟩
    have hv := getVariable_of_some hn
    have hc : evaluate P 2 (.CNCompare 6 (.CNVariable "n") (.CNConstant (Dbl.ofInt 1))) s
        = .ok (Dbl.ofInt 1, s) := by
      rw [evaluate, evaluateBody, evalBoth,
        evalOperands_pure (evaluate_variable P 0 "n" s) (evaluate_constant P 0 _ s), hv]
      simp only [(by decide : Dbl.le (Dbl.ofInt 1) (Dbl.ofInt 1) = true)]
      rfl
    rw [factBody, evaluate, evaluateBody, hc]
    simp only [(by decide : Dbl.toInt32 (Dbl.ofInt 1) = some 1)]
    simp [evaluate_constant]
  | succ k hk ih =>
    intro h18 s hf hn
    have hv := getVariable_of_some hn
    obtain ⟨a1, a2, a3⟩ := fact_arith (k + 1) (by omega) h18
    simp only [Nat.add_sub_cancel] at a2 a3
    obtain ⟨f0, h0⟩ := ih (by omega) (setVariable s "n" (Dbl.ofInt k))
      (by simpa [getFunction, setVariable] using hf) (by simp [setVariable])
    have hb := evaluate_mono_le P (show f0 ≤ f0 + 2 by omega) _ _ _ h0
    refine ⟨f0 + 5, ?_⟩
    have hc : evaluate P (f0 + 4)
        (.CNCompare 6 (.CNVariable "n") (.CNConstant (Dbl.ofInt 1))) s
        = .ok (Dbl.ofInt 0, s) := by
      rw [evaluate, evaluateBody, evalBoth,
        evalOperands_pure (evaluate_variable P _ "n" s) (evaluate_constant P _ _ s), hv]
      simp only [a1]
      rfl
    have harg : evaluate P (f0 + 2)
        (.CNSubtract (.CNVariable "n") (.CNConstant (Dbl.ofInt 1))) s
        = .ok (Dbl.ofInt k, s) := by
      rw [evaluate, evaluateBody,
        evalOperands_pure (evaluate_variable P _ "n" s) (evaluate_constant P _ _ s), hv]
      simp only [a2]
    have hcall : evaluate P (f0 + 3)
        (.CNCallUDF "f"
          (exprlist [.CNSubtract (.CNVariable "n") (.CNConstant (Dbl.ofInt 1))]) .NULL) s
        = .ok (Dbl.ofInt k.factorial, s) := by
      rw [evaluate, evaluateBody]
      simp only [hf, factFunction, paramlist, exprlist, bindLoop, harg, hb, restoreLoop,
        oldValAt, Function.update_same, hv, setVariable_setVariable, setVariable_self hn]
    have hmul : evaluate P (f0 + 4) (.CNMultiply (.CNVariable "n")
        (.CNCallUDF "f"
          (exprlist [.CNSubtract (.CNVariable "n") (.CNConstant (Dbl.ofInt 1))]) .NULL)) s
        = .ok (Dbl.ofInt (k + 1).factorial, s) := by
      rw [evaluate, evaluateBody, evalOperands_pure (evaluate_variable P _ "n" s) hcall, hv]
      simp only [a3]
    rw [factBody, evaluate, evaluateBody, hc]
    simp only [(by decide : Dbl.toInt32 (Dbl.ofInt 0) = some 0)]
    simpa using hmul

/-! ## The claims -/

/-- C1, at an input where the code departs from it.  The claim: after a call returns every
parameter of the function holds the value it had before the call.  The program `b = 7`,
`let g(a, b) = a + b;` leaves `a` unset (it reads `0`) and `b = 7`; the call `g(1, 2)` then
returns `3`, and afterwards `a` reads `0` again but `b` reads `2`, the value of the second
actual: the loop under `restore old values` follows `paramnode->right`, which is null in
every list the grammar builds, so only the first parameter is restored. -/
theorem C1_second_parameter_not_restored (P : Platform) :
    ∃ s1 s2, Returns P sumProgram initialEnv Dbl.zero s1 ∧
      getFunction s1 "g" = some sumFunction ∧
      getVariable s1 "a" = Dbl.zero ∧ getVariable s1 "b" = Dbl.ofInt 7 ∧
      Returns P sumCall s1 (Dbl.ofInt 3) s2 ∧
      getVariable s2 "a" = Dbl.zero ∧ getVariable s2 "b" = Dbl.ofInt 2 := by
  have hprog : evaluate P 3 sumProgram initialEnv = .ok (Dbl.zero,
      setFunction (setVariable initialEnv "b" (Dbl.ofInt 7)) "g" sumFunction) := by
    simp only [sumProgram, evaluate, evaluateBody, sumFunction]
  have hbody : ∀ s : Env, getVariable s "a" = Dbl.ofInt 1 → getVariable s "b" = Dbl.ofInt 2 →
      evaluate P 2 (.CNAdd (.CNVariable "a") (.CNVariable "b")) s = .ok (Dbl.ofInt 3, s) := by
    intro s ha hb
    rw [evaluate, evaluateBody,
      evalOperands_pure (evaluate_variable P 0 "a" s) (evaluate_variable P 0 "b" s), ha, hb]
    simp only [(by decide : Dbl.add (Dbl.ofInt 1) (Dbl.ofInt 2) = Dbl.ofInt 3)]
  have hcall : evaluate P 3 sumCall
      (setFunction (setVariable initialEnv "b" (Dbl.ofInt 7)) "g" sumFunction)
      = .ok (Dbl.ofInt 3,
        setVariable (setVariable (setVariable
          (setFunction (setVariable initialEnv "b" (Dbl.ofInt 7)) "g" sumFunction)
          "a" (Dbl.ofInt 1)) "b" (Dbl.ofInt 2)) "a" Dbl.zero) := by
    rw [sumCall, evaluate, evaluateBody]
    simp only [getFunction, setFunction, Function.update_same, sumFunction, paramlist, exprlist,
      bindLoop, evaluate_constant]
    rw [hbody _ (by simp [getVariable, setVariable]) (by simp [getVariable, setVariable])]
    simp [restoreLoop, oldValAt, getVariable, setVariable, initialEnv]
  refine ⟨_, _, ⟨3, hprog⟩, ?_, ?_, ?_, ⟨3, hcall⟩, ?_, ?_⟩ <;>
    simp [getFunction, getVariable, setVariable, setFunction, initialEnv]

/-- C2.  With `f` registered as `f(n) = if n <= 1 then 1 else n * f(n-1) fi`, for every
variable table (and whatever else is registered or printed) and every `k` with
`1 ≤ k ≤ 18`, the call `f(k)` returns, its value is the number `k!` (exactly: `k!` is below
`2^53`), and afterwards `getVariable("n")` is what it was before the call; no other variable,
no function and no output changes.
The two operands of `*` and of `-` may run in either order. -/
theorem C2_factorial (P : Platform) (s : Env) (k : Nat)
    (hf : getFunction s "f" = some factFunction) (h1 : 1 ≤ k) (h18 : k ≤ 18) :
    ∃ s', Returns P (factCall k) s (Dbl.fin false k.factorial 0) s' ∧
      getVariable s' "n" = getVariable s "n" ∧
      (∀ y, y ≠ "n" → s'.variablemap y = s.variablemap y) ∧
      s'.functionmap = s.functionmap ∧ s'.out = s.out := by
  obtain ⟨f0, h0⟩ := fact_body P k h1 h18 (setVariable s "n" (Dbl.ofInt k))
    (by simpa [getFunction, setVariable] using hf) (by simp [setVariable])
  rw [ofInt_factorial k h18] at h0
  have hb := evaluate_mono_le P (show f0 ≤ f0 + 1 by omega) _ _ _ h0
  refine ⟨setVariable s "n" (getVariable s "n"), ⟨f0 + 2, ?_⟩,
    getVariable_setVariable_same _ _ _, ?_, rfl, rfl⟩
  · rw [factCall, evaluate, evaluateBody]
    simp only [hf, factFunction, paramlist, exprlist, bindLoop, evaluate_constant, hb,
      restoreLoop, oldValAt, Function.update_same, setVariable_setVariable]
  · intro y hy
    simp [setVariable, Function.update_noteq hy]

/-- C2 at `k = 5`, from the tables of a fresh program with `f` registered: `f(5)` returns
`120` and `n` reads as before. -/
theorem C2_factorial_witness :
    ∃ s', Returns samplePlatform (factCall 5) (setFunction initialEnv "f" factFunction)
        (Dbl.fin false 120 0) s' ∧
      getVariable s' "n" = getVariable (setFunction initialEnv "f" factFunction) "n" := by
  obtain ⟨s', h1, h2, _⟩ :=
    C2_factorial samplePlatform (setFunction initialEnv "f" factFunction) 5
      (by simp [getFunction, setFunction]) (by decide) (by decide)
  exact ⟨s', h1, h2⟩

/-- C3 fails as stated: the condition `0.5` is a nonzero number (`0.5 != 0` holds) and the
then-branch `1` is present, yet `if 0.5 then 1; else 9; fi` returns `9`, the value of the
else-branch, and does not return `1`: `int k = cond->evaluate()` truncates `0.5` to `0`. -/
theorem C3_counterexample :
    Returns samplePlatform (.CNConstant (Dbl.fin false 1 (-1))) initialEnv
        (Dbl.fin false 1 (-1)) initialEnv ∧
      Dbl.ne (Dbl.fin false 1 (-1)) Dbl.zero = true ∧
      Returns samplePlatform (.CNConstant (Dbl.ofInt 1)) initialEnv (Dbl.ofInt 1) initialEnv ∧
      Returns samplePlatform
        (.CNCondition (.CNConstant (Dbl.fin false 1 (-1))) (.CNConstant (Dbl.ofInt 1))
          (.CNConstant (Dbl.ofInt 9))) initialEnv (Dbl.ofInt 9) initialEnv ∧
      ¬ Returns samplePlatform
        (.CNCondition (.CNConstant (Dbl.fin false 1 (-1))) (.CNConstant (Dbl.ofInt 1))
          (.CNConstant (Dbl.ofInt 9))) initialEnv (Dbl.ofInt 1) initialEnv := by
  have h9 : Returns samplePlatform
      (.CNCondition (.CNConstant (Dbl.fin false 1 (-1))) (.CNConstant (Dbl.ofInt 1))
        (.CNConstant (Dbl.ofInt 9))) initialEnv (Dbl.ofInt 9) initialEnv :=
    Returns.condition_else (Returns.constant _ _ _) (by decide) (Returns.constant _ _ _) _
  refine ⟨Returns.constant _ _ _, by decide, Returns.constant _ _ _, h9, fun h1 => ?_⟩
  exact absurd (Returns.unique h9 h1).1 (by decide)

/-- C3 as amended.  For every Condition whose cond returns a number `c` that the conversion
to `int` takes to a nonzero `k` (so `|c| ≥ 1`, within the range of `int`) and whose
then-branch returns `v` from the environment cond left: the Condition returns `v` and leaves
what the then-branch left.  Nothing is asked of the else-branch, which may be null or a node
that never returns: it is not evaluated. -/
theorem C3_condition_then_branch (P : Platform) (cond left right : YxlangNode) (s s1 s2 : Env)
    (c v : Dbl) (k : Int) (hc : Returns P cond s c s1) (hk : Dbl.toInt32 c = some k)
    (hk0 : k ≠ 0) (hl : Returns P left s1 v s2) :
    Returns P (.CNCondition cond left right) s v s2 :=
  Returns.condition_then hc hk hk0 hl right

/-- C3 as amended, at `if 2 then 1; else 9; fi`: it returns `1`. -/
theorem C3_condition_then_branch_witness :
    Returns samplePlatform
      (.CNCondition (.CNConstant (Dbl.ofInt 2)) (.CNConstant (Dbl.ofInt 1))
        (.CNConstant (Dbl.ofInt 9)))
      initialEnv (Dbl.ofInt 1) initialEnv :=
  C3_condition_then_branch samplePlatform _ _ _ initialEnv initialEnv initialEnv (Dbl.ofInt 2)
    (Dbl.ofInt 1) 2 (Returns.constant _ _ _) (by decide) (by decide) (Returns.constant _ _ _)

/-- C4.  For every Condition whose cond returns a number equal to zero (`c == 0`, so `+0`
or `-0`): when the else-branch returns `v`, the Condition returns `v` with the environment
the else-branch left; when the else-branch is null it returns `0.0` and leaves what cond
left.  Nothing is asked of the then-branch (it may be null or never return): it is not
evaluated.  In particular `Condition(Constant(0), Constant(1), None)` returns `0.0` and
`Condition(Constant(2), Constant(1), Constant(9))` returns `1.0`, in every environment. -/
theorem C4_condition_zero (P : Platform) (cond left right : YxlangNode) (s s1 : Env) (c : Dbl)
    (hc : Returns P cond s c s1) (hz : Dbl.eq c Dbl.zero = true) :
    (∀ v s2, Returns P right s1 v s2 → Returns P (.CNCondition cond left right) s v s2) ∧
    (right = YxlangNode.NULL → Returns P (.CNCondition cond left right) s Dbl.zero s1) ∧
    Returns P (.CNCondition (.CNConstant (Dbl.ofInt 0)) (.CNConstant (Dbl.ofInt 1)) .NULL)
      s Dbl.zero s ∧
    Returns P (.CNCondition (.CNConstant (Dbl.ofInt 2)) (.CNConstant (Dbl.ofInt 1))
      (.CNConstant (Dbl.ofInt 9))) s (Dbl.ofInt 1) s := by
  have hk := Dbl.toInt32_of_eq_zero hz
  refine ⟨fun v s2 hr => Returns.condition_else hc hk hr left, ?_, ?_, ?_⟩
  · rintro rfl
    exact Returns.condition_none hc hk left
  · exact Returns.condition_none (Returns.constant P _ s) (by decide) _
  · exact Returns.condition_then (Returns.constant P _ s)
      (by decide : Dbl.toInt32 (Dbl.ofInt 2) = some 2) (by decide) (Returns.constant P _ s) _

/-- C4 at `if -0.0 then <null> else 9; fi`: the cond is a zero, the then-branch is the null
pointer, and the Condition returns `9`. -/
theorem C4_condition_zero_witness :
    Returns samplePlatform
      (.CNCondition (.CNConstant (Dbl.fin true 0 0)) .NULL (.CNConstant (Dbl.ofInt 9)))
      initialEnv (Dbl.ofInt 9) initialEnv :=
  (C4_condition_zero samplePlatform (.CNConstant (Dbl.fin true 0 0)) .NULL
    (.CNConstant (Dbl.ofInt 9)) initialEnv initialEnv (Dbl.fin true 0 0)
    (Returns.constant _ _ _) (by decide)).1 _ _ (Returns.constant _ _ _)

/-- C5.  For every name that is not in the function table and every argument list (any
node, any `right`), the call returns `0.0` and leaves the variable table, the function
table and the output exactly as they were; it does so with one unit of fuel, so no
argument is evaluated, whatever the arguments are. -/
theorem C5_undefined_function (P : Platform) (name : String) (left right : YxlangNode) (s : Env)
    (hf : getFunction s name = none) :
    Returns P (.CNCallUDF name left right) s Dbl.zero s ∧
    ∀ fuel, evaluate P (fuel + 1) (.CNCallUDF name left right) s = .ok (Dbl.zero, s) := by
  have h : ∀ fuel, evaluate P (fuel + 1) (.CNCallUDF name left right) s = .ok (Dbl.zero, s) := by
    intro fuel
    simp only [evaluate, evaluateBody, hf]
  exact ⟨⟨1, h 0⟩, h⟩

/-- C5 at `never_defined(x = 1)`: the call returns `0.0` and the assignment in the argument
has no effect. -/
theorem C5_undefined_function_witness :
    Returns samplePlatform
      (.CNCallUDF "never_defined" (exprlist [.CNAssignment "x" (.CNConstant (Dbl.ofInt 1))])
        .NULL) initialEnv Dbl.zero initialEnv :=
  (C5_undefined_function samplePlatform "never_defined" _ _ initialEnv rfl).1

/-- C6.  For every name and every variable table, `VariableRef(name)` returns the value
bound to the name when there is one and `0.0` when there is none, and every return leaves
the variable table (its key set included), the function table and the output unchanged. -/
theorem C6_variable_ref (P : Platform) (name : String) (s : Env) :
    (∀ v, s.variablemap name = some v → Returns P (.CNVariable name) s v s) ∧
    (s.variablemap name = none → Returns P (.CNVariable name) s Dbl.zero s) ∧
    (∀ v s', Returns P (.CNVariable name) s v s' → s' = s) := by
  refine ⟨fun v h => ?_, fun h => ?_, fun v s' h => ?_⟩
  · have := Returns.variable P name s
    rwa [getVariable_of_some h] at this
  · have := Returns.variable P name s
    simpa [getVariable, h] using this
  · exact (Returns.unique h (Returns.variable P name s)).2

/-- C7 fails as stated, in two ways.  First `let f(a, a) = a;` has two parameters and the
call `f(5)` supplies one actual, yet the body is not evaluated with the first parameter
bound to `5`: the first loop stores `5` under `a` and then `0` under `a` again, so `a` reads
`0` when the body starts, and the call returns `0`.  Second, with `let w(z) = a = 99;` and
`let f(a, b, c) = a;` (three distinct names) the call `f(1, w(0))` supplies two actuals;
the first actual returns `1`, but evaluating the second one assigns `a`, so the body starts
with `a = 99` and the call returns `99`. -/
theorem C7_counterexample :
    (∃ (o' : String → Option Dbl) (s' : Env),
      bindLoop (evaluate samplePlatform 1) (paramlist ["a", "a"])
        (exprlist [.CNConstant (Dbl.ofInt 5)]) (fun _ => none)
        (setFunction initialEnv "f" dupFunction) = .ok (o', s') ∧
      getVariable s' "a" = Dbl.zero ∧ Dbl.zero ≠ Dbl.ofInt 5 ∧
      Returns samplePlatform (.CNCallUDF "f" (exprlist [.CNConstant (Dbl.ofInt 5)]) .NULL)
        (setFunction initialEnv "f" dupFunction) Dbl.zero
        (setVariable (setFunction initialEnv "f" dupFunction) "a" (Dbl.ofInt 5))) ∧
    (∃ (o' : String → Option Dbl) (s' s'' : Env),
      bindLoop (evaluate samplePlatform 3) (paramlist ["a", "b", "c"])
        (exprlist [.CNConstant (Dbl.ofInt 1),
          .CNCallUDF "w" (exprlist [.CNConstant (Dbl.ofInt 0)]) .NULL]) (fun _ => none)
        (setFunction (setFunction initialEnv "w" spoilFunction) "f" firstFunction)
        = .ok (o', s') ∧
      getVariable s' "a" = Dbl.ofInt 99 ∧ Dbl.ofInt 99 ≠ Dbl.ofInt 1 ∧
      Returns samplePlatform spoilCall
        (setFunction (setFunction initialEnv "w" spoilFunction) "f" firstFunction)
        (Dbl.ofInt 99) s'') := by
  constructor
  · refine ⟨_, _, rfl, by decide, by decide, ⟨3, ?_⟩⟩
    simp [evaluate, evaluateBody, getFunction, setFunction, dupFunction, paramlist, exprlist,
      bindLoop, restoreLoop, oldValAt, existsVariable, getVariable, setVariable]
  · refine ⟨_, _, _, rfl, by decide, by decide, ⟨5, rfl⟩⟩

/-- C7 as amended.  A function is registered with the parameters `qs ++ rs` and a call
supplies one actual for each name of `qs` and none for `rs` (fewer actuals than parameters
when `rs` is not empty).  If the actuals return when evaluated in turn, each after the
earlier parameters have been stored (`BindsArgs`, ending in `s1`), then the first loop ends
in an environment `s'`, in which the body is evaluated (when the body returns from `s'`,
the call returns its value), and in `s'`
* every remaining parameter reads `0.0`, whatever it held before the call;
* every variable that is not a remaining parameter, the functions and the output are as
  the stores for the actuals left them;
* when the parameter names are pairwise distinct and evaluating an actual changes the
  value of no parameter of `qs`, each parameter of `qs` reads the value its actual returned.
-/
theorem C7_missing_arguments (P : Platform) (name : String) (func : CustomFunction)
    (qs rs : List String) (es : List YxlangNode) (right : YxlangNode) (s s1 : Env)
    (vs : List Dbl) (hf : getFunction s name = some func)
    (hp : func.left = paramlist (qs ++ rs)) (hargs : BindsArgs P qs es s vs s1) :
    ∃ (o' : String → Option Dbl) (s' : Env),
      (∃ fuel, ∀ n, fuel ≤ n →
        bindLoop (evaluate P n) func.left (exprlist es) (fun _ => none) s = .ok (o', s')) ∧
      (∀ v s2, Returns P func.right s' v s2 →
        Returns P (.CNCallUDF name (exprlist es) right) s v (restoreLoop func.left o' s2)) ∧
      (∀ r ∈ rs, getVariable s' r = Dbl.zero) ∧
      (∀ x, x ∉ rs → s'.variablemap x = s1.variablemap x) ∧
      s'.functionmap = s1.functionmap ∧ s'.out = s1.out ∧
      ((qs ++ rs).Nodup →
        (∀ e ∈ es, ∀ t w t', Returns P e t w t' →
          ∀ q ∈ qs, getVariable t' q = getVariable t q) →
        ∀ q v, (q, v) ∈ qs.zip vs → getVariable s' q = v) := by
  obtain ⟨fuel, o1, h1⟩ := bindLoop_args hargs rs (fun _ => none)
  obtain ⟨o', s', h2, h3, h4, h5, h6⟩ := bindLoop_no_args (evaluate P fuel) rs o1 s1
  have hloop : ∀ n, fuel ≤ n →
      bindLoop (evaluate P n) func.left (exprlist es) (fun _ => none) s = .ok (o', s') := by
    intro n hn
    rw [hp, h1 n hn]
    exact bindLoop_mono (evaluate_mono_le P hn) _ _ _ _ _ h2
  refine ⟨o', s', ⟨fuel, hloop⟩, ?_, h3, h4, h5, h6, ?_⟩
  · rintro v s2 ⟨m, hm⟩
    refine ⟨max fuel m + 1, ?_⟩
    have hm' := evaluate_mono_le P (Nat.le_max_right fuel m) _ _ _ hm
    simp only [evaluate, evaluateBody, hf, hloop _ (Nat.le_max_left fuel m), hm']
  · intro hnd hpure q v hqv
    have hq : q ∈ qs := (List.of_mem_zip hqv).1
    have hqr : q ∉ rs := fun h => (List.nodup_append.1 hnd).2.2 hq h
    rw [getVariable_congr (h4 q hqr)]
    exact BindsArgs.values hargs (List.nodup_append.1 hnd).1 qs (fun _ h => h) hpure q v hqv

/-- C7 as amended, at `let h(a, b) = b;` called as `h(5)` while `b` holds `7`: when the
body starts `b` reads `0.0` and `a` reads `5`. -/
theorem C7_missing_arguments_witness :
    ∃ (o' : String → Option Dbl) (s' : Env),
      (∃ fuel, ∀ n, fuel ≤ n →
        bindLoop (evaluate samplePlatform n) (paramlist ["a", "b"])
          (exprlist [.CNConstant (Dbl.ofInt 5)]) (fun _ => none)
          (setVariable (setFunction initialEnv "h" secondFunction) "b" (Dbl.ofInt 7))
          = .ok (o', s')) ∧
      getVariable s' "b" = Dbl.zero ∧ getVariable s' "a" = Dbl.ofInt 5 := by
  obtain ⟨o', s', h1, _, h3, _, _, _, h7⟩ :=
    C7_missing_arguments samplePlatform "h" secondFunction ["a"] ["b"]
      [.CNConstant (Dbl.ofInt 5)] .NULL
      (setVariable (setFunction initialEnv "h" secondFunction) "b" (Dbl.ofInt 7))
      (setVariable (setVariable (setFunction initialEnv "h" secondFunction) "b" (Dbl.ofInt 7))
        "a" (Dbl.ofInt 5))
      [Dbl.ofInt 5] (by simp [getFunction, setFunction, setVariable]) rfl
      (BindsArgs.cons (Returns.constant _ _ _) (BindsArgs.nil _))
  refine ⟨o', s', h1, h3 "b" (by simp), h7 (by decide) ?_ "a" (Dbl.ofInt 5) (by simp)⟩
  intro e he t w t' hr q _
  have he' : e = .CNConstant (Dbl.ofInt 5) := by simpa using he
  subst he'
  rw [(Returns.unique hr (Returns.constant _ _ t)).2]

/-- C8.  When a call supplies more actuals than the function has parameters, `first` being
as many actuals as there are parameters and `extra` the ones beyond, the call gives, for
every fuel, exactly the outcome of the call with the actuals `first` only: the same result
and the same environment (or the same failure).  Nothing is asked of `extra`, which may
hold assignments, null pointers or nodes that never return: they are not evaluated. -/
theorem C8_extra_arguments (P : Platform) (name : String) (func : CustomFunction)
    (ps : List String) (first extra : List YxlangNode) (right : YxlangNode) (s : Env)
    (hf : getFunction s name = some func) (hp : func.left = paramlist ps)
    (hk : first.length = ps.length) (fuel : Nat) :
    evaluate P fuel (.CNCallUDF name (exprlist (first ++ extra)) right) s
      = evaluate P fuel (.CNCallUDF name (exprlist first) right) s := by
  cases fuel with
  | zero => rfl
  | succ n =>
    simp only [evaluate, evaluateBody, hf, hp, bindLoop_extra_args _ _ _ _ _ _ hk]

/-- C8 at the factorial called as `f(3, x = 1, <null>)`: the outcome is that of `f(3)`. -/
theorem C8_extra_arguments_witness :
    evaluate samplePlatform 12
        (.CNCallUDF "f" (exprlist ([.CNConstant (Dbl.ofInt 3)] ++
          [.CNAssignment "x" (.CNConstant (Dbl.ofInt 1)), .NULL])) .NULL)
        (setFunction initialEnv "f" factFunction)
      = evaluate samplePlatform 12
        (.CNCallUDF "f" (exprlist [.CNConstant (Dbl.ofInt 3)]) .NULL)
        (setFunction initialEnv "f" factFunction) :=
  C8_extra_arguments samplePlatform "f" factFunction ["n"] _ _ _ _
    (by simp [getFunction, setFunction]) rfl rfl 12

/-- C9.  For every name `x` and expression `e` that returns `v` and leaves `s1`: the
assignment `x = e` returns `v`; afterwards `getVariable(x)` is `v`, every other variable is
bound (or unbound) as in `s1`, and the function table and the output are those of `s1`. -/
theorem C9_assignment (P : Platform) (x : String) (e : YxlangNode) (s s1 : Env) (v : Dbl)
    (he : Returns P e s v s1) :
    ∃ s2, Returns P (.CNAssignment x e) s v s2 ∧ getVariable s2 x = v ∧
      (∀ y, y ≠ x → s2.variablemap y = s1.variablemap y) ∧
      s2.functionmap = s1.functionmap ∧ s2.out = s1.out := by
  refine ⟨setVariable s1 x v, Returns.assignment he x, getVariable_setVariable_same _ _ _, ?_,
    rfl, rfl⟩
  intro y hy
  simp [setVariable, Function.update_noteq hy]

/-- C9 at `x = 5` while `x` holds `3`: the assignment returns `5` and `x` reads `5`. -/
theorem C9_assignment_witness :
    ∃ s2, Returns samplePlatform (.CNAssignment "x" (.CNConstant (Dbl.ofInt 5)))
        (setVariable initialEnv "x" (Dbl.ofInt 3)) (Dbl.ofInt 5) s2 ∧
      getVariable s2 "x" = Dbl.ofInt 5 := by
  obtain ⟨s2, h1, h2, _⟩ := C9_assignment samplePlatform "x" (.CNConstant (Dbl.ofInt 5))
    (setVariable initialEnv "x" (Dbl.ofInt 3)) _ (Dbl.ofInt 5) (Returns.constant _ _ _)
  exact ⟨s2, h1, h2⟩

/-- C10.  A Sequence returns `v` and leaves `s2` exactly when `first` returns some value,
which is dropped, leaving some `s1`, and `second` returns `v` from `s1` leaving `s2`.  In
particular `x = 1` followed by `x = 2` followed by `x` returns `2` from every starting
environment, leaving it with `x` bound to `2`. -/
theorem C10_sequence (P : Platform) (first second : YxlangNode) (s : Env) :
    (∀ v s2, Returns P (.CNStatement first second) s v s2 ↔
      ∃ v1 s1, Returns P first s v1 s1 ∧ Returns P second s1 v s2) ∧
    Returns P (.CNStatement (.CNAssignment "x" (.CNConstant (Dbl.ofInt 1)))
        (.CNStatement (.CNAssignment "x" (.CNConstant (Dbl.ofInt 2))) (.CNVariable "x"))) s
      (Dbl.ofInt 2) (setVariable s "x" (Dbl.ofInt 2)) := by
  constructor
  · intro v s2
    constructor
    · exact Returns.statement_inv
    · rintro ⟨v1, s1, h1, h2⟩
      exact Returns.statement h1 h2
  · have h1 := Returns.assignment (Returns.constant P (Dbl.ofInt 1) s) "x"
    have h2 := Returns.assignment
      (Returns.constant P (Dbl.ofInt 2) (setVariable s "x" (Dbl.ofInt 1))) "x"
    have h3 := Returns.variable P "x"
      (setVariable (setVariable s "x" (Dbl.ofInt 1)) "x" (Dbl.ofInt 2))
    rw [getVariable_setVariable_same, setVariable_setVariable] at h3
    rw [setVariable_setVariable] at h2
    exact Returns.statement h1 (Returns.statement h2 h3)

/-! ## The function table and calls -/

theorem Returns.customFunction (P : Platform) (name : String) (left right : YxlangNode) (s : Env) :
    Returns P (.CNCustomFunction name left right) s Dbl.zero
      (setFunction s name ⟨name, left, right⟩) :=
  ⟨1, by simp only [evaluate, evaluateBody]⟩

theorem setFunction_setFunction (s : Env) (name : String) (d1 d2 : CustomFunction) :
    setFunction (setFunction s name d1) name d2 = setFunction s name d2 := by
  simp [setFunction]

theorem getFunction_setFunction_same (s : Env) (name : String) (d : CustomFunction) :
    getFunction (setFunction s name d) name = some d := by
  simp [getFunction, setFunction]

theorem getFunction_setFunction_other (s : Env) {name g : String} (d : CustomFunction)
    (h : g ≠ name) : getFunction (setFunction s name d) g = getFunction s g := by
  simp [getFunction, setFunction, Function.update_noteq h]

/-- A call of a registered function returns exactly when the first loop ends, the body
returns from the environment the loop left, and the result is the body's value with the
environment the second loop leaves. -/
theorem Returns.call_iff {P : Platform} {name : String} {func : CustomFunction} {t : Env}
    (ht : getFunction t name = some func) (args right : YxlangNode) (v : Dbl) (t3 : Env) :
    Returns P (.CNCallUDF name args right) t v t3 ↔
      ∃ fuel oldVal t1 t2,
        bindLoop (evaluate P fuel) func.left args (fun _ => none) t = .ok (oldVal, t1) ∧
        evaluate P fuel func.right t1 = .ok (v, t2) ∧
        t3 = restoreLoop func.left oldVal t2 := by
  constructor
  · rintro ⟨n, hn⟩
    cases n with
    | zero => simp [evaluate] at hn
    | succ n =>
      simp only [evaluate, evaluateBody, ht] at hn
      cases h1 : bindLoop (evaluate P n) func.left args (fun _ => none) t with
      | error f => simp [h1] at hn
      | ok p =>
        obtain ⟨oldVal, t1⟩ := p
        simp only [h1] at hn
        cases h2 : evaluate P n func.right t1 with
        | error f => simp [h2] at hn
        | ok p2 =>
          obtain ⟨w, t2⟩ := p2
          simp only [h2, Except.ok.injEq, Prod.mk.injEq] at hn
          exact ⟨n, oldVal, t1, t2, h1, by rw [h2, hn.1], hn.2.symm⟩
  · rintro ⟨fuel, oldVal, t1, t2, h1, h2, rfl⟩
    exact ⟨fuel + 1, by simp only [evaluate, evaluateBody, ht, h1, h2]⟩

/-- On a list the grammar builds the second loop stores the first parameter only. -/
theorem restoreLoop_paramlist (ps : List String) (o : String → Option Dbl) (s : Env) :
    restoreLoop (paramlist ps) o s =
      match ps with
      | [] => s
      | p :: _ => setVariable s p (oldValAt o p) := by
  cases ps <;> simp [paramlist, restoreLoop]

/-- The first loop leaves alone a variable that is no parameter and that no actual writes. -/
theorem bindLoop_frame (P : Platform) (fuel : Nat) (y : String) :
    ∀ (ps : List String) (es : List YxlangNode) (o : String → Option Dbl) (s : Env)
      (o' : String → Option Dbl) (s' : Env), y ∉ ps →
      (∀ a ∈ es, ∀ t w t', Returns P a t w t' → getVariable t' y = getVariable t y) →
      bindLoop (evaluate P fuel) (paramlist ps) (exprlist es) o s = .ok (o', s') →
      getVariable s' y = getVariable s y := by
  intro ps
  induction ps with
  | nil =>
    intro es o s o' s' _ _ h
    simp only [paramlist, bindLoop, Except.ok.injEq, Prod.mk.injEq] at h
    rw [← h.2]
  | cons p ps ih =>
    intro es o s o' s' hy hpure h
    have hy1 : y ≠ p := fun e => hy (by simp [e])
    have hy2 : y ∉ ps := fun e => hy (by simp [e])
    cases es with
    | nil =>
      simp only [paramlist, exprlist, bindLoop] at h
      have := ih [] _ _ _ _ hy2 (by simp) (by simpa [exprlist] using h)
      rw [this, getVariable_setVariable_other _ _ hy1]
    | cons a es =>
      simp only [paramlist, exprlist, bindLoop] at h
      cases h1 : evaluate P fuel a s with
      | error f => simp [h1] at h
      | ok r =>
        obtain ⟨val, s1⟩ := r
        simp only [h1] at h
        rw [ih es _ _ _ _ hy2 (fun a' ha' => hpure a' (by simp [ha'])) h,
          getVariable_setVariable_other _ _ hy1]
        exact hpure a (by simp) _ _ _ ⟨fuel, h1⟩

theorem Returns.assignment_inv {P : Platform} {x : String} {e : YxlangNode} {s s2 : Env}
    {v : Dbl} (h : Returns P (.CNAssignment x e) s v s2) :
    ∃ s1, Returns P e s v s1 ∧ s2 = setVariable s1 x v := by
  obtain ⟨n, hn⟩ := h
  cases n with
  | zero => simp [evaluate] at hn
  | succ n =>
    simp only [evaluate, evaluateBody] at hn
    cases h1 : evaluate P n e s with
    | error f => simp [h1] at hn
    | ok p =>
      obtain ⟨w, s1⟩ := p
      simp only [h1, Except.ok.injEq, Prod.mk.injEq] at hn
      exact ⟨s1, ⟨n, by rw [h1, hn.1]⟩, by rw [← hn.2, hn.1]⟩

theorem evalOperands_left_first {P : Platform} {l r : YxlangNode} {s s1 s2 : Env} {a b : Dbl}
    {n : Nat} (hl : evaluate P n l s = .ok (a, s1)) (hr : evaluate P n r s1 = .ok (b, s2)) :
    evalOperands (evaluate P n) false l r s = .ok (a, b, s2) := by
  simp [evalOperands, hl, hr]

/-! ## The numbers the finite values of `double` stand for -/

theorem Dbl.bitLenAux_le_iff : ∀ (fuel m n : Nat), m ≤ fuel →
    (Dbl.bitLenAux fuel m ≤ n ↔ m < 2 ^ n) := by
  intro fuel
  induction fuel with
  | zero =>
    intro m n hm
    have : m = 0 := by omega
    subst this
    simp [Dbl.bitLenAux]
  | succ fuel ih =>
    intro m n hm
    by_cases h0 : m = 0
    · subst h0; simp [Dbl.bitLenAux]
    · simp only [Dbl.bitLenAux, h0, if_false]
      cases n with
      | zero =>
        simp only [Nat.le_zero_eq, Nat.add_one_ne_zero, pow_zero, Nat.lt_one_iff, h0]
      | succ k =>
        have hdiv : m / 2 ≤ fuel := by omega
        rw [Nat.add_le_add_iff_right, ih (m / 2) k hdiv, Nat.div_lt_iff_lt_mul (by norm_num),
          pow_succ]

theorem Dbl.bitLen_le_iff (m n : Nat) : Dbl.bitLen m ≤ n ↔ m < 2 ^ n :=
  Dbl.bitLenAux_le_iff m m n le_rfl

theorem Dbl.lt_two_pow_bitLen (m : Nat) : m < 2 ^ Dbl.bitLen m :=
  (Dbl.bitLen_le_iff m _).1 le_rfl

theorem Dbl.bitLen_mono {a b : Nat} (h : a ≤ b) : Dbl.bitLen a ≤ Dbl.bitLen b :=
  (Dbl.bitLen_le_iff a _).2 (lt_of_le_of_lt h (Dbl.lt_two_pow_bitLen b))

theorem Dbl.bitLen_shiftLeft_le (m k : Nat) : Dbl.bitLen (m <<< k) ≤ Dbl.bitLen m + k := by
  rw [Dbl.bitLen_le_iff, Nat.shiftLeft_eq, pow_add]
  exact Nat.mul_lt_mul_of_lt_of_le (Dbl.lt_two_pow_bitLen m) le_rfl (by positivity)

theorem Dbl.canonPos_val : ∀ (k m : Nat),
    (Dbl.canonPos k m).1 * 2 ^ (Dbl.canonPos k m).2 = m * 2 ^ k := by
  intro k
  induction k with
  | zero => intro m; simp [Dbl.canonPos]
  | succ k ih =>
    intro m
    by_cases h : m < 2 ^ 52
    · simp only [Dbl.canonPos, h, if_true, ih (2 * m)]
      ring
    · simp only [Dbl.canonPos, h, if_false]

theorem Dbl.canonNeg_val : ∀ (k m : Nat),
    (Dbl.canonNeg k m).1 * 2 ^ k = m * 2 ^ (Dbl.canonNeg k m).2 ∧ (Dbl.canonNeg k m).2 ≤ k := by
  intro k
  induction k with
  | zero => intro m; simp [Dbl.canonNeg]
  | succ k ih =>
    intro m
    by_cases h : m % 2 = 0
    · simp only [Dbl.canonNeg, h, if_true]
      obtain ⟨h1, h2⟩ := ih (m / 2)
      refine ⟨?_, by omega⟩
      have hm : m = 2 * (m / 2) := by omega
      calc (Dbl.canonNeg k (m / 2)).1 * 2 ^ (k + 1)
          = ((Dbl.canonNeg k (m / 2)).1 * 2 ^ k) * 2 := by ring
        _ = (m / 2 * 2 ^ (Dbl.canonNeg k (m / 2)).2) * 2 := by rw [h1]
        _ = (2 * (m / 2)) * 2 ^ (Dbl.canonNeg k (m / 2)).2 := by ring
        _ = m * 2 ^ (Dbl.canonNeg k (m / 2)).2 := by rw [← hm]
    · simp only [Dbl.canonNeg, h, if_false]
      exact ⟨trivial, le_rfl⟩

/-- The unique form stands for the same number. -/
theorem Dbl.canon_toRat (neg : Bool) (m : Nat) (e : Int) (hm : m < 2 ^ 53) :
    ∃ m' e', Dbl.canon neg m e = .fin neg m' e' ∧
      Dbl.toRat (.fin neg m' e') = Dbl.toRat (.fin neg m e) := by
  have hne : m ≠ 2 ^ 53 := Nat.ne_of_lt hm
  cases e with
  | ofNat k =>
    refine ⟨(Dbl.canonPos k m).1, Int.ofNat (Dbl.canonPos k m).2, ?_, ?_⟩
    · simp only [Dbl.canon, if_neg hne]
    · have h := Dbl.canonPos_val k m
      have hq : ((Dbl.canonPos k m).1 : ℚ) * 2 ^ (Dbl.canonPos k m).2 = (m : ℚ) * 2 ^ k := by
        exact_mod_cast h
      simp only [Dbl.toRat, Int.ofNat_eq_coe, zpow_natCast, mul_assoc, hq]
  | negSucc k =>
    refine ⟨(Dbl.canonNeg (k + 1) m).1, -Int.ofNat (Dbl.canonNeg (k + 1) m).2, ?_, ?_⟩
    · simp only [Dbl.canon, if_neg hne]
    · obtain ⟨h, hle⟩ := Dbl.canonNeg_val (k + 1) m
      have hq : ((Dbl.canonNeg (k + 1) m).1 : ℚ) * 2 ^ (k + 1)
          = (m : ℚ) * 2 ^ (Dbl.canonNeg (k + 1) m).2 := by
        exact_mod_cast h
      have h2 : ((2 : ℚ) ^ (k + 1)) ≠ 0 := by positivity
      have h3 : ((2 : ℚ) ^ (Dbl.canonNeg (k + 1) m).2) ≠ 0 := by positivity
      simp only [Dbl.toRat, Int.ofNat_eq_coe, zpow_neg, zpow_natCast, Int.negSucc_eq, mul_assoc]
      congr 1
      have hk : ((2 : ℚ) ^ ((k : Int) + 1)) = 2 ^ (k + 1) := by norm_cast
      rw [hk]
      field_simp
      linarith [hq]

theorem Dbl.canonPos_bound : ∀ (k m : Nat), m < 2 ^ 53 →
    (Dbl.canonPos k m).1 < 2 ^ 53 ∧ (Dbl.canonPos k m).2 ≤ k := by
  intro k
  induction k with
  | zero => intro m hm; simpa [Dbl.canonPos] using hm
  | succ k ih =>
    intro m hm
    by_cases h : m < 2 ^ 52
    · simp only [Dbl.canonPos, h, if_true]
      obtain ⟨h1, h2⟩ := ih (2 * m) (by omega)
      exact ⟨h1, by omega⟩
    · simp only [Dbl.canonPos, h, if_false]
      exact ⟨hm, le_rfl⟩

theorem Dbl.canonNeg_bound : ∀ (k m : Nat), (Dbl.canonNeg k m).1 ≤ m := by
  intro k
  induction k with
  | zero => intro m; simp [Dbl.canonNeg]
  | succ k ih =>
    intro m
    by_cases h : m % 2 = 0
    · simp only [Dbl.canonNeg, h, if_true]
      exact le_trans (ih (m / 2)) (Nat.div_le_self m 2)
    · simp only [Dbl.canonNeg, h, if_false]
      exact le_rfl

/-- The unique form of a finite value is a finite value. -/
theorem Dbl.canon_isFinite (neg : Bool) (m : Nat) (e : Int) (hm : m < 2 ^ 53)
    (he : -1074 ≤ e) (hov : e + Dbl.bitLen m ≤ 1024) :
    Dbl.isFinite (Dbl.canon neg m e) = true := by
  have hne : m ≠ 2 ^ 53 := Nat.ne_of_lt hm
  cases e with
  | ofNat k =>
    simp only [Dbl.canon, if_neg hne]
    obtain ⟨h1, h2⟩ := Dbl.canonPos_bound k m hm
    have hv := Dbl.canonPos_val k m
    simp only [Dbl.isFinite, Bool.and_eq_true, decide_eq_true_eq, Int.ofNat_eq_coe]
    refine ⟨⟨h1, by omega⟩, ?_⟩
    simp only [Int.ofNat_eq_coe] at hov
    have hk : k ≤ 1024 := by omega
    have hL : Dbl.bitLen m ≤ 1024 - k := by omega
    have hmlt : m < 2 ^ (1024 - k) := (Dbl.bitLen_le_iff m _).1 hL
    have hk' : (Dbl.canonPos k m).2 ≤ 1024 := by omega
    have hlt : (Dbl.canonPos k m).1 * 2 ^ (Dbl.canonPos k m).2 < 2 ^ 1024 := by
      rw [hv]
      calc m * 2 ^ k < 2 ^ (1024 - k) * 2 ^ k :=
            Nat.mul_lt_mul_of_lt_of_le hmlt le_rfl (by positivity)
        _ = 2 ^ 1024 := by rw [← pow_add]; congr 1; omega
    have hm' : (Dbl.canonPos k m).1 < 2 ^ (1024 - (Dbl.canonPos k m).2) := by
      by_contra hcon
      push_neg at hcon
      have : 2 ^ (1024 - (Dbl.canonPos k m).2) * 2 ^ (Dbl.canonPos k m).2
          ≤ (Dbl.canonPos k m).1 * 2 ^ (Dbl.canonPos k m).2 :=
        Nat.mul_le_mul_right _ hcon
      rw [← pow_add, Nat.sub_add_cancel hk'] at this
      omega
    have := (Dbl.bitLen_le_iff _ _).2 hm'
    omega
  | negSucc k =>
    simp only [Dbl.canon, if_neg hne]
    have h1 := Dbl.canonNeg_bound (k + 1) m
    obtain ⟨_, h2⟩ := Dbl.canonNeg_val (k + 1) m
    simp only [Dbl.isFinite, Bool.and_eq_true, decide_eq_true_eq, Int.ofNat_eq_coe]
    have hm' : (Dbl.canonNeg (k + 1) m).1 < 2 ^ 53 := lt_of_le_of_lt h1 hm
    have hL := (Dbl.bitLen_le_iff _ 53).2 hm'
    have he' : -1074 ≤ Int.negSucc k := he
    rw [Int.negSucc_eq] at he'
    refine ⟨⟨hm', by omega⟩, by omega⟩

/-- A number with at most 53 bits above `2^(-1074)` and below `2^1024` is not rounded. -/
theorem Dbl.round_exact (neg : Bool) (m : Nat) (e : Int) (hm : m < 2 ^ 53)
    (he : -1074 ≤ e) (hov : e + Dbl.bitLen m ≤ 1024) :
    ∃ m' e', Dbl.round neg m e false = .fin neg m' e' ∧
      Dbl.toRat (.fin neg m' e') = Dbl.toRat (.fin neg m e) ∧
      Dbl.isFinite (.fin neg m' e') = true := by
  by_cases h0 : m = 0
  · subst h0
    exact ⟨0, 0, by simp [Dbl.round], by simp [Dbl.toRat],
      by simp [Dbl.isFinite, Dbl.bitLen, Dbl.bitLenAux]⟩
  · have hL : Dbl.bitLen m ≤ 53 := (Dbl.bitLen_le_iff m 53).2 hm
    have hd : (max (e + (Dbl.bitLen m : Int) - 53) (-1074) - e).toNat = 0 := by
      have : max (e + (Dbl.bitLen m : Int) - 53) (-1074) ≤ e := by
        apply max_le <;> omega
      omega
    obtain ⟨m', e', h1, h2⟩ := Dbl.canon_toRat neg m e hm
    have h3 := Dbl.canon_isFinite neg m e hm he hov
    rw [h1] at h3
    refine ⟨m', e', ?_, h2, h3⟩
    have hnov : ¬ (e + (Dbl.bitLen m : Int) > 1024) := by omega
    simp only [Dbl.round, h0, if_false, hd, if_true, Dbl.finish, hnov, h1]

theorem Dbl.shiftLeft_cast (m k : Nat) : ((m <<< k : Nat) : ℚ) = (m : ℚ) * 2 ^ k := by
  rw [Nat.shiftLeft_eq]
  push_cast
  ring

/-- The number a finite `double` stands for, as an integer multiple of `2^x`. -/
theorem Dbl.toRat_scaled (x : Int) (neg : Bool) (m : Nat) (e : Int) (hx : x ≤ e) :
    Dbl.toRat (.fin neg m e) = (Dbl.scaled x neg m e : ℚ) * 2 ^ x := by
  have hk : ((e - x).toNat : Int) = e - x := Int.toNat_of_nonneg (by omega)
  have hpow : (2 : ℚ) ^ e = 2 ^ (e - x).toNat * 2 ^ x := by
    rw [← zpow_natCast, hk, ← zpow_add₀ (by norm_num : (2 : ℚ) ≠ 0)]
    congr 1
    ring
  cases neg <;>
    simp only [Dbl.toRat, Dbl.scaled, Bool.false_eq_true, if_false, if_true, Int.cast_neg,
      Int.cast_natCast, Dbl.shiftLeft_cast, hpow] <;> ring

theorem truncQ_signed_div (u v : Bool) (A B q : Nat) (hq : q = A / B) :
    truncQ (((if u then -1 else 1) * (A : ℚ)) / ((if v then -1 else 1) * (B : ℚ)))
      = (if u then -1 else 1) * (if v then -1 else 1) * (q : ℤ) := by
  have hfloor : ⌊(A : ℚ) / (B : ℚ)⌋ = (q : ℤ) := by
    have := Rat.floor_intCast_div_natCast (A : ℤ) B
    simp only [Int.cast_natCast] at this
    rw [this, hq]
    norm_cast
  have hnn : (0 : ℚ) ≤ (A : ℚ) / (B : ℚ) := by positivity
  have hpos : truncQ ((A : ℚ) / (B : ℚ)) = (q : ℤ) := by
    simp [truncQ, hnn, hfloor]
  have hneg : truncQ (-((A : ℚ) / (B : ℚ))) = -(q : ℤ) := by
    unfold truncQ
    by_cases h0 : 0 ≤ -((A : ℚ) / (B : ℚ))
    · have hz : (A : ℚ) / (B : ℚ) = 0 := le_antisymm (by linarith) hnn
      have hq0 : (q : ℤ) = 0 := by rw [← hfloor, hz]; simp
      simp [h0, hz, hq0]
    · simp only [h0, if_false, Int.ceil_neg, hfloor]
  cases u <;> cases v <;> simp [neg_div, div_neg, hpos, hneg]

theorem Dbl.ne_zero_fin {t : Bool} {n : Nat} {f : Int}
    (h : Dbl.ne (.fin t n f) Dbl.zero = true) : n ≠ 0 := by
  rintro rfl
  simp [Dbl.ne, Dbl.eq, Dbl.cmp, Dbl.zero, Dbl.scaled_zero, compare_eq_iff_eq] at h

/-- The remainder `std::fmod` returns for finite arguments with a nonzero divisor. -/
theorem Dbl.fmod_fin (s : Bool) (m : Nat) (e : Int) (t : Bool) (n : Nat) (f : Int)
    (ha : Dbl.isFinite (.fin s m e) = true) (hb : Dbl.isFinite (.fin t n f) = true)
    (hn : n ≠ 0) :
    ∃ m' e', Dbl.fmod (.fin s m e) (.fin t n f) = .fin s m' e' ∧
      Dbl.isFinite (.fin s m' e') = true ∧
      |Dbl.toRat (.fin s m' e')| < |Dbl.toRat (.fin t n f)| ∧
      (Dbl.toRat (.fin s m' e') = 0 ∨
        0 < Dbl.toRat (.fin s m' e') * Dbl.toRat (.fin s m e)) ∧
      Dbl.toRat (.fin s m e) - Dbl.toRat (.fin s m' e')
        = (truncQ (Dbl.toRat (.fin s m e) / Dbl.toRat (.fin t n f)) : ℚ)
          * Dbl.toRat (.fin t n f) := by
  simp only [Dbl.isFinite, Bool.and_eq_true, decide_eq_true_eq] at ha hb
  obtain ⟨⟨hm, he⟩, hov⟩ := ha
  obtain ⟨⟨hn53, hf⟩, _⟩ := hb
  -- the two mantissas on the common exponent `x`
  set x := min e f with hx
  set A := m <<< (e - x).toNat with hA
  set B := n <<< (f - x).toNat with hB
  have hxe : x ≤ e := min_le_left e f
  have hxf : x ≤ f := min_le_right e f
  have hBpos : 0 < B := by
    rw [hB, Nat.shiftLeft_eq]
    exact Nat.mul_pos (Nat.pos_of_ne_zero hn) (by positivity)
  have hRB : A % B < B := Nat.mod_lt _ hBpos
  have hRA : A % B ≤ A := Nat.mod_le _ _
  have hR53 : A % B < 2 ^ 53 := by
    rcases le_total e f with h | h
    · have : (e - x).toNat = 0 := by rw [hx, min_eq_left h]; simp
      have hAm : A = m := by rw [hA, this]; simp
      exact lt_of_le_of_lt (hAm ▸ hRA) hm
    · have : (f - x).toNat = 0 := by rw [hx, min_eq_right h]; simp
      have hBn : B = n := by rw [hB, this]; simp
      exact lt_trans (hBn ▸ hRB) hn53
  have hx1074 : -1074 ≤ x := le_min he hf
  have hovR : x + (Dbl.bitLen (A % B) : Int) ≤ 1024 := by
    have h1 : Dbl.bitLen (A % B) ≤ Dbl.bitLen m + (e - x).toNat :=
      le_trans (Dbl.bitLen_mono hRA) (Dbl.bitLen_shiftLeft_le m _)
    have h2 : ((e - x).toNat : Int) = e - x := Int.toNat_of_nonneg (by omega)
    have h3 : (Dbl.bitLen (A % B) : Int) ≤ (Dbl.bitLen m : Int) + ((e - x).toNat : Int) := by
      exact_mod_cast h1
    omega
  obtain ⟨m', e', hr, hv, hfin⟩ := Dbl.round_exact s (A % B) x hR53 hx1074 hovR
  refine ⟨m', e', ?_, hfin, ?_⟩
  · simp only [Dbl.fmod, hn, if_false]
    exact hr
  -- the numbers, as multiples of `2^x`
  have hP : (0 : ℚ) < 2 ^ x := by positivity
  have hAq : Dbl.toRat (.fin s m e) = (if s then -1 else 1) * (A : ℚ) * 2 ^ x := by
    rw [Dbl.toRat_scaled x s m e hxe]
    cases s <;> simp [Dbl.scaled, hA]
  have hBq : Dbl.toRat (.fin t n f) = (if t then -1 else 1) * (B : ℚ) * 2 ^ x := by
    rw [Dbl.toRat_scaled x t n f hxf]
    cases t <;> simp [Dbl.scaled, hB]
  have hRq : Dbl.toRat (.fin s m' e') = (if s then -1 else 1) * ((A % B : Nat) : ℚ) * 2 ^ x := by
    rw [hv]; rfl
  have hRBq : ((A % B : Nat) : ℚ) < (B : ℚ) := by exact_mod_cast hRB
  have hRAq : ((A % B : Nat) : ℚ) ≤ (A : ℚ) := by exact_mod_cast hRA
  have hR0 : (0 : ℚ) ≤ ((A % B : Nat) : ℚ) := by positivity
  obtain ⟨q, hqd, hq⟩ : ∃ q : Nat, q = A / B ∧ A = B * q + A % B :=
    ⟨A / B, rfl, (Nat.div_add_mod A B).symm⟩
  have hdm : (A : ℚ) = (B : ℚ) * (q : ℚ) + ((A % B : Nat) : ℚ) := by
    exact_mod_cast hq
  have habs : ∀ (u : Bool) (c : ℚ), 0 ≤ c →
      |(if u then (-1 : ℚ) else 1) * c * 2 ^ x| = c * 2 ^ x := by
    intro u c hc
    cases u
    · simp only [Bool.false_eq_true, if_false, one_mul]
      exact abs_of_nonneg (by positivity)
    · simp only [if_true, neg_mul, one_mul, abs_neg]
      exact abs_of_nonneg (by positivity)
  refine ⟨?_, ?_, ?_⟩
  · rw [hRq, hBq, habs s _ hR0, habs t _ (by positivity)]
    exact mul_lt_mul_of_pos_right hRBq hP
  · rw [hRq, hAq]
    rcases Nat.eq_zero_or_pos (A % B) with h0 | hpos
    · left; simp [h0]
    · right
      have hRpos : (0 : ℚ) < ((A % B : Nat) : ℚ) := by exact_mod_cast hpos
      have hApos : (0 : ℚ) < (A : ℚ) := lt_of_lt_of_le hRpos hRAq
      cases s
      · simp only [Bool.false_eq_true, if_false, one_mul]
        positivity
      · simp only [if_true, neg_mul, one_mul, mul_neg, neg_neg]
        positivity
  · have hquot : Dbl.toRat (.fin s m e) / Dbl.toRat (.fin t n f)
        = ((if s then -1 else 1) * (A : ℚ)) / ((if t then -1 else 1) * (B : ℚ)) := by
      rw [hAq, hBq]
      exact mul_div_mul_right _ _ (ne_of_gt hP)
    rw [hquot, truncQ_signed_div s t A B q hqd, hRq, hAq, hBq, hdm]
    cases s <;> cases t <;> simp <;> ring

/-! ## The claims, continued -/

/-- C11.  For every constant `c`, name `x` and starting environment, evaluating
`x = c` followed by `x` returns `c` and leaves `x` bound to `c`; evaluating the same tree
again from the environment so left returns `c` again and leaves that environment exactly as
it was. -/
theorem C11_assign_then_read_twice (P : Platform) (c : Dbl) (x : String) (s : Env) :
    Returns P (.CNStatement (.CNAssignment x (.CNConstant c)) (.CNVariable x)) s c
      (setVariable s x c) ∧
    Returns P (.CNStatement (.CNAssignment x (.CNConstant c)) (.CNVariable x))
      (setVariable s x c) c (setVariable s x c) := by
  have h : ∀ t : Env,
      Returns P (.CNStatement (.CNAssignment x (.CNConstant c)) (.CNVariable x)) t c
        (setVariable t x c) := by
    intro t
    have h1 := Returns.assignment (Returns.constant P c t) x
    have h2 := Returns.variable P x (setVariable t x c)
    rw [getVariable_setVariable_same] at h2
    exact Returns.statement h1 h2
  refine ⟨h s, ?_⟩
  have := h (setVariable s x c)
  rwa [setVariable_setVariable] at this

/-- C12.  Evaluating `FunctionDef(name, params1, body1)` and then
`FunctionDef(name, params2, body2)` leaves the environment that evaluating the second
definition alone leaves: nothing of `params1` or `body1` remains.  Whenever the second
definition is evaluated, in any environment `u`, `getFunction(name)` is afterwards the
definition with `params2` and `body2`.  And in every environment `t` where `name` is so
registered, a call `name(args)` returns exactly when the first loop over `params2` ends,
`body2` returns from the environment it left, and the result is the value of `body2` with
the environment the second loop over `params2` leaves. -/
theorem C12_newest_definition (P : Platform) (name : String)
    (params1 body1 params2 body2 : YxlangNode) (s t : Env)
    (ht : getFunction t name = some ⟨name, params2, body2⟩) :
    Returns P (.CNStatement (.CNCustomFunction name params1 body1)
        (.CNCustomFunction name params2 body2)) s Dbl.zero
      (setFunction s name ⟨name, params2, body2⟩) ∧
    (∀ u, Returns P (.CNCustomFunction name params2 body2) u Dbl.zero
        (setFunction u name ⟨name, params2, body2⟩) ∧
      getFunction (setFunction u name ⟨name, params2, body2⟩) name
        = some ⟨name, params2, body2⟩) ∧
    (∀ args right v t3, Returns P (.CNCallUDF name args right) t v t3 ↔
      ∃ fuel oldVal t1 t2,
        bindLoop (evaluate P fuel) params2 args (fun _ => none) t = .ok (oldVal, t1) ∧
        evaluate P fuel body2 t1 = .ok (v, t2) ∧
        t3 = restoreLoop params2 oldVal t2) := by
  refine ⟨?_, fun u => ⟨Returns.customFunction P _ _ _ _, getFunction_setFunction_same _ _ _⟩,
    fun args right v t3 => Returns.call_iff ht args right v t3⟩
  have h1 := Returns.customFunction P name params1 body1 s
  have h2 := Returns.customFunction P name params2 body2
    (setFunction s name ⟨name, params1, body1⟩)
  rw [setFunction_setFunction] at h2
  exact Returns.statement h1 h2

/-- C12 at `let f(x) = 1;` then `let f(x) = 2;` in a fresh program: the table holds the
second definition only, and the call `f(0)` returns `2`. -/
theorem C12_newest_definition_witness :
    Returns samplePlatform
      (.CNStatement (.CNCustomFunction "f" (paramlist ["x"]) (.CNConstant (Dbl.ofInt 1)))
        (.CNCustomFunction "f" (paramlist ["x"]) (.CNConstant (Dbl.ofInt 2))))
      initialEnv Dbl.zero (setFunction initialEnv "f" twoFunction) ∧
    Returns samplePlatform (.CNCallUDF "f" (exprlist [.CNConstant (Dbl.ofInt 0)]) .NULL)
      (setFunction initialEnv "f" twoFunction) (Dbl.ofInt 2)
      (setVariable (setFunction initialEnv "f" twoFunction) "x" Dbl.zero) := by
  have h := C12_newest_definition samplePlatform "f" (paramlist ["x"])
    (.CNConstant (Dbl.ofInt 1)) (paramlist ["x"]) (.CNConstant (Dbl.ofInt 2)) initialEnv
    (setFunction initialEnv "f" twoFunction) (getFunction_setFunction_same _ _ _)
  refine ⟨h.1, (h.2.2 _ _ _ _).2 ⟨1, _, _, _, rfl, rfl, ?_⟩⟩
  simp [paramlist, restoreLoop, oldValAt, getVariable, setVariable, setFunction, initialEnv,
    Dbl.ofInt, Dbl.round, Dbl.zero]

/-- C13.  Evaluating `FunctionDef(name, params, body)` returns `0.0`; it leaves the variable
table and the output unchanged and every other name's registration unchanged, and
afterwards `getFunction(name)` is the definition with exactly these `params` and `body`;
evaluating the same node again returns `0.0` and leaves the environment as it found it. -/
theorem C13_function_definition (P : Platform) (name : String) (params body : YxlangNode)
    (s : Env) :
    ∃ s1, Returns P (.CNCustomFunction name params body) s Dbl.zero s1 ∧
      s1.variablemap = s.variablemap ∧ s1.out = s.out ∧
      (∀ g, g ≠ name → getFunction s1 g = getFunction s g) ∧
      getFunction s1 name = some ⟨name, params, body⟩ ∧
      Returns P (.CNCustomFunction name params body) s1 Dbl.zero s1 := by
  refine ⟨setFunction s name ⟨name, params, body⟩, Returns.customFunction P _ _ _ _, rfl, rfl,
    fun g hg => getFunction_setFunction_other _ _ hg, getFunction_setFunction_same _ _ _, ?_⟩
  have := Returns.customFunction P name params body (setFunction s name ⟨name, params, body⟩)
  rwa [setFunction_setFunction] at this

/-- C14.  A function is registered with the parameters `ps` (a list the grammar builds) and
the body `g = e`, where `g` is none of the parameters.  When a call of it returns `v`:
after the call `getVariable(g)` is `v`; `v` is the value `e` returned inside the call,
evaluated in the environment the first loop left; and when `e` is a reference to a
variable `y` that is no parameter and that no actual writes, `v` is what `getVariable(y)`
was for the caller when the call began. -/
theorem C14_global_dynamic_scope (P : Platform) (name : String) (func : CustomFunction)
    (ps : List String) (es : List YxlangNode) (g : String) (e right : YxlangNode)
    (s s3 : Env) (v : Dbl) (hf : getFunction s name = some func)
    (hp : func.left = paramlist ps) (hb : func.right = .CNAssignment g e) (hg : g ∉ ps)
    (hcall : Returns P (.CNCallUDF name (exprlist es) right) s v s3) :
    getVariable s3 g = v ∧
    (∃ fuel oldVal s1 s2,
      bindLoop (evaluate P fuel) func.left (exprlist es) (fun _ => none) s = .ok (oldVal, s1) ∧
      Returns P e s1 v s2) ∧
    (∀ y, e = .CNVariable y → y ∉ ps →
      (∀ a ∈ es, ∀ t w t', Returns P a t w t' → getVariable t' y = getVariable t y) →
      v = getVariable s y) := by
  obtain ⟨fuel, oldVal, s1, s2, h1, h2, rfl⟩ := (Returns.call_iff hf _ _ _ _).1 hcall
  rw [hb] at h2
  obtain ⟨s1', he, rfl⟩ := Returns.assignment_inv ⟨fuel, h2⟩
  refine ⟨?_, ⟨fuel, oldVal, s1, s1', h1, he⟩, ?_⟩
  · rw [hp, restoreLoop_paramlist]
    cases ps with
    | nil => exact getVariable_setVariable_same _ _ _
    | cons p ps =>
      have hgp : g ≠ p := fun e => hg (by simp [e])
      simp only []
      rw [getVariable_setVariable_other _ _ hgp, getVariable_setVariable_same]
  · rintro y rfl hy hpure
    rw [hp] at h1
    have := bindLoop_frame P fuel y ps es _ _ _ _ hy hpure h1
    rw [← this]
    exact (Returns.unique he (Returns.variable P y s1)).1

/-- C14 at `let f(p) = g = y;` called as `f(1)` while `y` holds `7`: the call returns `7`,
which is the caller's `y`, and afterwards `g` reads `7`. -/
theorem C14_global_dynamic_scope_witness :
    Returns samplePlatform (.CNCallUDF "f" (exprlist [.CNConstant (Dbl.ofInt 1)]) .NULL)
      (setVariable (setFunction initialEnv "f" leakFunction) "y" (Dbl.ofInt 7)) (Dbl.ofInt 7)
      (setVariable (setVariable (setVariable
        (setVariable (setFunction initialEnv "f" leakFunction) "y" (Dbl.ofInt 7))
        "p" (Dbl.ofInt 1)) "g" (Dbl.ofInt 7)) "p" Dbl.zero) ∧
    getVariable (setVariable (setVariable (setVariable
        (setVariable (setFunction initialEnv "f" leakFunction) "y" (Dbl.ofInt 7))
        "p" (Dbl.ofInt 1)) "g" (Dbl.ofInt 7)) "p" Dbl.zero) "g" = Dbl.ofInt 7 ∧
    Dbl.ofInt 7
      = getVariable (setVariable (setFunction initialEnv "f" leakFunction) "y" (Dbl.ofInt 7))
        "y" := by
  have hcall : Returns samplePlatform
      (.CNCallUDF "f" (exprlist [.CNConstant (Dbl.ofInt 1)]) .NULL)
      (setVariable (setFunction initialEnv "f" leakFunction) "y" (Dbl.ofInt 7)) (Dbl.ofInt 7)
      (setVariable (setVariable (setVariable
        (setVariable (setFunction initialEnv "f" leakFunction) "y" (Dbl.ofInt 7))
        "p" (Dbl.ofInt 1)) "g" (Dbl.ofInt 7)) "p" Dbl.zero) := ⟨4, rfl⟩
  have h := C14_global_dynamic_scope samplePlatform "f" leakFunction ["p"]
    [.CNConstant (Dbl.ofInt 1)] "g" (.CNVariable "y") .NULL _ _ _
    (by simp [getFunction, setFunction, setVariable]) rfl rfl (by decide) hcall
  refine ⟨hcall, h.1, h.2.2 "y" rfl (by decide) ?_⟩
  intro a ha t w t' hr
  have ha' : a = .CNConstant (Dbl.ofInt 1) := by simpa using ha
  subst ha'
  rw [(Returns.unique hr (Returns.constant _ _ t)).2]

/-- C15, at the inputs where the code departs from it.  The claim: Display applied to an
operand of value `v` prints one line, `= ` followed by the text of `v`.  For every
constant operand `v` and every environment the Display node returns `v` and appends
exactly one line, but the line is `= ` followed by the text of `0`, whatever `v` is: the
statement `std::cout << "= " << v << std::endl;` runs before `v = leftValue;`, while `v`
still holds its initial `0`. -/
theorem C15_display_prints_zero (P : Platform) (v : Dbl) (s : Env) :
    Returns P (.CNUnaryFunction 4 (.CNConstant v) .NULL) s v
      { s with out := s.out ++ ("= " ++ P.shows Dbl.zero ++ "\n") } :=
  ⟨2, by simp [evaluate, evaluateBody]⟩

/-- C16.  For every operand `e` that returns `v` and leaves `s1`, in every environment,
`Display(e)` returns exactly `v` and leaves the variable table and the function table of
`s1`: those that evaluating `e` alone leaves. -/
theorem C16_display_passes_value (P : Platform) (e right : YxlangNode) (s s1 : Env) (v : Dbl)
    (he : Returns P e s v s1) :
    ∃ s2, Returns P (.CNUnaryFunction 4 e right) s v s2 ∧
      s2.variablemap = s1.variablemap ∧ s2.functionmap = s1.functionmap := by
  obtain ⟨n, hn⟩ := he
  exact ⟨{ s1 with out := s1.out ++ ("= " ++ P.shows Dbl.zero ++ "\n") },
    ⟨n + 1, by simp [evaluate, evaluateBody, hn]⟩, rfl, rfl⟩

/-- C16 at `Display(x = 5)` in a fresh program: it returns `5` and leaves `x` bound to `5`. -/
theorem C16_display_passes_value_witness :
    ∃ s2, Returns samplePlatform
        (.CNUnaryFunction 4 (.CNAssignment "x" (.CNConstant (Dbl.ofInt 5))) .NULL)
        initialEnv (Dbl.ofInt 5) s2 ∧
      s2.variablemap = (setVariable initialEnv "x" (Dbl.ofInt 5)).variablemap ∧
      s2.functionmap = (setVariable initialEnv "x" (Dbl.ofInt 5)).functionmap :=
  C16_display_passes_value samplePlatform _ .NULL initialEnv _ (Dbl.ofInt 5)
    (Returns.assignment (Returns.constant _ _ _) "x")

/-- When the right operand runs first and both operands return, `evalOperands` gives the two
values and the environment the left operand left. -/
theorem evalOperands_right_first {P : Platform} {l r : YxlangNode} {s s1 s2 : Env} {a b : Dbl}
    {n : ℕ} (h1 : evaluate P n r s = .ok (b, s1)) (h2 : evaluate P n l s1 = .ok (a, s2)) :
    evalOperands (evaluate P n) true l r s = .ok (a, b, s2) := by
  simp [evalOperands, h1, h2]

/-- The six arithmetic nodes return the operation on the values of their operands, the
operands being run in the order `flag` where the platform runs them so. -/
theorem Returns.arith_of_operands {P : Platform} {l r : YxlangNode} {s s2 : Env} {a b : Dbl}
    (flag : Bool) (h : ∃ n, evalOperands (evaluate P n) flag l r s = .ok (a, b, s2)) :
    (P.rightFirst .add = flag → Returns P (.CNAdd l r) s (Dbl.add a b) s2) ∧
    (P.rightFirst .sub = flag → Returns P (.CNSubtract l r) s (Dbl.sub a b) s2) ∧
    (P.rightFirst .mul = flag → Returns P (.CNMultiply l r) s (Dbl.mul a b) s2) ∧
    (P.rightFirst .div = flag → Returns P (.CNDivide l r) s (Dbl.div a b) s2) ∧
    (P.rightFirst .mod = flag → Returns P (.CNModulo l r) s (Dbl.fmod a b) s2) ∧
    (P.rightFirst .pow = flag → Returns P (.CNPower l r) s (P.pow a b) s2) := by
  obtain ⟨n, hn⟩ := h
  refine ⟨fun hf => ⟨n + 1, ?_⟩, fun hf => ⟨n + 1, ?_⟩, fun hf => ⟨n + 1, ?_⟩,
    fun hf => ⟨n + 1, ?_⟩, fun hf => ⟨n + 1, ?_⟩, fun hf => ⟨n + 1, ?_⟩⟩ <;>
    simp only [evaluate, evaluateBody, hf, hn]

/-- The operands `x = c` and `x`: run left to right both give `c`, run right to left the
reference gives what `x` held before. -/
theorem evalOperands_assign_then_read (P : Platform) (t : Env) (c : Dbl) (flag : Bool) :
    ∃ n, evalOperands (evaluate P n) flag (.CNAssignment "x" (.CNConstant c)) (.CNVariable "x") t
      = .ok (c, if flag then getVariable t "x" else c, setVariable t "x" c) := by
  refine ⟨2, ?_⟩
  cases flag
  · have h1 : evaluate P 2 (.CNAssignment "x" (.CNConstant c)) t
        = .ok (c, setVariable t "x" c) := rfl
    have h2 : evaluate P 2 (.CNVariable "x") (setVariable t "x" c)
        = .ok (c, setVariable t "x" c) := by
      rw [evaluate_variable, getVariable_setVariable_same]
    simpa using evalOperands_left_first h1 h2
  · have h1 : evaluate P 2 (.CNVariable "x") t = .ok (getVariable t "x", t) :=
      evaluate_variable P 1 "x" t
    have h2 : evaluate P 2 (.CNAssignment "x" (.CNConstant c)) t
        = .ok (c, setVariable t "x" c) := rfl
    simpa using evalOperands_right_first h1 h2

/-- C17 fails on the code.  `CNAdd` to `CNDivide` return `left->evaluate() OP
right->evaluate()` and `CNModulo`, `CNPower` pass both calls as arguments of `std::fmod`,
`std::pow`: nothing sequences the two operands, unlike the two statements of `CNCompare`
and `CNBinaryFunction`.  On every platform each of the six nodes runs its operands in the
order the platform picks for it and returns the operation on the two values.  With the
operands `x = c` and `x` the right value is `c` where the left operand runs first and the
value `x` held before where the right one runs first, while the binary function `pow`
always gets `c` twice.  Where the arguments of a call run right to left, in a fresh
program `Mod(Assignment("x", 7), VariableRef("x"))` returns NaN, `fmod(7, 0)`, not
`fmod(7, 7) = 0`; the Add and Sub examples of the claim give `2` and `-1` there. -/
theorem C17_operands_not_sequenced (P : Platform) (t : Env) (c : Dbl) :
    (∀ (l r : YxlangNode) (s s1 s2 : Env) (a b : Dbl),
      Returns P l s a s1 → Returns P r s1 b s2 →
        (P.rightFirst .add = false → Returns P (.CNAdd l r) s (Dbl.add a b) s2) ∧
        (P.rightFirst .sub = false → Returns P (.CNSubtract l r) s (Dbl.sub a b) s2) ∧
        (P.rightFirst .mul = false → Returns P (.CNMultiply l r) s (Dbl.mul a b) s2) ∧
        (P.rightFirst .div = false → Returns P (.CNDivide l r) s (Dbl.div a b) s2) ∧
        (P.rightFirst .mod = false → Returns P (.CNModulo l r) s (Dbl.fmod a b) s2) ∧
        (P.rightFirst .pow = false → Returns P (.CNPower l r) s (P.pow a b) s2)) ∧
    (∀ (l r : YxlangNode) (s s1 s2 : Env) (a b : Dbl),
      Returns P r s b s1 → Returns P l s1 a s2 →
        (P.rightFirst .add = true → Returns P (.CNAdd l r) s (Dbl.add a b) s2) ∧
        (P.rightFirst .sub = true → Returns P (.CNSubtract l r) s (Dbl.sub a b) s2) ∧
        (P.rightFirst .mul = true → Returns P (.CNMultiply l r) s (Dbl.mul a b) s2) ∧
        (P.rightFirst .div = true → Returns P (.CNDivide l r) s (Dbl.div a b) s2) ∧
        (P.rightFirst .mod = true → Returns P (.CNModulo l r) s (Dbl.fmod a b) s2) ∧
        (P.rightFirst .pow = true → Returns P (.CNPower l r) s (P.pow a b) s2)) ∧
    Returns P (.CNAdd (.CNAssignment "x" (.CNConstant c)) (.CNVariable "x")) t
      (Dbl.add c (if P.rightFirst .add then getVariable t "x" else c)) (setVariable t "x" c) ∧
    Returns P (.CNSubtract (.CNAssignment "x" (.CNConstant c)) (.CNVariable "x")) t
      (Dbl.sub c (if P.rightFirst .sub then getVariable t "x" else c)) (setVariable t "x" c) ∧
    Returns P (.CNMultiply (.CNAssignment "x" (.CNConstant c)) (.CNVariable "x")) t
      (Dbl.mul c (if P.rightFirst .mul then getVariable t "x" else c)) (setVariable t "x" c) ∧
    Returns P (.CNDivide (.CNAssignment "x" (.CNConstant c)) (.CNVariable "x")) t
      (Dbl.div c (if P.rightFirst .div then getVariable t "x" else c)) (setVariable t "x" c) ∧
    Returns P (.CNModulo (.CNAssignment "x" (.CNConstant c)) (.CNVariable "x")) t
      (Dbl.fmod c (if P.rightFirst .mod then getVariable t "x" else c)) (setVariable t "x" c) ∧
    Returns P (.CNPower (.CNAssignment "x" (.CNConstant c)) (.CNVariable "x")) t
      (P.pow c (if P.rightFirst .pow then getVariable t "x" else c)) (setVariable t "x" c) ∧
    Returns P (.CNBinaryFunction 1 (.CNAssignment "x" (.CNConstant c)) (.CNVariable "x")) t
      (P.pow c c) (setVariable t "x" c) ∧
    Returns gccPlatform
      (.CNModulo (.CNAssignment "x" (.CNConstant (Dbl.ofInt 7))) (.CNVariable "x")) initialEnv
      Dbl.nan (setVariable initialEnv "x" (Dbl.ofInt 7)) ∧
    Dbl.fmod (Dbl.ofInt 7) (Dbl.ofInt 7) = Dbl.zero ∧ Dbl.nan ≠ Dbl.zero ∧
    Returns gccPlatform
      (.CNAdd (.CNAssignment "x" (.CNConstant (Dbl.ofInt 1))) (.CNVariable "x")) initialEnv
      (Dbl.ofInt 2) (setVariable initialEnv "x" (Dbl.ofInt 1)) ∧
    Returns gccPlatform
      (.CNSubtract (.CNVariable "x") (.CNAssignment "x" (.CNConstant (Dbl.ofInt 1)))) initialEnv
      (Dbl.ofInt (-1)) (setVariable initialEnv "x" (Dbl.ofInt 1)) := by
  have hx := fun flag => @Returns.arith_of_operands P _ _ _ _ _ _ flag
    (evalOperands_assign_then_read P t c flag)
  have hsib : Returns P
      (.CNBinaryFunction 1 (.CNAssignment "x" (.CNConstant c)) (.CNVariable "x")) t
      (P.pow c c) (setVariable t "x" c) := by
    obtain ⟨n, hn⟩ := evalOperands_assign_then_read P t c false
    exact ⟨n + 1, by simp [evaluate, evaluateBody, evalBoth, hn]⟩
  refine ⟨fun l r s s1 s2 a b hl hr => ?_, fun l r s s1 s2 a b hr hl => ?_, ?_, ?_, ?_, ?_, ?_,
    ?_, hsib, ⟨3, rfl⟩, by decide, by decide, ⟨3, rfl⟩, ⟨3, rfl⟩⟩
  · obtain ⟨n, h1, h2⟩ := Returns.common hl hr
    exact Returns.arith_of_operands false ⟨n, evalOperands_left_first h1 h2⟩
  · obtain ⟨n, h1, h2⟩ := Returns.common hr hl
    exact Returns.arith_of_operands true ⟨n, evalOperands_right_first h1 h2⟩
  · cases hf : P.rightFirst .add
    · simpa using (hx false).1 hf
    · simpa using (hx true).1 hf
  · cases hf : P.rightFirst .sub
    · simpa using (hx false).2.1 hf
    · simpa using (hx true).2.1 hf
  · cases hf : P.rightFirst .mul
    · simpa using (hx false).2.2.1 hf
    · simpa using (hx true).2.2.1 hf
  · cases hf : P.rightFirst .div
    · simpa using (hx false).2.2.2.1 hf
    · simpa using (hx true).2.2.2.1 hf
  · cases hf : P.rightFirst .mod
    · simpa using (hx false).2.2.2.2.1 hf
    · simpa using (hx true).2.2.2.2.1 hf
  · cases hf : P.rightFirst .pow
    · simpa using (hx false).2.2.2.2.2 hf
    · simpa using (hx true).2.2.2.2.2 hf

/-- C20 fails as stated: `+inf` is a value a Constant can hold and `3 != 0`, yet
`Mod(Constant(+inf), Constant(3))` returns NaN, which is no number: it is not a remainder,
and not below `3` in magnitude (no comparison with a NaN holds). -/
theorem C20_counterexample :
    Returns samplePlatform
      (.CNModulo (.CNConstant (Dbl.inf false)) (.CNConstant (Dbl.ofInt 3))) initialEnv
      Dbl.nan initialEnv ∧
    Dbl.ne (Dbl.ofInt 3) Dbl.zero = true ∧
    Dbl.lt Dbl.nan (Dbl.ofInt 3) = false ∧ Dbl.eq Dbl.nan Dbl.zero = false :=
  ⟨⟨2, rfl⟩, by decide, by decide, by decide⟩

/-- C20 as amended.  For all finite `a` and all finite `b != 0`, in every environment,
`Mod(Constant(a), Constant(b))` returns a finite number `r` and leaves the environment
unchanged; `r` is the remainder of the division truncated toward zero,
`a - r = trunc(a/b) * b` exactly (so `a - r` is an integer multiple of `b`), `|r| < |b|`,
and `r` is zero or has the sign of `a` (its sign bit is always that of `a`).  In particular
`Mod(-7, 3)` returns `-1` and `Mod(7, -3)` returns `1`. -/
theorem C20_modulo (P : Platform) (a b : Dbl) (s : Env)
    (ha : Dbl.isFinite a = true) (hb : Dbl.isFinite b = true)
    (hb0 : Dbl.ne b Dbl.zero = true) :
    (∃ r, Returns P (.CNModulo (.CNConstant a) (.CNConstant b)) s r s ∧
      Dbl.isFinite r = true ∧
      (∃ neg m e m' e', a = .fin neg m e ∧ r = .fin neg m' e') ∧
      |Dbl.toRat r| < |Dbl.toRat b| ∧
      (Dbl.toRat r = 0 ∨ 0 < Dbl.toRat r * Dbl.toRat a) ∧
      Dbl.toRat a - Dbl.toRat r = (truncQ (Dbl.toRat a / Dbl.toRat b) : ℚ) * Dbl.toRat b) ∧
    Returns P (.CNModulo (.CNConstant (Dbl.ofInt (-7))) (.CNConstant (Dbl.ofInt 3))) s
      (Dbl.ofInt (-1)) s ∧
    Returns P (.CNModulo (.CNConstant (Dbl.ofInt 7)) (.CNConstant (Dbl.ofInt (-3)))) s
      (Dbl.ofInt 1) s := by
  have hmod : ∀ x y : Dbl,
      Returns P (.CNModulo (.CNConstant x) (.CNConstant y)) s (Dbl.fmod x y) s := by
    intro x y
    refine ⟨2, ?_⟩
    rw [evaluate, evaluateBody,
      evalOperands_pure (evaluate_constant P 0 x s) (evaluate_constant P 0 y s)]
  refine ⟨?_, ?_, ?_⟩
  · cases a with
    | nan => simp [Dbl.isFinite] at ha
    | inf _ => simp [Dbl.isFinite] at ha
    | fin sa m e =>
      cases b with
      | nan => simp [Dbl.isFinite] at hb
      | inf _ => simp [Dbl.isFinite] at hb
      | fin sb n f =>
        obtain ⟨m', e', h1, hfin, h2, h3, h4⟩ :=
          Dbl.fmod_fin sa m e sb n f ha hb (Dbl.ne_zero_fin hb0)
        refine ⟨.fin sa m' e', ?_, hfin, ⟨sa, m, e, m', e', rfl, rfl⟩, h2, h3, h4⟩
        have := hmod (.fin sa m e) (.fin sb n f)
        rwa [h1] at this
  · have := hmod (Dbl.ofInt (-7)) (Dbl.ofInt 3)
    rwa [(by decide : Dbl.fmod (Dbl.ofInt (-7)) (Dbl.ofInt 3) = Dbl.ofInt (-1))] at this
  · have := hmod (Dbl.ofInt 7) (Dbl.ofInt (-3))
    rwa [(by decide : Dbl.fmod (Dbl.ofInt 7) (Dbl.ofInt (-3)) = Dbl.ofInt 1)] at this

/-- C20 as amended, at `a = 7.5` and `b = 2`: the remainder is `1.5`. -/
theorem C20_modulo_witness :
    Returns samplePlatform
      (.CNModulo (.CNConstant (Dbl.fin false 15 (-1))) (.CNConstant (Dbl.fin false 2 0)))
      initialEnv (Dbl.fin false 3 (-1)) initialEnv ∧
    |Dbl.toRat (Dbl.fin false 3 (-1))| < |Dbl.toRat (Dbl.fin false 2 0)| := by
  obtain ⟨⟨r, h1, _, _, h4, _⟩, _⟩ :=
    C20_modulo samplePlatform (Dbl.fin false 15 (-1)) (Dbl.fin false 2 0) initialEnv
      (by decide) (by decide) (by decide)
  have hr : r = Dbl.fin false 3 (-1) :=
    (Returns.unique h1 ⟨2, rfl⟩).1
  rw [hr] at h1 h4
  exact ⟨h1, h4⟩

/-! ## C21: the binary function `pow` and the operator `^` -/

/-- C21 fails on the code.  `CNBinaryFunction::evaluate` runs `left->evaluate()` and then
`right->evaluate()` in two statements; `CNPower::evaluate` passes both calls as arguments
of `std::pow` and nothing sequences them.  On every platform the binary function with
code 1 on `(x = 1, x = 2)` returns `pow(1, 2)` and leaves `x = 2`, while the Pow node on
the same operands returns `pow(1, 2)` and leaves `x = 1` where the arguments of the call
run right to left; on `(x = c, x)` the function gets `c` twice and the Pow node gets, as
exponent, what `x` held before.  So where the arguments run right to left, in a fresh
program the two nodes leave different environments.  The two nodes have the same outcome
for every bound on the depth where the left argument runs first, and on every platform
they return the same value and environment for operands that leave the environment as it
was. -/
theorem C21_pow_operands_not_sequenced (P : Platform) (t : Env) :
    Returns P
      (.CNBinaryFunction 1 (.CNAssignment "x" (.CNConstant (Dbl.ofInt 1)))
        (.CNAssignment "x" (.CNConstant (Dbl.ofInt 2)))) t
      (P.pow (Dbl.ofInt 1) (Dbl.ofInt 2)) (setVariable t "x" (Dbl.ofInt 2)) ∧
    Returns P
      (.CNPower (.CNAssignment "x" (.CNConstant (Dbl.ofInt 1)))
        (.CNAssignment "x" (.CNConstant (Dbl.ofInt 2)))) t
      (P.pow (Dbl.ofInt 1) (Dbl.ofInt 2))
      (setVariable t "x" (if P.rightFirst .pow then Dbl.ofInt 1 else Dbl.ofInt 2)) ∧
    (∀ c : Dbl,
      Returns P (.CNBinaryFunction 1 (.CNAssignment "x" (.CNConstant c)) (.CNVariable "x")) t
        (P.pow c c) (setVariable t "x" c) ∧
      Returns P (.CNPower (.CNAssignment "x" (.CNConstant c)) (.CNVariable "x")) t
        (P.pow c (if P.rightFirst .pow then getVariable t "x" else c)) (setVariable t "x" c)) ∧
    Returns gccPlatform
      (.CNBinaryFunction 1 (.CNAssignment "x" (.CNConstant (Dbl.ofInt 1)))
        (.CNAssignment "x" (.CNConstant (Dbl.ofInt 2)))) initialEnv
      (gccPlatform.pow (Dbl.ofInt 1) (Dbl.ofInt 2))
      (setVariable initialEnv "x" (Dbl.ofInt 2)) ∧
    Returns gccPlatform
      (.CNPower (.CNAssignment "x" (.CNConstant (Dbl.ofInt 1)))
        (.CNAssignment "x" (.CNConstant (Dbl.ofInt 2)))) initialEnv
      (gccPlatform.pow (Dbl.ofInt 1) (Dbl.ofInt 2))
      (setVariable initialEnv "x" (Dbl.ofInt 1)) ∧
    getVariable (setVariable initialEnv "x" (Dbl.ofInt 2)) "x" ≠
      getVariable (setVariable initialEnv "x" (Dbl.ofInt 1)) "x" ∧
    (P.rightFirst .pow = false → ∀ (l r : YxlangNode) (s : Env) (fuel : ℕ),
      evaluate P fuel (.CNBinaryFunction 1 l r) s = evaluate P fuel (.CNPower l r) s) ∧
    (∀ (l r : YxlangNode) (s : Env) (a b : Dbl), Returns P l s a s → Returns P r s b s →
      Returns P (.CNBinaryFunction 1 l r) s (P.pow a b) s ∧
      Returns P (.CNPower l r) s (P.pow a b) s) := by
  refine ⟨⟨3, ?_⟩, ⟨3, ?_⟩, fun c => ⟨?_, ?_⟩, ⟨3, ?_⟩, ⟨3, ?_⟩, ?_, fun hP l r s fuel => ?_,
    fun l r s a b hl hr => ?_⟩
  · simp only [evaluate, evaluateBody, evalBoth, evalOperands, setVariable_setVariable]
    rfl
  · cases hf : P.rightFirst .pow <;>
      simp [evaluate, evaluateBody, evalOperands, hf, setVariable_setVariable]
  · obtain ⟨n, hn⟩ := evalOperands_assign_then_read P t c false
    exact ⟨n + 1, by simp [evaluate, evaluateBody, evalBoth, hn]⟩
  · cases hf : P.rightFirst .pow
    · simpa using (Returns.arith_of_operands false
        (evalOperands_assign_then_read P t c false)).2.2.2.2.2 hf
    · simpa using (Returns.arith_of_operands true
        (evalOperands_assign_then_read P t c true)).2.2.2.2.2 hf
  · simp only [evaluate, evaluateBody, evalBoth, evalOperands, setVariable_setVariable]
    rfl
  · simp only [evaluate, evaluateBody, evalOperands, gccPlatform, setVariable_setVariable]
    rfl
  · rw [getVariable_setVariable_same, getVariable_setVariable_same]
    decide
  · cases fuel with
    | zero => rfl
    | succ n => simp only [evaluate, evaluateBody, evalBoth, hP, if_true]
  · obtain ⟨n, h1, h2⟩ := Returns.common hl hr
    have hn : ∀ flag, evalOperands (evaluate P n) flag l r s = .ok (a, b, s) :=
      fun flag => by cases flag <;> simp [evalOperands, h1, h2]
    exact ⟨⟨n + 1, by simp [evaluate, evaluateBody, evalBoth, hn]⟩,
      ⟨n + 1, by simp only [evaluate, evaluateBody, hn]⟩⟩

/-! ## C22: an expression list evaluated directly -/

/-- C22.  `CNExprlist::evaluate` is `return left->evaluate();`: for every head `h`, tail `t`
(the null pointer included) and environment, the list returns exactly when `h` alone
returns, with the same value and the same environment; every bounded evaluation of the
list is the evaluation of `h` with one call less, so the tail is never evaluated, and a
tail that assigns `y` leaves `y` unset. -/
theorem C22_exprlist_head_only (P : Platform) (h t : YxlangNode) (s : Env) :
    (∀ fuel, evaluate P (fuel + 1) (.CNExprlist h t) s = evaluate P fuel h s) ∧
    (∀ v s', Returns P (.CNExprlist h t) s v s' ↔ Returns P h s v s') ∧
    (∀ c d : Dbl, Returns P
      (.CNExprlist (.CNConstant c) (.CNExprlist (.CNAssignment "y" (.CNConstant d)) .NULL))
      s c s) := by
  refine ⟨fun fuel => rfl, fun v s' => ⟨?_, fun ⟨n, hn⟩ => ⟨n + 1, hn⟩⟩, fun c d => ⟨2, rfl⟩⟩
  rintro ⟨n, hn⟩
  cases n with
  | zero => simp [evaluate] at hn
  | succ n => exact ⟨n, hn⟩

/-! ## C23: the tables -/

/-- C23.  After `setVariable(x, v)`, `getVariable(x)` is `v` and `existsVariable(x)` is
true, and for every `y` other than `x` both `getVariable(y)` and `existsVariable(y)` are
as before; `getVariable` of a name that was never set is `0.0`, and in a fresh program no
name is set; after `setFunction(f, d)`, `getFunction(f)` is `d` and `getFunction` of every
other name is as before; `getFunction` of a name that is not in the table is absent, and
in a fresh program no name is in the table; writing one table does not touch the other. -/
theorem C23_map_laws (s : Env) (x : String) (v : Dbl) (f : String) (d : CustomFunction) :
    getVariable (setVariable s x v) x = v ∧
    existsVariable (setVariable s x v) x = true ∧
    (∀ y, y ≠ x → getVariable (setVariable s x v) y = getVariable s y ∧
      existsVariable (setVariable s x v) y = existsVariable s y) ∧
    (s.variablemap x = none → getVariable s x = Dbl.zero ∧ existsVariable s x = false) ∧
    (∀ y, getVariable initialEnv y = Dbl.zero ∧ existsVariable initialEnv y = false) ∧
    getFunction (setFunction s f d) f = some d ∧
    existsFunction (setFunction s f d) f = true ∧
    (∀ g, g ≠ f → getFunction (setFunction s f d) g = getFunction s g) ∧
    (s.functionmap f = none → getFunction s f = none ∧ existsFunction s f = false) ∧
    (∀ g, getFunction initialEnv g = none) ∧
    (∀ g, getFunction (setVariable s x v) g = getFunction s g) ∧
    (∀ y, getVariable (setFunction s f d) y = getVariable s y) := by
  refine ⟨getVariable_setVariable_same s x v, ?_, fun y hy => ⟨getVariable_setVariable_other s v hy, ?_⟩,
    fun h => ⟨?_, ?_⟩, fun y => ⟨rfl, rfl⟩, getFunction_setFunction_same s f d, ?_,
    fun g hg => getFunction_setFunction_other s d hg, fun h => ⟨h, ?_⟩, fun g => rfl,
    fun g => rfl, fun y => rfl⟩
  · simp [existsVariable, setVariable]
  · simp [existsVariable, setVariable, Function.update_noteq hy]
  · simp [getVariable, h]
  · simp [existsVariable, h]
  · simp [existsFunction, setFunction]
  · simp [existsFunction, h]

/-! ## C24: the context's table and the nodes' table -/

/-- C24 fails as stated: `YxlangContext::variables` is a member of the context object, the
nodes read and write the static `YxlangNode::variables`, and nothing copies one into the
other.  A host that seeds `x = 5` into a fresh context and evaluates `VariableRef("x")` in
a fresh program gets `0.0`, not `5`; and after `Assignment("x", Constant(7))` the
context's `getVariable("x")` is still `5` (and `0.0` in a context that was not seeded),
not `7`. -/
theorem C24_counterexample :
    (∃ h, hostEvaluate samplePlatform 1 (.CNVariable "x")
        ⟨emptyContext.seedVariable "x" (Dbl.ofInt 5), initialEnv⟩ = .ok (Dbl.zero, h)) ∧
    Dbl.zero ≠ Dbl.ofInt 5 ∧
    (∃ h, hostEvaluate samplePlatform 2 (.CNAssignment "x" (.CNConstant (Dbl.ofInt 7)))
        ⟨emptyContext.seedVariable "x" (Dbl.ofInt 5), initialEnv⟩ = .ok (Dbl.ofInt 7, h) ∧
      h.context.getVariable "x" = Dbl.ofInt 5) ∧
    Dbl.ofInt 5 ≠ Dbl.ofInt 7 ∧
    (∃ h, hostEvaluate samplePlatform 2 (.CNAssignment "x" (.CNConstant (Dbl.ofInt 7)))
        ⟨emptyContext, initialEnv⟩ = .ok (Dbl.ofInt 7, h) ∧
      h.context.getVariable "x" = Dbl.zero) ∧
    Dbl.zero ≠ Dbl.ofInt 7 :=
  ⟨⟨_, rfl⟩, by decide, ⟨_, rfl, by decide⟩, by decide, ⟨_, rfl, by decide⟩, by decide⟩

/-- C24 as amended.  The table the nodes use is the static `YxlangNode::variables`, and the
context's `variables` is another table that evaluation neither reads nor writes: whatever
the context holds, `VariableRef(x)` returns the value that `x` has in the static table
(`0.0` when it has none) and leaves the host's state as it was, and after
`Assignment(x, Constant(c))` the static `YxlangNode::getVariable(x)` returns `c` while the
context, and so its `getVariable` of every name, is as before; in general whenever `node`
is evaluated from the host the context object it leaves is the one it found. -/
theorem C24_static_table (P : Platform) (h : HostState) (x : String) (c : Dbl) :
    (∀ v, h.statics.variablemap x = some v →
      hostEvaluate P 1 (.CNVariable x) h = .ok (v, h)) ∧
    (h.statics.variablemap x = none →
      hostEvaluate P 1 (.CNVariable x) h = .ok (Dbl.zero, h)) ∧
    (∃ h', hostEvaluate P 2 (.CNAssignment x (.CNConstant c)) h = .ok (c, h') ∧
      getVariable h'.statics x = c ∧ h'.context = h.context ∧
      ∀ y, h'.context.getVariable y = h.context.getVariable y) ∧
    (∀ fuel node v h', hostEvaluate P fuel node h = .ok (v, h') →
      h'.context = h.context ∧ evaluate P fuel node h.statics = .ok (v, h'.statics)) := by
  refine ⟨fun v hv => ?_, fun hn => ?_, ⟨⟨h.context, setVariable h.statics x c⟩, rfl,
    getVariable_setVariable_same _ _ _, rfl, fun y => rfl⟩, fun fuel node v h' hh => ?_⟩
  · simp [hostEvaluate, evaluate, evaluateBody, existsVariable, getVariable, hv]
  · simp [hostEvaluate, evaluate, evaluateBody, existsVariable, hn]
  · unfold hostEvaluate at hh
    split at hh
    · cases hh
    · rename_i v1 s1 he
      cases hh
      exact ⟨rfl, he⟩

/-- C24 as amended, in a fresh program with `x = 5` seeded into the context: after
`Assignment("x", Constant(7))` the static table gives `7` for `x` and the context is the one
the host seeded. -/
theorem C24_static_table_witness :
    ∃ h', hostEvaluate samplePlatform 2 (.CNAssignment "x" (.CNConstant (Dbl.ofInt 7)))
        ⟨emptyContext.seedVariable "x" (Dbl.ofInt 5), initialEnv⟩ = .ok (Dbl.ofInt 7, h') ∧
      getVariable h'.statics "x" = Dbl.ofInt 7 ∧
      h'.context = emptyContext.seedVariable "x" (Dbl.ofInt 5) ∧
      ∀ y, h'.context.getVariable y = (emptyContext.seedVariable "x" (Dbl.ofInt 5)).getVariable y :=
  (C24_static_table samplePlatform ⟨emptyContext.seedVariable "x" (Dbl.ofInt 5), initialEnv⟩
    "x" (Dbl.ofInt 7)).2.2.1

/-! ## Trees without side effects -/

/-- Two operands that return without changing the tables: any operand order gives the two
values and the same tables. -/
theorem evalOperands_of_pure {P : Platform} {l r : YxlangNode} {s : Env} {a b : Dbl}
    (hl : Returns P l s a s) (hr : Returns P r s b s) :
    ∃ n, ∀ flag, evalOperands (evaluate P n) flag l r s = .ok (a, b, s) := by
  obtain ⟨n, h1, h2⟩ := Returns.common hl hr
  exact ⟨n, fun flag => by cases flag <;> simp [evalOperands, h1, h2]⟩

/-- A tree without side effects returns, in every environment, and leaves it unchanged. -/
theorem isPure_returns (P : Platform) :
    ∀ node, isPure node = true → ∀ s, ∃ v, Returns P node s v s := by
  intro node
  induction node with
  | CNConstant value => exact fun _ s => ⟨value, Returns.constant P value s⟩
  | CNVariable name => exact fun _ s => ⟨_, Returns.variable P name s⟩
  | CNNegate node ih =>
    intro h s
    obtain ⟨v, n, hn⟩ := ih h s
    exact ⟨Dbl.neg v, n + 1, by simp only [evaluate, evaluateBody, hn]⟩
  | CNAdd l r ihl ihr =>
    intro h s
    simp only [isPure, Bool.and_eq_true] at h
    obtain ⟨a, ha⟩ := ihl h.1 s
    obtain ⟨b, hb⟩ := ihr h.2 s
    obtain ⟨n, hn⟩ := evalOperands_of_pure ha hb
    exact ⟨Dbl.add a b, n + 1, by simp only [evaluate, evaluateBody, hn]⟩
  | CNSubtract l r ihl ihr =>
    intro h s
    simp only [isPure, Bool.and_eq_true] at h
    obtain ⟨a, ha⟩ := ihl h.1 s
    obtain ⟨b, hb⟩ := ihr h.2 s
    obtain ⟨n, hn⟩ := evalOperands_of_pure ha hb
    exact ⟨Dbl.sub a b, n + 1, by simp only [evaluate, evaluateBody, hn]⟩
  | CNMultiply l r ihl ihr =>
    intro h s
    simp only [isPure, Bool.and_eq_true] at h
    obtain ⟨a, ha⟩ := ihl h.1 s
    obtain ⟨b, hb⟩ := ihr h.2 s
    obtain ⟨n, hn⟩ := evalOperands_of_pure ha hb
    exact ⟨Dbl.mul a b, n + 1, by simp only [evaluate, evaluateBody, hn]⟩
  | CNDivide l r ihl ihr =>
    intro h s
    simp only [isPure, Bool.and_eq_true] at h
    obtain ⟨a, ha⟩ := ihl h.1 s
    obtain ⟨b, hb⟩ := ihr h.2 s
    obtain ⟨n, hn⟩ := evalOperands_of_pure ha hb
    exact ⟨Dbl.div a b, n + 1, by simp only [evaluate, evaluateBody, hn]⟩
  | CNModulo l r ihl ihr =>
    intro h s
    simp only [isPure, Bool.and_eq_true] at h
    obtain ⟨a, ha⟩ := ihl h.1 s
    obtain ⟨b, hb⟩ := ihr h.2 s
    obtain ⟨n, hn⟩ := evalOperands_of_pure ha hb
    exact ⟨Dbl.fmod a b, n + 1, by simp only [evaluate, evaluateBody, hn]⟩
  | CNPower l r ihl ihr =>
    intro h s
    simp only [isPure, Bool.and_eq_true] at h
    obtain ⟨a, ha⟩ := ihl h.1 s
    obtain ⟨b, hb⟩ := ihr h.2 s
    obtain ⟨n, hn⟩ := evalOperands_of_pure ha hb
    exact ⟨P.pow a b, n + 1, by simp only [evaluate, evaluateBody, hn]⟩
  | CNCompare fn l r ihl ihr =>
    intro h s
    simp only [isPure, Bool.and_eq_true] at h
    obtain ⟨a, ha⟩ := ihl h.1 s
    obtain ⟨b, hb⟩ := ihr h.2 s
    obtain ⟨n, hn⟩ := evalOperands_of_pure ha hb
    have hev : ∃ v, evaluate P (n + 1) (.CNCompare fn l r) s = .ok (v, s) := by
      simp only [evaluate, evaluateBody, evalBoth, hn]
      exact ⟨_, rfl⟩
    obtain ⟨v, hv⟩ := hev
    exact ⟨v, n + 1, hv⟩
  | CNUnaryFunction fn l r ihl _ =>
    intro h s
    simp only [isPure, Bool.and_eq_true, Bool.or_eq_true, decide_eq_true_eq] at h
    obtain ⟨a, n, hn⟩ := ihl h.2 s
    rcases h.1 with (h1 | h2) | h3
    · exact ⟨P.sqrt a, n + 1, by simp [evaluate, evaluateBody, hn, h1]⟩
    · exact ⟨P.exp a, n + 1, by simp [evaluate, evaluateBody, hn, h2]⟩
    · exact ⟨P.log a, n + 1, by simp [evaluate, evaluateBody, hn, h3]⟩
  | CNBinaryFunction fn l r ihl ihr =>
    intro h s
    simp only [isPure, Bool.and_eq_true] at h
    obtain ⟨a, ha⟩ := ihl h.1 s
    obtain ⟨b, hb⟩ := ihr h.2 s
    obtain ⟨n, hn⟩ := evalOperands_of_pure ha hb
    by_cases hf : fn = 1
    · exact ⟨P.pow a b, n + 1, by simp [evaluate, evaluateBody, evalBoth, hn, hf]⟩
    · exact ⟨Dbl.zero, n + 1, by simp [evaluate, evaluateBody, evalBoth, hn, hf]⟩
  | CNExprlist l r ihl _ =>
    intro h s
    obtain ⟨a, n, hn⟩ := ihl h s
    exact ⟨a, n + 1, hn⟩
  | CNParamlist name l r _ _ => exact fun _ s => ⟨Dbl.zero, 1, rfl⟩
  | NULL => exact fun h => by simp [isPure] at h
  | CNAssignment name l _ => exact fun h => by simp [isPure] at h
  | CNCondition c l r _ _ _ => exact fun h => by simp [isPure] at h
  | CNStatement l r _ _ => exact fun h => by simp [isPure] at h
  | CNCustomFunction name l r _ _ => exact fun h => by simp [isPure] at h
  | CNCallUDF name l r _ _ => exact fun h => by simp [isPure] at h

/-- C25.  For every tree built only from constants, variable references, negations, the
arithmetic classes, comparisons, binary functions, expression lists, parameter lists and
the unary functions sqrt, exp and log, on every platform (either operand order) and in
every environment: `evaluate` returns a value `v` and leaves the environment, that is the
variable table, the function table and the output, exactly as it was; every return of the
tree from that environment gives the same value and the same environment; so a second
evaluation, which starts in the unchanged environment, returns `v` again. -/
theorem C25_pure_evaluation (P : Platform) (node : YxlangNode) (s : Env)
    (h : isPure node = true) :
    ∃ v, Returns P node s v s ∧
      (∀ v' s', Returns P node s v' s' →
        v' = v ∧ s' = s ∧ s'.variablemap = s.variablemap ∧
          s'.functionmap = s.functionmap ∧ Returns P node s' v s') := by
  obtain ⟨v, hv⟩ := isPure_returns P node h s
  refine ⟨v, hv, fun v' s' h' => ?_⟩
  obtain ⟨e1, e2⟩ := Returns.unique h' hv
  subst e1 e2
  exact ⟨rfl, rfl, rfl, rfl, hv⟩

/-- C25 in a fresh program: `pow(x, 2) + sqrt(-x)` leaves the tables as they were. -/
theorem C25_pure_evaluation_witness :
    ∃ v, Returns samplePlatform
        (.CNAdd (.CNBinaryFunction 1 (.CNVariable "x") (.CNConstant (Dbl.ofInt 2)))
          (.CNUnaryFunction 1 (.CNNegate (.CNVariable "x")) .NULL)) initialEnv v initialEnv ∧
      (∀ v' s', Returns samplePlatform
        (.CNAdd (.CNBinaryFunction 1 (.CNVariable "x") (.CNConstant (Dbl.ofInt 2)))
          (.CNUnaryFunction 1 (.CNNegate (.CNVariable "x")) .NULL)) initialEnv v' s' →
        v' = v ∧ s' = initialEnv ∧ s'.variablemap = initialEnv.variablemap ∧
          s'.functionmap = initialEnv.functionmap ∧
          Returns samplePlatform
            (.CNAdd (.CNBinaryFunction 1 (.CNVariable "x") (.CNConstant (Dbl.ofInt 2)))
              (.CNUnaryFunction 1 (.CNNegate (.CNVariable "x")) .NULL)) s' v s') :=
  C25_pure_evaluation samplePlatform _ initialEnv (by decide)

/-! ## C26: division by zero -/

/-- C26.  On every platform and in every environment `Div(Constant(1), Constant(0))`
returns `+inf` and `Div(Constant(0), Constant(0))` returns NaN, both leaving the
environment as it was; and for every finite dividend and either zero as divisor the
quotient of `double` is NaN when the dividend is a zero and otherwise the infinity whose
sign is the product of the two signs, so that `Div` of the two constants returns it. -/
theorem C26_division_by_zero (P : Platform) (s : Env) :
    Returns P (.CNDivide (.CNConstant (Dbl.ofInt 1)) (.CNConstant (Dbl.ofInt 0))) s
      (Dbl.inf false) s ∧
    Returns P (.CNDivide (.CNConstant (Dbl.ofInt 0)) (.CNConstant (Dbl.ofInt 0))) s
      Dbl.nan s ∧
    (∀ (neg t : Bool) (m : Nat) (e f : Int),
      Returns P (.CNDivide (.CNConstant (Dbl.fin neg m e)) (.CNConstant (Dbl.fin t 0 f))) s
        (if m = 0 then Dbl.nan else Dbl.inf (xor neg t)) s) := by
  have key : ∀ a b : Dbl, Returns P (.CNDivide (.CNConstant a) (.CNConstant b)) s
      (Dbl.div a b) s := by
    intro a b
    refine ⟨2, ?_⟩
    cases hP : P.rightFirst .div <;>
      simp [evaluate, evaluateBody, evalOperands, hP]
  refine ⟨?_, ?_, fun neg t m e f => ?_⟩
  · have := key (Dbl.ofInt 1) (Dbl.ofInt 0)
    rwa [(by decide : Dbl.div (Dbl.ofInt 1) (Dbl.ofInt 0) = Dbl.inf false)] at this
  · have := key (Dbl.ofInt 0) (Dbl.ofInt 0)
    rwa [(by decide : Dbl.div (Dbl.ofInt 0) (Dbl.ofInt 0) = Dbl.nan)] at this
  · have := key (Dbl.fin neg m e) (Dbl.fin t 0 f)
    simpa [Dbl.div] using this

/-! ## C27: the vector of top-level trees -/

/-- C27.  `expressions.push_back(tree)` makes the vector one longer, leaves every earlier
entry at its index and puts `tree` at the last index, and leaves the context's variables
alone; after `clearExpressions()` the vector is empty, whatever it held, and a second
`clearExpressions()` changes nothing; so trees pushed one after another sit in the order
of the pushes. -/
theorem C27_program_container (c : YxlangContext) (tree : YxlangNode) :
    (c.pushExpression tree).expressions = c.expressions ++ [tree] ∧
    (c.pushExpression tree).expressions.length = c.expressions.length + 1 ∧
    (∀ i, i < c.expressions.length →
      (c.pushExpression tree).expressions[i]? = c.expressions[i]?) ∧
    (c.pushExpression tree).expressions[c.expressions.length]? = some tree ∧
    (c.pushExpression tree).expressions.getLast? = some tree ∧
    (c.pushExpression tree).variablemap = c.variablemap ∧
    c.clearExpressions.expressions = [] ∧
    c.clearExpressions.clearExpressions = c.clearExpressions ∧
    c.clearExpressions.variablemap = c.variablemap ∧
    (∀ trees : List YxlangNode,
      (trees.foldl YxlangContext.pushExpression c.clearExpressions).expressions = trees) := by
  refine ⟨rfl, by simp [YxlangContext.pushExpression], fun i hi => ?_, ?_, ?_, rfl, rfl, rfl, rfl,
    fun trees => ?_⟩
  · simp [YxlangContext.pushExpression, List.getElem?_append_left hi]
  · simp [YxlangContext.pushExpression]
  · simp [YxlangContext.pushExpression]
  · have : ∀ (ts : List YxlangNode) (d : YxlangContext),
        (ts.foldl YxlangContext.pushExpression d).expressions = d.expressions ++ ts := by
      intro ts
      induction ts with
      | nil => intro d; simp
      | cons t ts ih => intro d; simp [List.foldl, ih, YxlangContext.pushExpression]
    simpa [YxlangContext.clearExpressions] using this trees c.clearExpressions

/-! ## What the first loop saves -/

/-- The first loop writes `oldVal` under the parameters only. -/
theorem bindLoop_oldVal_other (ev : YxlangNode → Env → Result) (x : String) :
    ∀ (ps : List String) (es : List YxlangNode) (o : String → Option Dbl) (s : Env)
      (o' : String → Option Dbl) (s' : Env), x ∉ ps →
      bindLoop ev (paramlist ps) (exprlist es) o s = .ok (o', s') → o' x = o x := by
  intro ps
  induction ps with
  | nil =>
    intro es o s o' s' _ h
    simp only [paramlist, bindLoop, Except.ok.injEq, Prod.mk.injEq] at h
    rw [← h.1]
  | cons p ps ih =>
    intro es o s o' s' hx h
    have hx1 : x ≠ p := fun e => hx (by simp [e])
    have hx2 : x ∉ ps := fun e => hx (by simp [e])
    cases es with
    | nil =>
      simp only [paramlist, exprlist, bindLoop] at h
      have := ih [] _ _ _ _ hx2 (by simpa [exprlist] using h)
      rw [this, Function.update_noteq hx1]
    | cons a es =>
      simp only [paramlist, exprlist, bindLoop] at h
      cases h1 : ev a s with
      | error f => simp [h1] at h
      | ok r =>
        obtain ⟨val, s1⟩ := r
        simp only [h1] at h
        have := ih es _ _ _ _ hx2 h
        rw [this, Function.update_noteq hx1]

/-- The first loop saves under the first parameter the value it had before the call, when
the name is not repeated further down the list. -/
theorem bindLoop_oldVal_head (ev : YxlangNode → Env → Result) {p : String} {ps : List String}
    {es : List YxlangNode} {o : String → Option Dbl} {s : Env} {o' : String → Option Dbl}
    {s' : Env} (hp : p ∉ ps)
    (h : bindLoop ev (paramlist (p :: ps)) (exprlist es) o s = .ok (o', s')) :
    oldValAt o' p = getVariable s p := by
  cases es with
  | nil =>
    simp only [paramlist, exprlist, bindLoop] at h
    have := bindLoop_oldVal_other ev p ps [] _ _ _ _ hp (by simpa [exprlist] using h)
    simp [oldValAt, this]
  | cons a es =>
    simp only [paramlist, exprlist, bindLoop] at h
    cases h1 : ev a s with
    | error f => simp [h1] at h
    | ok r =>
      obtain ⟨val, s1⟩ := r
      simp only [h1] at h
      have := bindLoop_oldVal_other ev p ps es _ _ _ _ hp h
      simp [oldValAt, this]

/-- The first loop over a parameter list in two parts: the rounds of the first part, then
the rounds of the second part with the actuals that are left. -/
theorem bindLoop_append_inv (ev : YxlangNode → Env → Result) :
    ∀ (pre rest : List String) (es : List YxlangNode) (o : String → Option Dbl) (s : Env)
      (o' : String → Option Dbl) (s' : Env),
      bindLoop ev (paramlist (pre ++ rest)) (exprlist es) o s = .ok (o', s') →
      ∃ o1 t, bindLoop ev (paramlist pre) (exprlist es) o s = .ok (o1, t) ∧
        bindLoop ev (paramlist rest) (exprlist (es.drop pre.length)) o1 t = .ok (o', s') := by
  intro pre
  induction pre with
  | nil =>
    intro rest es o s o' s' h
    exact ⟨o, s, by simp [paramlist, bindLoop], by simpa using h⟩
  | cons p pre ih =>
    intro rest es o s o' s' h
    cases es with
    | nil =>
      simp only [List.cons_append, paramlist, exprlist, bindLoop] at h
      obtain ⟨o1, t, h1, h2⟩ := ih rest [] _ _ _ _ (by simpa [exprlist] using h)
      exact ⟨o1, t, by simpa [paramlist, exprlist, bindLoop] using h1, by simpa using h2⟩
    | cons e es =>
      simp only [List.cons_append, paramlist, exprlist, bindLoop] at h
      cases h1 : ev e s with
      | error f => simp [h1] at h
      | ok r =>
        obtain ⟨val, s1⟩ := r
        simp only [h1] at h
        obtain ⟨o1, t, h2, h3⟩ := ih rest es _ _ _ _ h
        exact ⟨o1, t, by simpa [paramlist, exprlist, bindLoop, h1] using h2, by simpa using h3⟩

/-- One round of the first loop that ends: either there is an actual, it returned, and its
value was stored under the parameter, or there is none and `0` was stored; the loop then
went on with the other parameters and actuals. -/
theorem bindLoop_round_inv (ev : YxlangNode → Env → Result) (q : String) (post : List String)
    (es : List YxlangNode) (o : String → Option Dbl) (t : Env)
    (o' : String → Option Dbl) (s' : Env)
    (h : bindLoop ev (paramlist (q :: post)) (exprlist es) o t = .ok (o', s')) :
    (∃ e rest val t', es = e :: rest ∧ ev e t = .ok (val, t') ∧
      bindLoop ev (paramlist post) (exprlist rest)
        (Function.update o q (some (getVariable t q))) (setVariable t' q val) = .ok (o', s')) ∨
    (es = [] ∧
      bindLoop ev (paramlist post) (exprlist [])
        (Function.update o q (some (getVariable t q))) (setVariable t q Dbl.zero)
        = .ok (o', s')) := by
  cases es with
  | nil =>
    simp only [paramlist, exprlist, bindLoop] at h
    exact Or.inr ⟨rfl, by simpa [exprlist] using h⟩
  | cons e rest =>
    simp only [paramlist, exprlist, bindLoop] at h
    cases h1 : ev e t with
    | error f => simp [h1] at h
    | ok r =>
      obtain ⟨val, t'⟩ := r
      simp only [h1] at h
      exact Or.inl ⟨e, rest, val, t', rfl, h1, h⟩

/-- C28 fails as stated: a later actual can assign a parameter that is already bound.  With
`let f(a, b, c) = a;` and `let w(z) = b = 99;`, the call `f(1, 2, w(0))` binds `b` to `2`,
then the third actual assigns `b`; the body `a` does not assign `b`, the call returns `1`,
and afterwards `b` holds `99`, not the bound value `2`. -/
theorem C28_counterexample :
    ∃ s3, Returns samplePlatform spoilSecondCall
        (setFunction (setFunction initialEnv "w" spoilSecondFunction) "f" firstFunction)
        (Dbl.ofInt 1) s3 ∧
      getVariable s3 "b" = Dbl.ofInt 99 ∧ Dbl.ofInt 99 ≠ Dbl.ofInt 2 := by
  refine ⟨_, ⟨5, rfl⟩, ?_, by decide⟩
  rfl

/-- C28 as amended.  A function is registered with the parameter list the grammar builds
for the pairwise distinct names `p1, ps...` (two or more names when `ps` is not empty) and
a call of it, with any number of actuals, returns.  Then the body ran from an environment
`s1` to an environment `s2`, and after the call
* `p1` reads the value it had before the call;
* every other variable, so each later parameter, has the entry the body left in `s2`: the
  second loop stops after `p1`, because `right` is null;
* for each later parameter `q`, the parameters before it being `pre` and those after it
  `post`: the rounds of `pre` ended in an environment `t`; then the actual of `q`, if the
  call has one, returned `val` from `t` and `val` was stored under `q`, and if it has none
  `0.0` was stored (`val = 0.0`); the rounds of `post` led from there to `s1`; and when
  these rounds (the later actuals) and the body left `q` as it was stored, `q` reads `val`
  after the call. -/
theorem C28_only_first_parameter_restored (P : Platform) (name : String)
    (func : CustomFunction) (p1 : String) (ps : List String) (es : List YxlangNode)
    (right : YxlangNode) (s s3 : Env) (v : Dbl)
    (hf : getFunction s name = some func) (hp : func.left = paramlist (p1 :: ps))
    (hnd : (p1 :: ps).Nodup)
    (hcall : Returns P (.CNCallUDF name (exprlist es) right) s v s3) :
    ∃ s1 s2, Returns P func.right s1 v s2 ∧
      getVariable s3 p1 = getVariable s p1 ∧
      (∀ x, x ≠ p1 → s3.variablemap x = s2.variablemap x) ∧
      (∀ p ∈ ps, getVariable s3 p = getVariable s2 p) ∧
      (∀ (pre post : List String) (q : String), p1 :: ps = pre ++ q :: post → pre ≠ [] →
        ∃ (val : Dbl) (t u : Env) (fuel : ℕ),
          (∃ o1, bindLoop (evaluate P fuel) (paramlist pre) (exprlist es) (fun _ => none) s
            = .ok (o1, t)) ∧
          ((∃ e rest t', es.drop pre.length = e :: rest ∧ Returns P e t val t' ∧
              u = setVariable t' q val) ∨
            (es.drop pre.length = [] ∧ val = Dbl.zero ∧ u = setVariable t q Dbl.zero)) ∧
          (∃ o2 o3, bindLoop (evaluate P fuel) (paramlist post)
            (exprlist (es.drop (pre.length + 1))) o2 u = .ok (o3, s1)) ∧
          getVariable u q = val ∧
          (getVariable s1 q = getVariable u q → getVariable s2 q = getVariable s1 q →
            getVariable s3 q = val)) := by
  obtain ⟨fuel, oldVal, s1, s2, hb, hbody, rfl⟩ := (Returns.call_iff hf _ _ _ _).1 hcall
  rw [hp] at hb
  have hnd' := List.nodup_cons.1 hnd
  have hold := bindLoop_oldVal_head _ hnd'.1 hb
  have hrest : restoreLoop func.left oldVal s2 = setVariable s2 p1 (getVariable s p1) := by
    rw [hp, restoreLoop_paramlist]
    simp only [hold]
  have hother : ∀ x, x ≠ p1 →
      (restoreLoop func.left oldVal s2).variablemap x = s2.variablemap x := by
    intro x hx
    rw [hrest]
    simp [setVariable, Function.update_noteq hx]
  refine ⟨s1, s2, ⟨fuel, hbody⟩, ?_, hother, ?_, ?_⟩
  · rw [hrest, getVariable_setVariable_same]
  · intro p hpm
    exact getVariable_congr (hother p (fun e => hnd'.1 (e ▸ hpm)))
  · intro pre post q hsplit hpre
    have hq1 : q ≠ p1 := by
      cases pre with
      | nil => exact absurd rfl hpre
      | cons p0 pre' =>
        simp only [List.cons_append, List.cons.injEq] at hsplit
        obtain ⟨e0, e1⟩ := hsplit
        intro hq
        apply hnd'.1
        rw [e1, ← hq]
        simp
    rw [hsplit] at hb
    obtain ⟨o1, t, h1, h2⟩ := bindLoop_append_inv _ pre (q :: post) es _ _ _ _ hb
    have hfinal : ∀ (val : Dbl) (u : Env), getVariable u q = val →
        getVariable s1 q = getVariable u q → getVariable s2 q = getVariable s1 q →
        getVariable (restoreLoop func.left oldVal s2) q = val := by
      intro val u hu hk1 hk2
      rw [getVariable_congr (hother q hq1), hk2, hk1, hu]
    rcases bindLoop_round_inv _ q post _ _ _ _ _ h2 with
      ⟨e, rest, val, t', hd, hev, hlater⟩ | ⟨hd, hlater⟩
    · have hdrop : es.drop (pre.length + 1) = rest := by
        rw [← List.drop_drop, hd]
        rfl
      refine ⟨val, t, setVariable t' q val, fuel, ⟨o1, h1⟩,
        Or.inl ⟨e, rest, t', hd, ⟨fuel, hev⟩, rfl⟩, ⟨_, _, by rw [hdrop]; exact hlater⟩,
        getVariable_setVariable_same _ _ _,
        hfinal val _ (getVariable_setVariable_same _ _ _)⟩
    · have hdrop : es.drop (pre.length + 1) = [] := by
        rw [← List.drop_drop, hd]
        rfl
      refine ⟨Dbl.zero, t, setVariable t q Dbl.zero, fuel, ⟨o1, h1⟩,
        Or.inr ⟨hd, rfl, rfl⟩, ⟨_, _, by rw [hdrop]; exact hlater⟩,
        getVariable_setVariable_same _ _ _,
        hfinal Dbl.zero _ (getVariable_setVariable_same _ _ _)⟩

/-- C28 as amended, at `let g(a, b) = a + b;` called as `g(1, 2)` while `a` holds `5` and
`b` holds `7`: the call returns `3`, and afterwards `a` reads `5` and `b` reads `2`. -/
theorem C28_only_first_parameter_restored_witness :
    Returns samplePlatform sumCall
      (setVariable (setVariable (setFunction initialEnv "g" sumFunction) "a" (Dbl.ofInt 5))
        "b" (Dbl.ofInt 7)) (Dbl.ofInt 3)
      (setVariable (setVariable (setVariable (setVariable (setVariable
        (setFunction initialEnv "g" sumFunction) "a" (Dbl.ofInt 5)) "b" (Dbl.ofInt 7))
        "a" (Dbl.ofInt 1)) "b" (Dbl.ofInt 2)) "a" (Dbl.ofInt 5)) ∧
    getVariable (setVariable (setVariable (setVariable (setVariable (setVariable
        (setFunction initialEnv "g" sumFunction) "a" (Dbl.ofInt 5)) "b" (Dbl.ofInt 7))
        "a" (Dbl.ofInt 1)) "b" (Dbl.ofInt 2)) "a" (Dbl.ofInt 5)) "a" = Dbl.ofInt 5 ∧
    getVariable (setVariable (setVariable (setVariable (setVariable (setVariable
        (setFunction initialEnv "g" sumFunction) "a" (Dbl.ofInt 5)) "b" (Dbl.ofInt 7))
        "a" (Dbl.ofInt 1)) "b" (Dbl.ofInt 2)) "a" (Dbl.ofInt 5)) "b" = Dbl.ofInt 2 := by
  have hcall : Returns samplePlatform sumCall
      (setVariable (setVariable (setFunction initialEnv "g" sumFunction) "a" (Dbl.ofInt 5))
        "b" (Dbl.ofInt 7)) (Dbl.ofInt 3)
      (setVariable (setVariable (setVariable (setVariable (setVariable
        (setFunction initialEnv "g" sumFunction) "a" (Dbl.ofInt 5)) "b" (Dbl.ofInt 7))
        "a" (Dbl.ofInt 1)) "b" (Dbl.ofInt 2)) "a" (Dbl.ofInt 5)) := ⟨3, rfl⟩
  obtain ⟨s1, s2, hbody, ha, _, _, hq⟩ :=
    C28_only_first_parameter_restored samplePlatform "g" sumFunction "a" ["b"]
      [.CNConstant (Dbl.ofInt 1), .CNConstant (Dbl.ofInt 2)] .NULL
      (setVariable (setVariable (setFunction initialEnv "g" sumFunction) "a" (Dbl.ofInt 5))
        "b" (Dbl.ofInt 7)) _ _ (by simp [getFunction, setFunction, setVariable]) rfl
      (by decide) hcall
  obtain ⟨val, t, u, fuel, _, hround, ⟨o2, o3, hlater⟩, hu, himp⟩ :=
    hq ["a"] [] "b" rfl (by simp)
  obtain ⟨w, hw⟩ := isPure_returns samplePlatform sumFunction.right rfl s1
  have hs : s2 = s1 := (Returns.unique hbody hw).2
  have hs1 : s1 = u := by
    simp only [paramlist, bindLoop, Except.ok.injEq, Prod.mk.injEq] at hlater
    exact hlater.2.symm
  have hval : val = Dbl.ofInt 2 := by
    rcases hround with ⟨e, rest, t', hd, he, _⟩ | ⟨hd, _, _⟩
    · simp only [List.length_singleton, List.drop_succ_cons, List.drop_zero,
        List.cons.injEq] at hd
      obtain ⟨rfl, _⟩ := hd
      exact (Returns.unique he (Returns.constant _ _ t)).1
    · simp at hd
  exact ⟨hcall, ha.trans (by decide), (himp (by rw [hs1]) (by rw [hs])).trans hval⟩

/-! ## The conversion `double → int` as truncation -/

/-- The truncation `trunc(q)` is zero exactly when `|q| < 1`. -/
theorem truncQ_ne_zero_iff (q : ℚ) : truncQ q ≠ 0 ↔ 1 ≤ |q| := by
  unfold truncQ
  by_cases h : 0 ≤ q
  · simp only [h, if_true, ne_eq, Int.floor_eq_zero_iff, Set.mem_Ico, true_and, not_lt,
      abs_of_nonneg h]
  · have hq : q < 0 := not_le.1 h
    simp only [h, if_false, ne_eq, Int.ceil_eq_zero_iff, Set.mem_Ioc, abs_of_neg hq]
    constructor
    · intro hn
      by_contra hc
      exact hn ⟨by linarith, le_of_lt hq⟩
    · intro h1 hn
      linarith [hn.1]

/-- The integer part of the magnitude that `toInt32` computes (`m` shifted left by `e`, or
right by `-e`) is the truncation of the number, and it does not exceed the magnitude. -/
theorem Dbl.toInt32_intPart (neg : Bool) (m : Nat) (e : Int) (a : Nat)
    (ha : (∃ k : Nat, e = Int.ofNat k ∧ a = m <<< k) ∨
      (∃ k : Nat, e = Int.negSucc k ∧ a = m >>> (k + 1))) :
    truncQ (Dbl.toRat (.fin neg m e)) = (if neg then -(a : Int) else (a : Int)) ∧
      (a : ℚ) ≤ |Dbl.toRat (.fin neg m e)| := by
  have habs : |Dbl.toRat (.fin neg m e)| = (m : ℚ) * 2 ^ e := by
    have hnn : (0 : ℚ) ≤ (m : ℚ) * 2 ^ e := by positivity
    cases neg
    · simp only [Dbl.toRat, Bool.false_eq_true, if_false, one_mul, abs_of_nonneg hnn]
    · simp only [Dbl.toRat, if_true, neg_mul, one_mul, abs_neg, abs_of_nonneg hnn]
  rcases ha with ⟨k, rfl, rfl⟩ | ⟨k, rfl, rfl⟩
  · refine ⟨?_, ?_⟩
    · have h := truncQ_signed_div neg false (m <<< k) 1 (m <<< k) (by simp)
      have e1 : Dbl.toRat (.fin neg m (Int.ofNat k)) =
          ((if neg then -1 else 1) * ((m <<< k : Nat) : ℚ)) /
            ((if false then -1 else 1) * ((1 : Nat) : ℚ)) := by
        simp only [Dbl.toRat, Dbl.shiftLeft_cast, Int.ofNat_eq_coe, zpow_natCast,
          Bool.false_eq_true, if_false, Nat.cast_one, mul_one, div_one]
        ring
      rw [e1, h]
      cases neg <;> simp
    · rw [habs, Dbl.shiftLeft_cast]
      simp
  · refine ⟨?_, ?_⟩
    · have h := truncQ_signed_div neg false m (2 ^ (k + 1)) (m >>> (k + 1))
        (Nat.shiftRight_eq_div_pow m (k + 1))
      have e1 : Dbl.toRat (.fin neg m (Int.negSucc k)) =
          ((if neg then -1 else 1) * (m : ℚ)) /
            ((if false then -1 else 1) * ((2 ^ (k + 1) : Nat) : ℚ)) := by
        have hz : (2 : ℚ) ^ (Int.negSucc k) = ((2 : ℚ) ^ (k + 1))⁻¹ := by
          rw [zpow_negSucc]
        simp only [Dbl.toRat, hz, Bool.false_eq_true, if_false, one_mul, Nat.cast_pow,
          Nat.cast_ofNat]
        rw [div_eq_mul_inv]
      rw [e1, h]
      cases neg <;> simp
    · rw [habs, Nat.shiftRight_eq_div_pow]
      have hz : (2 : ℚ) ^ (Int.negSucc k) = ((2 : ℚ) ^ (k + 1))⁻¹ := by
        rw [zpow_negSucc]
      rw [hz, ← div_eq_mul_inv]
      have := @Nat.cast_div_le ℚ _ m (2 ^ (k + 1))
      simpa using this

/-- A finite `double` of magnitude below `2^31` converts to the `int` that is its
truncation toward zero. -/
theorem Dbl.toInt32_fin (neg : Bool) (m : Nat) (e : Int)
    (h : |Dbl.toRat (.fin neg m e)| < 2 ^ 31) :
    Dbl.toInt32 (.fin neg m e) = some (truncQ (Dbl.toRat (.fin neg m e))) := by
  have key : ∀ a : Nat, ((∃ k : Nat, e = Int.ofNat k ∧ a = m <<< k) ∨
      (∃ k : Nat, e = Int.negSucc k ∧ a = m >>> (k + 1))) →
      (if -2147483648 ≤ (if neg then -(a : Int) else (a : Int)) ∧
          (if neg then -(a : Int) else (a : Int)) ≤ 2147483647
        then some (if neg then -(a : Int) else (a : Int)) else none) =
        some (truncQ (Dbl.toRat (.fin neg m e))) := by
    intro a ha
    obtain ⟨ht, hle⟩ := Dbl.toInt32_intPart neg m e a ha
    have hlt : (a : ℚ) < 2 ^ 31 := lt_of_le_of_lt hle h
    have hlt' : a < 2 ^ 31 := by exact_mod_cast hlt
    have hr : -2147483648 ≤ (if neg then -(a : Int) else (a : Int)) ∧
        (if neg then -(a : Int) else (a : Int)) ≤ 2147483647 := by
      cases neg <;> simp <;> omega
    rw [if_pos hr, ht]
  cases e with
  | ofNat k => exact key (m <<< k) (Or.inl ⟨k, rfl, rfl⟩)
  | negSucc k => exact key (m >>> (k + 1)) (Or.inr ⟨k, rfl, rfl⟩)

/-- What a returning Condition node did. -/
theorem Returns.condition_inv {P : Platform} {cond left right : YxlangNode} {s s2 : Env}
    {v : Dbl} (h : Returns P (.CNCondition cond left right) s v s2) :
    ∃ c s1 k, Returns P cond s c s1 ∧ Dbl.toInt32 c = some k ∧
      (k ≠ 0 → Returns P left s1 v s2) ∧
      (k = 0 → right = YxlangNode.NULL → v = Dbl.zero ∧ s2 = s1) ∧
      (k = 0 → right ≠ YxlangNode.NULL → Returns P right s1 v s2) := by
  obtain ⟨n, hn⟩ := h
  cases n with
  | zero => simp [evaluate] at hn
  | succ n =>
    simp only [evaluate, evaluateBody] at hn
    cases h1 : evaluate P n cond s with
    | error f => simp [h1] at hn
    | ok p =>
      obtain ⟨c, s1⟩ := p
      simp only [h1] at hn
      cases h2 : Dbl.toInt32 c with
      | none => simp [h2] at hn
      | some k =>
        simp only [h2] at hn
        refine ⟨c, s1, k, ⟨n, h1⟩, h2, fun hk => ?_, fun hk hr => ?_, fun hk hr => ?_⟩
        · rw [if_pos hk] at hn
          exact ⟨n, hn⟩
        · rw [if_neg (not_not.2 hk), if_pos hr] at hn
          simp only [Except.ok.injEq, Prod.mk.injEq] at hn
          exact ⟨hn.1.symm, hn.2.symm⟩
        · rw [if_neg (not_not.2 hk), if_neg hr] at hn
          exact ⟨n, hn⟩

/-- C29.  The condition returns the finite value `c` with `|c| < 2^31` and leaves `s1`.
Then the conversion to `int` gives `trunc(c)`, the truncation toward zero, which is not
`0` exactly when `|c| >= 1`; when `|c| >= 1` the Condition node does exactly what the
then-branch does from `s1`; when `|c| < 1` (so for every `c` with `0 < |c| < 1`) it does
exactly what the else-branch does from `s1`, and when there is no else-branch it returns
`0.0` and leaves `s1`, and nothing else. -/
theorem C29_condition_truncates (P : Platform) (cond left right : YxlangNode) (s s1 : Env)
    (neg : Bool) (m : Nat) (e : Int)
    (hc : Returns P cond s (.fin neg m e) s1)
    (hlt : |Dbl.toRat (.fin neg m e)| < 2 ^ 31) :
    Dbl.toInt32 (.fin neg m e) = some (truncQ (Dbl.toRat (.fin neg m e))) ∧
    (truncQ (Dbl.toRat (.fin neg m e)) ≠ 0 ↔ 1 ≤ |Dbl.toRat (.fin neg m e)|) ∧
    (1 ≤ |Dbl.toRat (.fin neg m e)| →
      ∀ v s2, Returns P (.CNCondition cond left right) s v s2 ↔ Returns P left s1 v s2) ∧
    (|Dbl.toRat (.fin neg m e)| < 1 →
      (right ≠ YxlangNode.NULL →
        ∀ v s2, Returns P (.CNCondition cond left right) s v s2 ↔ Returns P right s1 v s2) ∧
      (right = YxlangNode.NULL →
        ∀ v s2, Returns P (.CNCondition cond left right) s v s2 ↔
          (v = Dbl.zero ∧ s2 = s1))) := by
  have hk := Dbl.toInt32_fin neg m e hlt
  have hiff := truncQ_ne_zero_iff (Dbl.toRat (.fin neg m e))
  have inv : ∀ {v s2}, Returns P (.CNCondition cond left right) s v s2 →
      (truncQ (Dbl.toRat (.fin neg m e)) ≠ 0 → Returns P left s1 v s2) ∧
      (truncQ (Dbl.toRat (.fin neg m e)) = 0 → right = YxlangNode.NULL →
        v = Dbl.zero ∧ s2 = s1) ∧
      (truncQ (Dbl.toRat (.fin neg m e)) = 0 → right ≠ YxlangNode.NULL →
        Returns P right s1 v s2) := by
    intro v s2 h
    obtain ⟨c, t1, k, h1, h2, h3, h4, h5⟩ := Returns.condition_inv h
    obtain ⟨ec, et⟩ := Returns.unique h1 hc
    subst ec et
    rw [hk] at h2
    cases h2
    exact ⟨h3, h4, h5⟩
  refine ⟨hk, hiff, fun h1 v s2 => ⟨fun h => (inv h).1 (hiff.2 h1), fun h => ?_⟩,
    fun h1 => ?_⟩
  · exact Returns.condition_then hc hk (hiff.2 h1) h right
  · have h0 : truncQ (Dbl.toRat (.fin neg m e)) = 0 := by
      by_contra hne
      exact absurd (hiff.1 hne) (not_le.2 h1)
    rw [h0] at hk
    refine ⟨fun hr v s2 => ⟨fun h => (inv h).2.2 h0 hr, fun h => ?_⟩,
      fun hr v s2 => ⟨fun h => (inv h).2.1 h0 hr, fun h => ?_⟩⟩
    · exact Returns.condition_else hc hk h left
    · obtain ⟨rfl, rfl⟩ := h
      subst hr
      exact Returns.condition_none hc hk left

/-- C29 at `if (0.5) 1 else 2` in a fresh program: the value is `2`. -/
theorem C29_condition_truncates_witness :
    |Dbl.toRat (.fin false 1 (-1))| < 2 ^ 31 ∧
    Returns samplePlatform
      (.CNCondition (.CNConstant (.fin false 1 (-1))) (.CNConstant (Dbl.ofInt 1))
        (.CNConstant (Dbl.ofInt 2))) initialEnv (Dbl.ofInt 2) initialEnv :=
  have h31 : |Dbl.toRat (.fin false 1 (-1))| < 2 ^ 31 := by
    norm_num [Dbl.toRat, abs_of_nonneg]
  have h1 : |Dbl.toRat (.fin false 1 (-1))| < 1 := by
    norm_num [Dbl.toRat, abs_of_nonneg]
  ⟨h31, (((C29_condition_truncates samplePlatform (.CNConstant (.fin false 1 (-1)))
    (.CNConstant (Dbl.ofInt 1)) (.CNConstant (Dbl.ofInt 2)) initialEnv initialEnv false 1 (-1)
    (Returns.constant _ _ _) h31).2.2.2 h1).1 (by simp) (Dbl.ofInt 2) initialEnv).2
    (Returns.constant _ _ _)⟩

/-- Two operands that return without changing the tables: the six arithmetic nodes return
the operation on the two values, for either operand order. -/
theorem Returns.arith_of_pure {P : Platform} {l r : YxlangNode} {s : Env} {a b : Dbl}
    (hl : Returns P l s a s) (hr : Returns P r s b s) :
    Returns P (.CNAdd l r) s (Dbl.add a b) s ∧
    Returns P (.CNSubtract l r) s (Dbl.sub a b) s ∧
    Returns P (.CNMultiply l r) s (Dbl.mul a b) s ∧
    Returns P (.CNDivide l r) s (Dbl.div a b) s ∧
    Returns P (.CNModulo l r) s (Dbl.fmod a b) s ∧
    Returns P (.CNPower l r) s (P.pow a b) s := by
  obtain ⟨n, h1, h2⟩ := Returns.common hl hr
  have hn : ∀ flag, evalOperands (evaluate P n) flag l r s = .ok (a, b, s) :=
    fun flag => by cases flag <;> simp [evalOperands, h1, h2]
  refine ⟨⟨n + 1, ?_⟩, ⟨n + 1, ?_⟩, ⟨n + 1, ?_⟩, ⟨n + 1, ?_⟩, ⟨n + 1, ?_⟩, ⟨n + 1, ?_⟩⟩ <;>
    simp only [evaluate, evaluateBody, hn]

/-- One round of the first loop: when the next actual returns `v`, the loop goes on with
the remaining parameters and actuals after `v` has been stored under the parameter. -/
theorem bindLoop_step {P : Platform} {e : YxlangNode} {s s1 : Env} {v : Dbl}
    (he : Returns P e s v s1) (p : String) (ps : List String) (es : List YxlangNode)
    (o : String → Option Dbl) :
    ∃ fuel, ∀ n, fuel ≤ n →
      bindLoop (evaluate P n) (paramlist (p :: ps)) (exprlist (e :: es)) o s =
        bindLoop (evaluate P n) (paramlist ps) (exprlist es)
          (Function.update o p (some (getVariable s p))) (setVariable s1 p v) := by
  obtain ⟨a, ha⟩ := he
  refine ⟨a, fun n hn => ?_⟩
  have hev := evaluate_mono_le P hn _ _ _ ha
  simp only [paramlist, exprlist, bindLoop, hev]

/-- C30.  The first actual returns `v` and leaves `s1`.  Then the first loop stores `v`
under the first parameter `p` before it evaluates any later actual: it goes on with the
remaining parameters and actuals from the environment in which `p` holds `v`; so a second
actual that is a reference to `p` returns `v`, the new binding, and the second parameter
is bound to `v` too.  For a function with the parameters `a, b` called as `f(b, a)` while
`a = 1` and `b = 2`, the body starts in the environment where `a = 2` and `b = 2`; so
`let f(a, b) = a * 10 + b;` called as `f(b, a)` returns `22`, not `21`. -/
theorem C30_interleaved_binding (P : Platform) (e : YxlangNode) (s s1 : Env) (v : Dbl)
    (he : Returns P e s v s1) (p : String) (o : String → Option Dbl) :
    (∀ ps es, ∃ fuel, ∀ n, fuel ≤ n →
      bindLoop (evaluate P n) (paramlist (p :: ps)) (exprlist (e :: es)) o s =
        bindLoop (evaluate P n) (paramlist ps) (exprlist es)
          (Function.update o p (some (getVariable s p))) (setVariable s1 p v)) ∧
    (∀ q ps es, ∃ fuel, ∀ n, fuel ≤ n →
      bindLoop (evaluate P n) (paramlist (p :: q :: ps))
          (exprlist (e :: .CNVariable p :: es)) o s =
        bindLoop (evaluate P n) (paramlist ps) (exprlist es)
          (Function.update (Function.update o p (some (getVariable s p))) q
            (some (getVariable (setVariable s1 p v) q)))
          (setVariable (setVariable s1 p v) q v)) ∧
    (∀ t : Env,
      t.variablemap "a" = some (Dbl.ofInt 1) → t.variablemap "b" = some (Dbl.ofInt 2) →
      (∃ o', ∀ n, 1 ≤ n →
        bindLoop (evaluate P n) (paramlist ["a", "b"])
          (exprlist [.CNVariable "b", .CNVariable "a"]) (fun _ => none) t =
          .ok (o', setVariable (setVariable t "a" (Dbl.ofInt 2)) "b" (Dbl.ofInt 2))) ∧
      getVariable (setVariable (setVariable t "a" (Dbl.ofInt 2)) "b" (Dbl.ofInt 2)) "a"
        = Dbl.ofInt 2 ∧
      getVariable (setVariable (setVariable t "a" (Dbl.ofInt 2)) "b" (Dbl.ofInt 2)) "b"
        = Dbl.ofInt 2 ∧
      (getFunction t "f" = some pairFunction →
        Returns P swapCall t (Dbl.ofInt 22)
          (setVariable (setVariable (setVariable t "a" (Dbl.ofInt 2)) "b" (Dbl.ofInt 2))
            "a" (Dbl.ofInt 1)))) := by
  refine ⟨fun ps es => bindLoop_step he p ps es o, fun q ps es => ?_, fun t ha hb => ?_⟩
  · obtain ⟨f1, h1⟩ := bindLoop_step he p (q :: ps) (.CNVariable p :: es) o
    have hv := Returns.variable P p (setVariable s1 p v)
    rw [getVariable_setVariable_same] at hv
    obtain ⟨f2, h2⟩ := bindLoop_step hv q ps es
      (Function.update o p (some (getVariable s p)))
    exact ⟨max f1 f2, fun n hn => by
      rw [h1 n (le_trans (Nat.le_max_left f1 f2) hn),
        h2 n (le_trans (Nat.le_max_right f1 f2) hn)]⟩
  · have hga : getVariable t "a" = Dbl.ofInt 1 := getVariable_of_some ha
    have hgb : getVariable t "b" = Dbl.ofInt 2 := getVariable_of_some hb
    have hab : ("a" : String) ≠ "b" := by decide
    have hba : ("b" : String) ≠ "a" := by decide
    have hloop : ∀ n, 1 ≤ n →
        bindLoop (evaluate P n) (paramlist ["a", "b"])
          (exprlist [.CNVariable "b", .CNVariable "a"]) (fun _ => none) t =
          .ok (Function.update (Function.update (fun _ => none) "a" (some (Dbl.ofInt 1))) "b"
              (some (Dbl.ofInt 2)),
            setVariable (setVariable t "a" (Dbl.ofInt 2)) "b" (Dbl.ofInt 2)) := by
      intro n hn
      obtain ⟨k, rfl⟩ : ∃ k, n = k + 1 := ⟨n - 1, by omega⟩
      simp [paramlist, exprlist, bindLoop, evaluate, evaluateBody, existsVariable, getVariable,
        setVariable, ha, hb, Function.update_noteq hba]
    refine ⟨⟨_, hloop⟩, ?_, getVariable_setVariable_same _ _ _, fun hf => ?_⟩
    · rw [getVariable_setVariable_other _ _ hab, getVariable_setVariable_same]
    · have va := Returns.variable P "a"
        (setVariable (setVariable t "a" (Dbl.ofInt 2)) "b" (Dbl.ofInt 2))
      rw [getVariable_setVariable_other _ _ hab, getVariable_setVariable_same] at va
      have vb := Returns.variable P "b"
        (setVariable (setVariable t "a" (Dbl.ofInt 2)) "b" (Dbl.ofInt 2))
      rw [getVariable_setVariable_same] at vb
      have hm := (Returns.arith_of_pure va (Returns.constant P (Dbl.ofInt 10) _)).2.2.1
      have hsum := (Returns.arith_of_pure hm vb).1
      rw [(by decide : Dbl.add (Dbl.mul (Dbl.ofInt 2) (Dbl.ofInt 10)) (Dbl.ofInt 2)
        = Dbl.ofInt 22)] at hsum
      obtain ⟨k, hk⟩ := hsum
      refine (Returns.call_iff hf _ _ _ _).2 ⟨k + 1, _, _, _, hloop (k + 1) (by omega),
        evaluate_mono_le P (Nat.le_succ k) _ _ _ hk, ?_⟩
      show _ = restoreLoop (paramlist ["a", "b"]) _ _
      rw [restoreLoop_paramlist]
      simp [oldValAt, Function.update_noteq hab]

/-- C30 in the program `a = 1`, `b = 2`, `let f(a, b) = a * 10 + b;`: the call `f(b, a)`
returns `22`. -/
theorem C30_interleaved_binding_witness :
    Returns samplePlatform swapCall
      (setVariable (setVariable (setFunction initialEnv "f" pairFunction) "a" (Dbl.ofInt 1))
        "b" (Dbl.ofInt 2)) (Dbl.ofInt 22)
      (setVariable (setVariable (setVariable
        (setVariable (setVariable (setFunction initialEnv "f" pairFunction) "a" (Dbl.ofInt 1))
          "b" (Dbl.ofInt 2)) "a" (Dbl.ofInt 2)) "b" (Dbl.ofInt 2)) "a" (Dbl.ofInt 1)) :=
  ((C30_interleaved_binding samplePlatform (.CNConstant Dbl.zero) initialEnv initialEnv
    Dbl.zero (Returns.constant _ _ _) "p" (fun _ => none)).2.2
    (setVariable (setVariable (setFunction initialEnv "f" pairFunction) "a" (Dbl.ofInt 1))
      "b" (Dbl.ofInt 2))
    (by simp [setVariable]) (by simp [setVariable])).2.2.2
    (by simp [getFunction, setFunction, setVariable])


/-! ## Null children the grammar builds -/

/-- A call through the null pointer never returns. -/
theorem not_returns_null (P : Platform) (s : Env) (v : Dbl) (s' : Env) :
    ¬ Returns P YxlangNode.NULL s v s' := by
  rintro ⟨n, hn⟩
  cases n with
  | zero => simp [evaluate] at hn
  | succ n => simp [evaluate, evaluateBody] at hn

/-- C31 fails on the code.  The rule `sentencelist` gives the null pointer for the empty
list, and neither `CNCondition::evaluate` (for `left`) nor `CNCallUDF::evaluate` (for
`func->right`) tests it.  `if 1 then fi` is `CNCondition(1, NULL, NULL)`, and on every
platform and in every environment its evaluation ends in the call `left->evaluate()`
through the null pointer, for every depth bound from 2 on, and never returns; the same for
every condition whose value truncates to a nonzero `int`.  `let f(x) =` registers `f` with
the null pointer as body, and the program `let f(x) = ; f(1)` ends in the call
`func->right->evaluate()` through the null pointer, as does every call of a function that
is registered with a null body. -/
theorem C31_null_branch_dereferenced (P : Platform) (s : Env) :
    ifstmt (.CNConstant (Dbl.ofInt 1)) [] =
      .CNCondition (.CNConstant (Dbl.ofInt 1)) .NULL .NULL ∧
    (∀ fuel, 2 ≤ fuel →
      evaluate P fuel (ifstmt (.CNConstant (Dbl.ofInt 1)) []) s = .error .nullDeref) ∧
    (∀ (cond : YxlangNode) (c : Dbl) (s1 : Env) (k : Int), Returns P cond s c s1 →
      Dbl.toInt32 c = some k → k ≠ 0 → ∀ v s', ¬ Returns P (ifstmt cond []) s v s') ∧
    funcstmt "f" ["x"] [] = .CNCustomFunction "f" (paramlist ["x"]) .NULL ∧
    (∀ fuel, 3 ≤ fuel →
      evaluate P fuel
        (.CNStatement (funcstmt "f" ["x"] [])
          (.CNCallUDF "f" (exprlist [.CNConstant (Dbl.ofInt 1)]) .NULL)) s
        = .error .nullDeref) ∧
    (∀ (name : String) (func : CustomFunction) (args right : YxlangNode),
      getFunction s name = some func → func.right = .NULL →
      ∀ v s', ¬ Returns P (.CNCallUDF name args right) s v s') := by
  refine ⟨rfl, fun fuel hfuel => ?_, fun cond c s1 k hc hk hk0 v s' h => ?_, rfl,
    fun fuel hfuel => ?_, fun name func args right hf hr v s' h => ?_⟩
  · obtain ⟨n, rfl⟩ : ∃ n, fuel = n + 2 := ⟨fuel - 2, by omega⟩
    simp [ifstmt, sentencelist, evaluate, evaluateBody,
      (by decide : Dbl.toInt32 (Dbl.ofInt 1) = some 1)]
  · obtain ⟨c', t1, k', h1, h2, h3, _, _⟩ := Returns.condition_inv h
    obtain ⟨ec, et⟩ := Returns.unique h1 hc
    subst ec et
    rw [hk] at h2
    cases h2
    exact not_returns_null P _ _ _ (h3 hk0)
  · obtain ⟨n, rfl⟩ : ∃ n, fuel = n + 3 := ⟨fuel - 3, by omega⟩
    simp [funcstmt, sentencelist, paramlist, exprlist, evaluate, evaluateBody, getFunction,
      setFunction, bindLoop]
  · obtain ⟨fuel, oldVal, t1, t2, _, h2, _⟩ := (Returns.call_iff hf _ _ _ _).1 h
    rw [hr] at h2
    exact not_returns_null P _ _ _ ⟨fuel, h2⟩

/-! ## Trees without calls -/

/-- The two operands are all that `evalOperands` asks of the callee. -/
theorem evalOperands_congr {ev ev' : YxlangNode → Env → Result} {l r : YxlangNode}
    (hl : ∀ t, ev l t = ev' l t) (hr : ∀ t, ev r t = ev' r t) (flag : Bool) (s : Env) :
    evalOperands ev flag l r s = evalOperands ev' flag l r s := by
  simp only [evalOperands, hl, hr]

/-- Operands that do not exhaust the bound: neither does the pair. -/
theorem evalOperands_fault {ev : YxlangNode → Env → Result} {l r : YxlangNode}
    (hl : ∀ t, ev l t ≠ .error .outOfFuel) (hr : ∀ t, ev r t ≠ .error .outOfFuel)
    (flag : Bool) (s : Env) :
    evalOperands ev flag l r s ≠ .error .outOfFuel := by
  unfold evalOperands
  cases flag
  · simp only [Bool.false_eq_true, if_false]
    cases h1 : ev l s with
    | error f => intro h; cases h; exact hl s h1
    | ok p =>
      obtain ⟨a, s1⟩ := p
      cases h2 : ev r s1 with
      | error f => simp only [h2]; intro h; cases h; exact hr s1 h2
      | ok q => obtain ⟨b, s2⟩ := q; simp [h2]
  · simp only [if_true]
    cases h1 : ev r s with
    | error f => intro h; cases h; exact hr s h1
    | ok p =>
      obtain ⟨a, s1⟩ := p
      cases h2 : ev l s1 with
      | error f => simp only [h2]; intro h; cases h; exact hl s1 h2
      | ok q => obtain ⟨b, s2⟩ := q; simp [h2]

/-- What the induction over a tree without calls uses of a child: with any two bounds from
the height of the child on, the child has the same outcome, which is no exhaustion. -/
theorem callFree_child {P : Platform} {c : YxlangNode}
    (ih : ∀ (n : ℕ) (s : Env), height c ≤ n →
      evaluate P n c s = evaluate P (height c) c s ∧
        evaluate P (height c) c s ≠ .error .outOfFuel)
    {h m : Nat} (hh : height c ≤ h) (hm : h ≤ m) :
    (∀ t, evaluate P m c t = evaluate P h c t) ∧
    (∀ t, evaluate P h c t ≠ .error .outOfFuel) := by
  refine ⟨fun t => ?_, fun t => ?_⟩
  · rw [(ih m t (le_trans hh hm)).1, (ih h t hh).1]
  · rw [(ih h t hh).1]
    exact (ih h t hh).2

/-- A node with two operands in an arithmetic expression. -/
theorem callFree_arith {P : Platform} {l r : YxlangNode} {h m : Nat}
    (hl : (∀ t, evaluate P m l t = evaluate P h l t) ∧
      (∀ t, evaluate P h l t ≠ .error .outOfFuel))
    (hr : (∀ t, evaluate P m r t = evaluate P h r t) ∧
      (∀ t, evaluate P h r t ≠ .error .outOfFuel))
    (flag : Bool) (s : Env) (f : Dbl → Dbl → Dbl) :
    (match evalOperands (evaluate P m) flag l r s with
      | .error e => (.error e : Result)
      | .ok (a, b, s1) => .ok (f a b, s1)) =
    (match evalOperands (evaluate P h) flag l r s with
      | .error e => (.error e : Result)
      | .ok (a, b, s1) => .ok (f a b, s1)) ∧
    (match evalOperands (evaluate P h) flag l r s with
      | .error e => (.error e : Result)
      | .ok (a, b, s1) => .ok (f a b, s1)) ≠ .error .outOfFuel := by
  rw [evalOperands_congr hl.1 hr.1]
  refine ⟨rfl, ?_⟩
  have := evalOperands_fault hl.2 hr.2 flag s
  cases h1 : evalOperands (evaluate P h) flag l r s with
  | error e => intro h2; rw [h1] at this; cases h2; exact this rfl
  | ok p => obtain ⟨a, b, s1⟩ := p; simp

/-- A tree without calls has one outcome for every bound from its height on, and the
outcome is not the exhaustion of the bound. -/
theorem evaluate_callFree (P : Platform) : ∀ node : YxlangNode, callFree node = true →
    ∀ (n : ℕ) (s : Env), height node ≤ n →
      evaluate P n node s = evaluate P (height node) node s ∧
        evaluate P (height node) node s ≠ .error .outOfFuel := by
  intro node
  induction node with
  | NULL =>
    intro _ n s hn
    obtain ⟨m, rfl⟩ : ∃ m, n = m + 1 := ⟨n - 1, by simp [height] at hn; omega⟩
    simp [height, evaluate, evaluateBody]
  | CNConstant value =>
    intro _ n s hn
    obtain ⟨m, rfl⟩ : ∃ m, n = m + 1 := ⟨n - 1, by simp [height] at hn; omega⟩
    simp [height, evaluate, evaluateBody]
  | CNVariable name =>
    intro _ n s hn
    obtain ⟨m, rfl⟩ : ∃ m, n = m + 1 := ⟨n - 1, by simp [height] at hn; omega⟩
    simp [height, evaluate, evaluateBody]
  | CNParamlist name l r _ _ =>
    intro _ n s hn
    obtain ⟨m, rfl⟩ : ∃ m, n = m + 1 := ⟨n - 1, by simp [height] at hn; omega⟩
    simp [height, evaluate, evaluateBody]
  | CNCustomFunction name l r _ _ =>
    intro _ n s hn
    obtain ⟨m, rfl⟩ : ∃ m, n = m + 1 := ⟨n - 1, by simp [height] at hn; omega⟩
    simp [height, evaluate, evaluateBody]
  | CNCallUDF name l r _ _ => intro h; simp [callFree] at h
  | CNNegate c ih =>
    intro hc n s hn
    simp only [callFree] at hc
    simp only [height] at hn ⊢
    obtain ⟨m, rfl⟩ : ∃ m, n = m + 1 := ⟨n - 1, by omega⟩
    obtain ⟨h1, h2⟩ := callFree_child (ih hc) (le_refl _) (by omega : height c ≤ m)
    simp only [evaluate, evaluateBody, h1]
    refine ⟨trivial, ?_⟩
    cases h3 : evaluate P (height c) c s with
    | error e => intro h4; cases h4; exact h2 s h3
    | ok p => obtain ⟨a, s1⟩ := p; simp
  | CNAdd l r ihl ihr =>
    intro hc n s hn
    simp only [callFree, Bool.and_eq_true] at hc
    simp only [height] at hn ⊢
    obtain ⟨m, rfl⟩ : ∃ m, n = m + 1 := ⟨n - 1, by omega⟩
    simp only [evaluate, evaluateBody]
    exact callFree_arith
      (callFree_child (ihl hc.1) (le_max_left _ _) (by omega))
      (callFree_child (ihr hc.2) (le_max_right _ _) (by omega)) _ s Dbl.add
  | CNSubtract l r ihl ihr =>
    intro hc n s hn
    simp only [callFree, Bool.and_eq_true] at hc
    simp only [height] at hn ⊢
    obtain ⟨m, rfl⟩ : ∃ m, n = m + 1 := ⟨n - 1, by omega⟩
    simp only [evaluate, evaluateBody]
    exact callFree_arith
      (callFree_child (ihl hc.1) (le_max_left _ _) (by omega))
      (callFree_child (ihr hc.2) (le_max_right _ _) (by omega)) _ s Dbl.sub
  | CNMultiply l r ihl ihr =>
    intro hc n s hn
    simp only [callFree, Bool.and_eq_true] at hc
    simp only [height] at hn ⊢
    obtain ⟨m, rfl⟩ : ∃ m, n = m + 1 := ⟨n - 1, by omega⟩
    simp only [evaluate, evaluateBody]
    exact callFree_arith
      (callFree_child (ihl hc.1) (le_max_left _ _) (by omega))
      (callFree_child (ihr hc.2) (le_max_right _ _) (by omega)) _ s Dbl.mul
  | CNDivide l r ihl ihr =>
    intro hc n s hn
    simp only [callFree, Bool.and_eq_true] at hc
    simp only [height] at hn ⊢
    obtain ⟨m, rfl⟩ : ∃ m, n = m + 1 := ⟨n - 1, by omega⟩
    simp only [evaluate, evaluateBody]
    exact callFree_arith
      (callFree_child (ihl hc.1) (le_max_left _ _) (by omega))
      (callFree_child (ihr hc.2) (le_max_right _ _) (by omega)) _ s Dbl.div
  | CNModulo l r ihl ihr =>
    intro hc n s hn
    simp only [callFree, Bool.and_eq_true] at hc
    simp only [height] at hn ⊢
    obtain ⟨m, rfl⟩ : ∃ m, n = m + 1 := ⟨n - 1, by omega⟩
    simp only [evaluate, evaluateBody]
    exact callFree_arith
      (callFree_child (ihl hc.1) (le_max_left _ _) (by omega))
      (callFree_child (ihr hc.2) (le_max_right _ _) (by omega)) _ s Dbl.fmod
  | CNPower l r ihl ihr =>
    intro hc n s hn
    simp only [callFree, Bool.and_eq_true] at hc
    simp only [height] at hn ⊢
    obtain ⟨m, rfl⟩ : ∃ m, n = m + 1 := ⟨n - 1, by omega⟩
    simp only [evaluate, evaluateBody]
    exact callFree_arith
      (callFree_child (ihl hc.1) (le_max_left _ _) (by omega))
      (callFree_child (ihr hc.2) (le_max_right _ _) (by omega)) _ s P.pow
  | CNCompare fn l r ihl ihr =>
    intro hc n s hn
    simp only [callFree, Bool.and_eq_true] at hc
    simp only [height] at hn ⊢
    obtain ⟨m, rfl⟩ : ∃ m, n = m + 1 := ⟨n - 1, by omega⟩
    have hl := callFree_child (ihl hc.1) (le_max_left _ (height r)) (by omega : _ ≤ m)
    have hr := callFree_child (ihr hc.2) (le_max_right (height l) _) (by omega : _ ≤ m)
    simp only [evaluate, evaluateBody, evalBoth, evalOperands_congr hl.1 hr.1]
    refine ⟨trivial, ?_⟩
    have := evalOperands_fault hl.2 hr.2 false s
    cases h1 : evalOperands (evaluate P (max (height l) (height r))) false l r s with
    | error e => intro h2; rw [h1] at this; cases h2; exact this rfl
    | ok p => obtain ⟨a, b, s1⟩ := p; simp
  | CNBinaryFunction fn l r ihl ihr =>
    intro hc n s hn
    simp only [callFree, Bool.and_eq_true] at hc
    simp only [height] at hn ⊢
    obtain ⟨m, rfl⟩ : ∃ m, n = m + 1 := ⟨n - 1, by omega⟩
    have hl := callFree_child (ihl hc.1) (le_max_left _ (height r)) (by omega : _ ≤ m)
    have hr := callFree_child (ihr hc.2) (le_max_right (height l) _) (by omega : _ ≤ m)
    simp only [evaluate, evaluateBody, evalBoth, evalOperands_congr hl.1 hr.1]
    refine ⟨trivial, ?_⟩
    have := evalOperands_fault hl.2 hr.2 false s
    cases h1 : evalOperands (evaluate P (max (height l) (height r))) false l r s with
    | error e => intro h2; rw [h1] at this; cases h2; exact this rfl
    | ok p =>
      obtain ⟨a, b, s1⟩ := p
      by_cases hf : fn = 1 <;> simp [hf]
  | CNUnaryFunction fn l r ihl _ =>
    intro hc n s hn
    simp only [callFree, Bool.and_eq_true] at hc
    simp only [height] at hn ⊢
    obtain ⟨m, rfl⟩ : ∃ m, n = m + 1 := ⟨n - 1, by omega⟩
    have hl := callFree_child (ihl hc.1) (le_max_left _ (height r)) (by omega : _ ≤ m)
    simp only [evaluate, evaluateBody, hl.1]
    refine ⟨trivial, ?_⟩
    cases h1 : evaluate P (max (height l) (height r)) l s with
    | error e => intro h2; cases h2; exact hl.2 s h1
    | ok p =>
      obtain ⟨a, s1⟩ := p
      simp only
      split_ifs <;> simp
  | CNExprlist l r ihl _ =>
    intro hc n s hn
    simp only [callFree, Bool.and_eq_true] at hc
    simp only [height] at hn ⊢
    obtain ⟨m, rfl⟩ : ∃ m, n = m + 1 := ⟨n - 1, by omega⟩
    have hl := callFree_child (ihl hc.1) (le_max_left _ (height r)) (by omega : _ ≤ m)
    simp only [evaluate, evaluateBody, hl.1]
    exact ⟨trivial, hl.2 s⟩
  | CNAssignment name c ih =>
    intro hc n s hn
    simp only [callFree] at hc
    simp only [height] at hn ⊢
    obtain ⟨m, rfl⟩ : ∃ m, n = m + 1 := ⟨n - 1, by omega⟩
    obtain ⟨h1, h2⟩ := callFree_child (ih hc) (le_refl _) (by omega : height c ≤ m)
    simp only [evaluate, evaluateBody, h1]
    refine ⟨trivial, ?_⟩
    cases h3 : evaluate P (height c) c s with
    | error e => intro h4; cases h4; exact h2 s h3
    | ok p => obtain ⟨a, s1⟩ := p; simp
  | CNStatement l r ihl ihr =>
    intro hc n s hn
    simp only [callFree, Bool.and_eq_true] at hc
    simp only [height] at hn ⊢
    obtain ⟨m, rfl⟩ : ∃ m, n = m + 1 := ⟨n - 1, by omega⟩
    have hl := callFree_child (ihl hc.1) (le_max_left _ (height r)) (by omega : _ ≤ m)
    have hr := callFree_child (ihr hc.2) (le_max_right (height l) _) (by omega : _ ≤ m)
    simp only [evaluate, evaluateBody, hl.1, hr.1]
    refine ⟨trivial, ?_⟩
    cases h1 : evaluate P (max (height l) (height r)) l s with
    | error e => intro h2; cases h2; exact hl.2 s h1
    | ok p => obtain ⟨a, s1⟩ := p; exact hr.2 s1
  | CNCondition c l r ihc ihl ihr =>
    intro hc n s hn
    simp only [callFree, Bool.and_eq_true] at hc
    simp only [height] at hn ⊢
    obtain ⟨m, rfl⟩ : ∃ m, n = m + 1 := ⟨n - 1, by omega⟩
    have hcd := callFree_child (ihc hc.1.1)
      (le_max_left _ (max (height l) (height r))) (by omega : _ ≤ m)
    have hl := callFree_child (ihl hc.1.2)
      (le_trans (le_max_left _ (height r)) (le_max_right (height c) _)) (by omega : _ ≤ m)
    have hr := callFree_child (ihr hc.2)
      (le_trans (le_max_right (height l) _) (le_max_right (height c) _)) (by omega : _ ≤ m)
    simp only [evaluate, evaluateBody, hcd.1, hl.1, hr.1]
    refine ⟨trivial, ?_⟩
    cases h1 : evaluate P (max (height c) (max (height l) (height r))) c s with
    | error e => intro h2; cases h2; exact hcd.2 s h1
    | ok p =>
      obtain ⟨a, s1⟩ := p
      simp only
      cases h2 : Dbl.toInt32 a with
      | none => simp
      | some k =>
        simp only
        split_ifs
        · exact hl.2 s1
        · simp
        · exact hr.2 s1

/-- A function whose body calls the function again never returns: every depth bound is
used up. -/
theorem loop_exhausts (P : Platform) : ∀ (fuel : ℕ) (s : Env) (e : YxlangNode),
    getFunction s "f" = some loopFunction →
    (e = .CNConstant (Dbl.ofInt 1) ∨ e = .CNVariable "x") →
    evaluate P fuel (.CNCallUDF "f" (exprlist [e]) .NULL) s = .error .outOfFuel := by
  intro fuel
  induction fuel with
  | zero => intro s e _ _; rfl
  | succ k ih =>
    intro s e hf he
    cases k with
    | zero =>
      simp [evaluate, evaluateBody, hf, loopFunction, paramlist, exprlist, bindLoop]
    | succ j =>
      have hev : ∃ val, evaluate P (j + 1) e s = .ok (val, s) := by
        rcases he with rfl | rfl
        · exact ⟨_, rfl⟩
        · exact ⟨_, rfl⟩
      obtain ⟨val, hval⟩ := hev
      have hf1 : getFunction (setVariable s "x" val) "f" = some loopFunction := hf
      have := ih (setVariable s "x" val) (.CNVariable "x") hf1 (Or.inr rfl)
      rw [evaluate, evaluateBody, hf]
      simp only [loopFunction, paramlist, exprlist, bindLoop, hval]
      simp only [loopFunction, exprlist] at this
      rw [this]

/-- C32.  On every platform: for every tree that holds no `CNCallUDF` object and every
environment the evaluation ends within the height of the tree, that is, with every bound
on the depth from the height on the outcome is the same and it is not the exhaustion of
the bound; the evaluation then returns a value, or it stopped at a call through a null
child or at a conversion to `int` that is not defined.  With a call the bound can be used
up whatever it is: where `f` is registered by `let f(x) = f(x);` the call `f(1)` exhausts
every bound and never returns. -/
theorem C32_termination (P : Platform) :
    (∀ node s, callFree node = true →
      ∃ r, r ≠ .error .outOfFuel ∧ ∀ n, height node ≤ n → evaluate P n node s = r) ∧
    (∀ node s, callFree node = true →
      (∃ v s', Returns P node s v s') ∨
      (∀ n, height node ≤ n → evaluate P n node s = .error .nullDeref) ∨
      (∀ n, height node ≤ n → evaluate P n node s = .error .badConversion)) ∧
    (∀ s, getFunction s "f" = some loopFunction →
      (∀ fuel, evaluate P fuel loopCall s = .error .outOfFuel) ∧
      ∀ v s', ¬ Returns P loopCall s v s') ∧
    callFree loopCall = false := by
  have key : ∀ node s, callFree node = true →
      ∃ r, r ≠ .error .outOfFuel ∧ ∀ n, height node ≤ n → evaluate P n node s = r :=
    fun node s h => ⟨evaluate P (height node) node s,
      (evaluate_callFree P node h (height node) s (le_refl _)).2,
      fun n hn => (evaluate_callFree P node h n s hn).1⟩
  refine ⟨key, fun node s h => ?_, fun s hf => ?_, rfl⟩
  · obtain ⟨r, hr, hn⟩ := key node s h
    cases r with
    | ok p => exact Or.inl ⟨p.1, p.2, height node, hn _ (le_refl _)⟩
    | error f =>
      cases f with
      | nullDeref => exact Or.inr (Or.inl hn)
      | badConversion => exact Or.inr (Or.inr hn)
      | outOfFuel => exact absurd rfl hr
  · have hloop : ∀ fuel, evaluate P fuel loopCall s = .error .outOfFuel :=
      fun fuel => loop_exhausts P fuel s _ hf (Or.inl rfl)
    refine ⟨hloop, ?_⟩
    rintro v s' ⟨n, hn⟩
    rw [hloop n] at hn
    cases hn

/-! ## C33, C34: what the second loop stores under the first parameter -/

/-- C33 fails as stated: when the name of the first parameter comes again further down the
list, the second round of the first loop saves the first actual under it.  With
`let f(a, a) = a;` and `a` absent from the variable table, after the call `f(5, 6)`
(which returns `6`) `a` is in the table with the value `5`, not `0.0`. -/
theorem C33_counterexample :
    existsVariable (setFunction initialEnv "f" dupFunction) "a" = false ∧
    Returns samplePlatform
      (.CNCallUDF "f" (exprlist [.CNConstant (Dbl.ofInt 5), .CNConstant (Dbl.ofInt 6)]) .NULL)
      (setFunction initialEnv "f" dupFunction) (Dbl.ofInt 6)
      (setVariable (setVariable (setVariable (setFunction initialEnv "f" dupFunction)
        "a" (Dbl.ofInt 5)) "a" (Dbl.ofInt 6)) "a" (Dbl.ofInt 5)) ∧
    existsVariable (setVariable (setVariable (setVariable
      (setFunction initialEnv "f" dupFunction)
        "a" (Dbl.ofInt 5)) "a" (Dbl.ofInt 6)) "a" (Dbl.ofInt 5)) "a" = true ∧
    getVariable (setVariable (setVariable (setVariable
      (setFunction initialEnv "f" dupFunction)
        "a" (Dbl.ofInt 5)) "a" (Dbl.ofInt 6)) "a" (Dbl.ofInt 5)) "a" = Dbl.ofInt 5 ∧
    Dbl.ofInt 5 ≠ Dbl.zero :=
  ⟨rfl, ⟨3, rfl⟩, rfl, rfl, by decide⟩

/-- C33 as amended.  A function is registered with the parameter list the grammar builds
for the names `p, ps...`, and a call of it returns.  Then after the call `p` is in the
variable table, whatever the table held before; and when `p` is not among the later names
`ps` and was absent from the table before the call, after the call the table holds `0.0`
under `p`: `existsVariable(p)` is true and `getVariable(p)` is `0.0`, as it was before
the call, so the value is restored and the key set is not. -/
theorem C33_first_parameter_materialised (P : Platform) (name : String)
    (func : CustomFunction) (p : String) (ps : List String) (es : List YxlangNode)
    (right : YxlangNode) (s s3 : Env) (v : Dbl)
    (hf : getFunction s name = some func) (hp : func.left = paramlist (p :: ps))
    (hcall : Returns P (.CNCallUDF name (exprlist es) right) s v s3) :
    existsVariable s3 p = true ∧
    (p ∉ ps → existsVariable s p = false →
      s3.variablemap p = some Dbl.zero ∧ getVariable s3 p = Dbl.zero ∧
      getVariable s3 p = getVariable s p ∧ existsVariable s3 p ≠ existsVariable s p) := by
  obtain ⟨fuel, oldVal, s1, s2, hb, _, rfl⟩ := (Returns.call_iff hf _ _ _ _).1 hcall
  rw [hp] at hb
  have hrest : restoreLoop func.left oldVal s2 = setVariable s2 p (oldValAt oldVal p) := by
    rw [hp, restoreLoop_paramlist]
  have hex : existsVariable (restoreLoop func.left oldVal s2) p = true := by
    rw [hrest]
    simp [existsVariable, setVariable]
  refine ⟨hex, fun hnd habs => ?_⟩
  have hold := bindLoop_oldVal_head _ hnd hb
  have hnone : s.variablemap p = none := by
    simpa [existsVariable] using habs
  have h0 : getVariable s p = Dbl.zero := by simp [getVariable, hnone]
  rw [h0] at hold
  have hmap : (restoreLoop func.left oldVal s2).variablemap p = some Dbl.zero := by
    rw [hrest, hold]
    simp [setVariable]
  refine ⟨hmap, getVariable_of_some hmap, ?_, ?_⟩
  · rw [getVariable_of_some hmap, h0]
  · rw [hex, habs]
    decide

/-- C33 as amended, at `let f(x) = 2;` called as `f(1)` in a program that has no `x`:
afterwards `x` is in the table with `0.0`. -/
theorem C33_first_parameter_materialised_witness :
    existsVariable (setFunction initialEnv "f" twoFunction) "x" = false ∧
    existsVariable (setVariable (setVariable (setFunction initialEnv "f" twoFunction)
      "x" (Dbl.ofInt 1)) "x" Dbl.zero) "x" = true ∧
    getVariable (setVariable (setVariable (setFunction initialEnv "f" twoFunction)
      "x" (Dbl.ofInt 1)) "x" Dbl.zero) "x" = Dbl.zero :=
  have h := C33_first_parameter_materialised samplePlatform "f" twoFunction "x" []
    [.CNConstant (Dbl.ofInt 1)] .NULL (setFunction initialEnv "f" twoFunction)
    (setVariable (setVariable (setFunction initialEnv "f" twoFunction)
      "x" (Dbl.ofInt 1)) "x" Dbl.zero) (Dbl.ofInt 2)
    (by simp [getFunction, setFunction]) rfl ⟨3, rfl⟩
  ⟨rfl, h.1, (h.2 (by simp) rfl).2.1⟩

/-- C34.  A function is registered with the parameter list the grammar builds for `a, a`
(one name twice) and is called with two actuals.  The first actual returns `v1`; the
second actual, evaluated after `v1` has been stored under `a`, returns `v2`; the body,
evaluated after `v2` has been stored under `a`, returns `v`.  Then the call returns `v`,
and afterwards `a` holds `v1`, the value of the first actual: every return of the call
leaves `a = v1`, which is not the value `a` had before the call when the two differ. -/
theorem C34_repeated_parameter (P : Platform) (name : String) (func : CustomFunction)
    (a : String) (e1 e2 right : YxlangNode) (s s1 s2 t2 : Env) (v1 v2 v : Dbl)
    (hf : getFunction s name = some func) (hp : func.left = paramlist [a, a])
    (he1 : Returns P e1 s v1 s1) (he2 : Returns P e2 (setVariable s1 a v1) v2 s2)
    (hbody : Returns P func.right (setVariable s2 a v2) v t2) :
    Returns P (.CNCallUDF name (exprlist [e1, e2]) right) s v (setVariable t2 a v1) ∧
    (∀ v' s', Returns P (.CNCallUDF name (exprlist [e1, e2]) right) s v' s' →
      v' = v ∧ getVariable s' a = v1 ∧
        (v1 ≠ getVariable s a → getVariable s' a ≠ getVariable s a)) := by
  have hcall : Returns P (.CNCallUDF name (exprlist [e1, e2]) right) s v
      (setVariable t2 a v1) := by
    obtain ⟨f1, h1⟩ := bindLoop_step he1 a [a] [e2] (fun _ => none)
    obtain ⟨f2, h2⟩ := bindLoop_step he2 a [] []
      (Function.update (fun _ => none) a (some (getVariable s a)))
    obtain ⟨f3, h3⟩ := hbody
    refine (Returns.call_iff hf _ _ _ _).2 ⟨max (max f1 f2) f3,
      Function.update (Function.update (fun _ => none) a (some (getVariable s a))) a
        (some (getVariable (setVariable s1 a v1) a)), setVariable s2 a v2, t2, ?_,
      evaluate_mono_le P (Nat.le_max_right _ _) _ _ _ h3, ?_⟩
    · rw [hp, h1 _ (le_trans (Nat.le_max_left f1 f2) (Nat.le_max_left _ f3)),
        h2 _ (le_trans (Nat.le_max_right f1 f2) (Nat.le_max_left _ f3))]
      simp only [paramlist, exprlist, bindLoop]
    · rw [hp, restoreLoop_paramlist]
      simp [oldValAt, getVariable_setVariable_same]
  refine ⟨hcall, fun v' s' h => ?_⟩
  obtain ⟨ev, es⟩ := Returns.unique h hcall
  subst ev es
  refine ⟨rfl, getVariable_setVariable_same _ _ _, fun hne => ?_⟩
  rw [getVariable_setVariable_same]
  exact hne

/-- C34 at `let f(a, a) = a;` called as `f(5, 6)` while `a` holds `1`: the call returns `6`
and afterwards `a` holds `5`. -/
theorem C34_repeated_parameter_witness :
    Returns samplePlatform
      (.CNCallUDF "f" (exprlist [.CNConstant (Dbl.ofInt 5), .CNConstant (Dbl.ofInt 6)]) .NULL)
      (setVariable (setFunction initialEnv "f" dupFunction) "a" (Dbl.ofInt 1)) (Dbl.ofInt 6)
      (setVariable (setVariable (setVariable
        (setVariable (setFunction initialEnv "f" dupFunction) "a" (Dbl.ofInt 1))
        "a" (Dbl.ofInt 5)) "a" (Dbl.ofInt 6)) "a" (Dbl.ofInt 5)) :=
  (C34_repeated_parameter samplePlatform "f" dupFunction "a" (.CNConstant (Dbl.ofInt 5))
    (.CNConstant (Dbl.ofInt 6)) .NULL
    (setVariable (setFunction initialEnv "f" dupFunction) "a" (Dbl.ofInt 1)) _ _ _
    (Dbl.ofInt 5) (Dbl.ofInt 6) (Dbl.ofInt 6)
    (by simp [getFunction, setFunction, setVariable]) rfl
    (Returns.constant _ _ _) (Returns.constant _ _ _) ⟨1, rfl⟩).1

/-! ## C35: one condition, one branch -/

/-- C35.  On every platform, for every condition, branches and environment: the Condition
node returns `v` and leaves `s2` exactly when the condition returns some `c` and leaves
some `s1`, `c` converts to an `int` `k`, and either `k` is not `0` and the then-branch
returns `v` from `s1` leaving `s2`, or `k` is `0`, there is an else-branch and it returns
`v` from `s1` leaving `s2`, or `k` is `0`, there is no else-branch, `v` is `0.0` and `s2`
is `s1`.  So the environment is that of the condition followed by the selected branch
only: with a branch that assigns `y` and displays a number left unselected, the variable
table and the output are as before. -/
theorem C35_condition_one_branch (P : Platform) (cond left right : YxlangNode) (s : Env) :
    (∀ v s2, Returns P (.CNCondition cond left right) s v s2 ↔
      ∃ c s1 k, Returns P cond s c s1 ∧ Dbl.toInt32 c = some k ∧
        ((k ≠ 0 ∧ Returns P left s1 v s2) ∨
         (k = 0 ∧ right ≠ YxlangNode.NULL ∧ Returns P right s1 v s2) ∨
         (k = 0 ∧ right = YxlangNode.NULL ∧ v = Dbl.zero ∧ s2 = s1))) ∧
    (∀ c : Dbl, Returns P
      (.CNCondition (.CNConstant (Dbl.ofInt 1)) (.CNConstant c)
        (.CNAssignment "y" (.CNUnaryFunction 4 (.CNConstant c) .NULL))) s c s) ∧
    (∀ c : Dbl, Returns P
      (.CNCondition (.CNConstant (Dbl.ofInt 0))
        (.CNAssignment "y" (.CNUnaryFunction 4 (.CNConstant c) .NULL)) (.CNConstant c)) s c s) := by
  refine ⟨fun v s2 => ⟨fun h => ?_, ?_⟩, fun c => ?_, fun c => ?_⟩
  · obtain ⟨c, s1, k, h1, h2, h3, h4, h5⟩ := Returns.condition_inv h
    refine ⟨c, s1, k, h1, h2, ?_⟩
    by_cases hk : k = 0
    · by_cases hr : right = YxlangNode.NULL
      · exact Or.inr (Or.inr ⟨hk, hr, h4 hk hr⟩)
      · exact Or.inr (Or.inl ⟨hk, hr, h5 hk hr⟩)
    · exact Or.inl ⟨hk, h3 hk⟩
  · rintro ⟨c, s1, k, h1, h2, (⟨hk, hl⟩ | ⟨hk, _, hr⟩ | ⟨hk, hr, rfl, rfl⟩)⟩
    · exact Returns.condition_then h1 h2 hk hl right
    · subst hk
      exact Returns.condition_else h1 h2 hr left
    · subst hk hr
      exact Returns.condition_none h1 h2 left
  · exact Returns.condition_then (Returns.constant P _ s)
      (by decide : Dbl.toInt32 (Dbl.ofInt 1) = some 1) (by decide) (Returns.constant P c s) _
  · exact Returns.condition_else (Returns.constant P _ s)
      (by decide : Dbl.toInt32 (Dbl.ofInt 0) = some 0) (Returns.constant P c s) _

/-! ## C36: the statement lists of the grammar -/

/-- A list of statements that holds no null pointer and is not empty gives a node. -/
theorem sentencelist_ne_null : ∀ l : List YxlangNode, l ≠ [] →
    (∀ x ∈ l, x ≠ YxlangNode.NULL) → sentencelist l ≠ YxlangNode.NULL := by
  intro l hl hx
  cases l with
  | nil => exact absurd rfl hl
  | cons h rest =>
    have hh : h ≠ YxlangNode.NULL := hx h (by simp)
    simp only [sentencelist]
    split
    · exact hh
    · simp

/-- The list of two or more statements is the Statement node of the first statement and
the list of the others. -/
theorem sentencelist_cons_cons (h second : YxlangNode) (rest : List YxlangNode)
    (hx : ∀ x ∈ second :: rest, x ≠ YxlangNode.NULL) :
    sentencelist (h :: second :: rest) = .CNStatement h (sentencelist (second :: rest)) := by
  have := sentencelist_ne_null (second :: rest) (by simp) hx
  rw [sentencelist, if_neg this]

/-- The two list rules run the same actions. -/
theorem stmtlist_eq_sentencelist : ∀ l : List YxlangNode, stmtlist l = sentencelist l := by
  intro l
  induction l with
  | nil => rfl
  | cons h rest ih => simp only [stmtlist, sentencelist, ih]

/-- A statement list returns exactly when its statements run in order. -/
theorem sentencelist_runs (P : Platform) : ∀ (l : List YxlangNode),
    (∀ x ∈ l, x ≠ YxlangNode.NULL) → ∀ (s : Env) (v : Dbl) (s' : Env),
      RunsInOrder P l s v s' → Returns P (sentencelist l) s v s' := by
  intro l hx s v s' h
  induction h with
  | last h => simpa [sentencelist] using h
  | @next stmt second rest s s1 s2 w v h _ ih =>
    have hx' : ∀ x ∈ second :: rest, x ≠ YxlangNode.NULL :=
      fun x hm => hx x (List.mem_cons_of_mem _ hm)
    rw [sentencelist_cons_cons _ _ _ hx']
    exact Returns.statement h (ih hx')

/-- When a statement list returns, its statements have run in order. -/
theorem runs_of_sentencelist (P : Platform) : ∀ (l : List YxlangNode), l ≠ [] →
    (∀ x ∈ l, x ≠ YxlangNode.NULL) → ∀ (s : Env) (v : Dbl) (s' : Env),
      Returns P (sentencelist l) s v s' → RunsInOrder P l s v s' := by
  intro l
  induction l with
  | nil => intro hl; exact absurd rfl hl
  | cons h rest ih =>
    intro _ hx s v s' hr
    cases rest with
    | nil => exact RunsInOrder.last (by simpa [sentencelist] using hr)
    | cons second rest =>
      have hx' : ∀ x ∈ second :: rest, x ≠ YxlangNode.NULL :=
        fun x hm => hx x (List.mem_cons_of_mem _ hm)
      rw [sentencelist_cons_cons _ _ _ hx'] at hr
      obtain ⟨w, s1, h1, h2⟩ := Returns.statement_inv hr
      exact RunsInOrder.next h1 (ih (by simp) hx' s1 v s' h2)

/-- C36.  The action of the list rules, for a head `h` and the list `rest` after it:
it gives `h` itself when the node of `rest` is the null pointer, which is the case when
`rest` is empty, and `CNStatement(h, node of rest)` otherwise, so the Statement nodes it
creates have a tail that is not null (and a head that is not null, a statement being an
object).  Hence for statements `s1, ..., sn`, `n >= 1`, none the null pointer: the list is
`s1` for `n = 1` and `CNStatement(s1, list of s2..sn)` for `n >= 2`, it is never null, the
rule `stmtlist` gives the same tree as `sentencelist`, and on every platform the tree
returns `v` leaving `s'` exactly when the statements run one after the other in order,
the last one returning `v` and leaving `s'`. -/
theorem C36_statement_lists (P : Platform) (h : YxlangNode) (rest : List YxlangNode) :
    sentencelist [h] = h ∧
    (sentencelist rest = .NULL → sentencelist (h :: rest) = h) ∧
    (sentencelist rest ≠ .NULL →
      sentencelist (h :: rest) = .CNStatement h (sentencelist rest)) ∧
    sentencelist [] = .NULL ∧
    ((∀ x ∈ h :: rest, x ≠ YxlangNode.NULL) →
      sentencelist (h :: rest) ≠ .NULL ∧
      (rest ≠ [] → sentencelist rest ≠ .NULL ∧
        sentencelist (h :: rest) = .CNStatement h (sentencelist rest)) ∧
      stmtlist (h :: rest) = sentencelist (h :: rest) ∧
      (∀ s v s', Returns P (sentencelist (h :: rest)) s v s' ↔
        RunsInOrder P (h :: rest) s v s') ∧
      (∀ s v s', Returns P (stmtlist (h :: rest)) s v s' ↔
        RunsInOrder P (h :: rest) s v s')) := by
  refine ⟨by simp [sentencelist], fun hn => by rw [sentencelist, if_pos hn],
    fun hn => by rw [sentencelist, if_neg hn], rfl, fun hx => ?_⟩
  have hx' : ∀ x ∈ rest, x ≠ YxlangNode.NULL := fun x hm => hx x (List.mem_cons_of_mem _ hm)
  have hiff : ∀ s v s', Returns P (sentencelist (h :: rest)) s v s' ↔
      RunsInOrder P (h :: rest) s v s' :=
    fun s v s' => ⟨runs_of_sentencelist P _ (by simp) hx s v s',
      sentencelist_runs P _ hx s v s'⟩
  refine ⟨sentencelist_ne_null _ (by simp) hx, fun hr => ?_, stmtlist_eq_sentencelist _, hiff,
    fun s v s' => by rw [stmtlist_eq_sentencelist]; exact hiff s v s'⟩
  have hn := sentencelist_ne_null rest hr hx'
  exact ⟨hn, by rw [sentencelist, if_neg hn]⟩

/-! ## C37: operator codes outside the defined range -/

/-- C37.  On every platform, for all operands, every environment and every depth bound:
a Compare node with a code outside 1..6 and a binary function with a code other than 1
evaluate the left operand and then the right operand as the nodes with a defined code do,
fail where an operand fails, and otherwise return `0.0` with the environment the operands
left; a unary function with a code outside 1..4 evaluates its operand, fails where it
fails, and otherwise returns `0.0` with the environment the operand left, printing
nothing.  So with `x` assigned in the operand, `x` holds the assigned value afterwards. -/
theorem C37_undefined_codes (P : Platform) (fn : Int) (l r : YxlangNode) (s : Env) :
    ((fn < 1 ∨ 6 < fn) → ∀ fuel,
      evaluate P (fuel + 1) (.CNCompare fn l r) s =
        match evalBoth (evaluate P fuel) l r s with
        | .error f => .error f
        | .ok (_, _, s2) => .ok (Dbl.zero, s2)) ∧
    ((fn < 1 ∨ 4 < fn) → ∀ fuel,
      evaluate P (fuel + 1) (.CNUnaryFunction fn l r) s =
        match evaluate P fuel l s with
        | .error f => .error f
        | .ok (_, s1) => .ok (Dbl.zero, s1)) ∧
    (fn ≠ 1 → ∀ fuel,
      evaluate P (fuel + 1) (.CNBinaryFunction fn l r) s =
        match evalBoth (evaluate P fuel) l r s with
        | .error f => .error f
        | .ok (_, _, s2) => .ok (Dbl.zero, s2)) ∧
    (∀ a b s1 s2, Returns P l s a s1 → Returns P r s1 b s2 →
      ((fn < 1 ∨ 6 < fn) → Returns P (.CNCompare fn l r) s Dbl.zero s2) ∧
      ((fn < 1 ∨ 4 < fn) → Returns P (.CNUnaryFunction fn l r) s Dbl.zero s1) ∧
      (fn ≠ 1 → Returns P (.CNBinaryFunction fn l r) s Dbl.zero s2)) ∧
    (∀ c : Dbl, (fn < 1 ∨ 6 < fn) →
      Returns P (.CNCompare fn (.CNAssignment "x" (.CNConstant c)) (.CNConstant c)) s
        Dbl.zero (setVariable s "x" c)) := by
  have hcmp : (fn < 1 ∨ 6 < fn) → ∀ fuel,
      evaluate P (fuel + 1) (.CNCompare fn l r) s =
        match evalBoth (evaluate P fuel) l r s with
        | .error f => .error f
        | .ok (_, _, s2) => .ok (Dbl.zero, s2) := by
    intro h fuel
    have h1 : fn ≠ 1 := by omega
    have h2 : fn ≠ 2 := by omega
    have h3 : fn ≠ 3 := by omega
    have h4 : fn ≠ 4 := by omega
    have h5 : fn ≠ 5 := by omega
    have h6 : fn ≠ 6 := by omega
    simp only [evaluate, evaluateBody, h1, h2, h3, h4, h5, h6, if_false]
    cases evalBoth (evaluate P fuel) l r s with
    | error f => rfl
    | ok p => rfl
  have hun : (fn < 1 ∨ 4 < fn) → ∀ fuel,
      evaluate P (fuel + 1) (.CNUnaryFunction fn l r) s =
        match evaluate P fuel l s with
        | .error f => .error f
        | .ok (_, s1) => .ok (Dbl.zero, s1) := by
    intro h fuel
    have h1 : fn ≠ 1 := by omega
    have h2 : fn ≠ 2 := by omega
    have h3 : fn ≠ 3 := by omega
    have h4 : fn ≠ 4 := by omega
    simp only [evaluate, evaluateBody, h1, h2, h3, h4, if_false]
  have hbin : fn ≠ 1 → ∀ fuel,
      evaluate P (fuel + 1) (.CNBinaryFunction fn l r) s =
        match evalBoth (evaluate P fuel) l r s with
        | .error f => .error f
        | .ok (_, _, s2) => .ok (Dbl.zero, s2) := by
    intro h fuel
    simp only [evaluate, evaluateBody, h, if_false]
  refine ⟨hcmp, hun, hbin, fun a b s1 s2 hl hr => ?_, fun c h => ?_⟩
  · obtain ⟨n, h1, h2⟩ := Returns.common hl hr
    have hb : evalBoth (evaluate P n) l r s = .ok (a, b, s2) :=
      evalOperands_left_first h1 h2
    exact ⟨fun h => ⟨n + 1, by rw [hcmp h, hb]⟩, fun h => ⟨n + 1, by rw [hun h, h1]⟩,
      fun h => ⟨n + 1, by rw [hbin h, hb]⟩⟩
  · have h1 : fn ≠ 1 := by omega
    have h2 : fn ≠ 2 := by omega
    have h3 : fn ≠ 3 := by omega
    have h4 : fn ≠ 4 := by omega
    have h5 : fn ≠ 5 := by omega
    have h6 : fn ≠ 6 := by omega
    refine ⟨3, ?_⟩
    simp only [evaluate, evaluateBody, evalBoth, evalOperands, h1, h2, h3, h4, h5, h6, if_false]
    rfl

/-! ## The trace -/

/-- Below `2^31` the indentation of depth `d` is `2 * d` spaces. -/
theorem indent_data (d : ℕ) (hd : d < 2147483648) :
    (indent d).data = List.replicate (2 * d) (Char.ofNat 32) ∧ (indent d).length = 2 * d := by
  have h : (d * 2) % 4294967296 = 2 * d := by omega
  simp [indent, h, String.length]

/-- The depth of the children, while it does not wrap. -/
theorem nextDepth_eq (d : ℕ) (hd : d + 1 < 4294967296) : nextDepth d = d + 1 := by
  simp [nextDepth, Nat.mod_eq_of_lt hd]

/-- Every `print` writes the line of the node and then calls `print` of the children it
visits, in order, one level deeper. -/
theorem print_eq_printList (P : Platform) (junk : ℕ → Dbl) (node : YxlangNode)
    (hnode : node ≠ YxlangNode.NULL) (d : ℕ) (os : List String) :
    print P junk node d os =
      printList P junk (printedChildren node) (nextDepth d)
        (os ++ [indent d ++ label P (junk os.length) node]) := by
  cases node with
  | NULL => exact absurd rfl hnode
  | CNExprlist l r =>
    by_cases hr : r = YxlangNode.NULL
    · simp only [print, printedChildren, printList, label, hr, if_true]
    · simp only [print, printedChildren, printList, label, hr, if_false]
      cases print P junk l (nextDepth d) (os ++ [indent d ++ " exprlist"]) with
      | error f => rfl
      | ok os1 => simp only; cases print P junk r (nextDepth d) os1 <;> rfl
  | CNCondition c l r =>
    by_cases hr : r = YxlangNode.NULL
    · simp only [print, printedChildren, printList, label, hr, if_true]
    · simp only [print, printedChildren, printList, label, hr, if_false]
      cases print P junk c (nextDepth d) (os ++ [indent d ++ " condition"]) with
      | error f => rfl
      | ok os1 =>
        simp only
        cases print P junk l (nextDepth d) os1 with
        | error f => rfl
        | ok os2 => simp only; cases print P junk r (nextDepth d) os2 <;> rfl
  | CNParamlist name l r =>
    by_cases hl : l = YxlangNode.NULL <;> by_cases hr : r = YxlangNode.NULL
    · simp [print, printedChildren, printList, label, hl, hr, String.append_assoc]
    · simp only [print, printedChildren, printList, label, hl, hr, if_true, if_false,
        List.nil_append, String.append_assoc]
      cases print P junk r (nextDepth d) (os ++ [indent d ++ (" paramlist: " ++ name)]) <;> rfl
    · simp only [print, printedChildren, printList, label, hl, hr, if_true, if_false,
        List.append_nil, String.append_assoc]
    · simp only [print, printedChildren, printList, label, hl, hr, if_false,
        List.singleton_append, String.append_assoc]
      cases print P junk l (nextDepth d) (os ++ [indent d ++ (" paramlist: " ++ name)]) with
      | error f => rfl
      | ok os1 => simp only; cases print P junk r (nextDepth d) os1 <;> rfl
  | CNCallUDF name l r =>
    by_cases hr : r = YxlangNode.NULL
    · simp only [print, printedChildren, printList, label, hr, if_true, String.append_assoc]
    · simp only [print, printedChildren, printList, label, hr, if_false, String.append_assoc]
      cases print P junk l (nextDepth d) (os ++ [indent d ++ (" call UDF:" ++ name)]) with
      | error f => rfl
      | ok os1 => simp only; cases print P junk r (nextDepth d) os1 <;> rfl
  | CNConstant v => rfl
  | CNVariable name => simp [print, printedChildren, printList, label, String.append_assoc]
  | CNNegate c =>
    simp only [print, printedChildren, printList, label]
    cases print P junk c (nextDepth d) (os ++ [indent d ++ "- negate"]) <;> rfl
  | CNAssignment name c =>
    simp only [print, printedChildren, printList, label, String.append_assoc]
    cases print P junk c (nextDepth d) (os ++ [indent d ++ (" assignment:" ++ name)]) <;> rfl
  | CNUnaryFunction fn l r =>
    simp only [print, printedChildren, printList, label, String.append_assoc]
    cases print P junk l (nextDepth d)
      (os ++ [indent d ++ (toString fn ++ " unaryfunction")]) <;> rfl
  | CNAdd l r =>
    simp only [print, printedChildren, printList, label]
    cases print P junk l (nextDepth d) (os ++ [indent d ++ "+ add"]) with
    | error f => rfl
    | ok os1 => simp only; cases print P junk r (nextDepth d) os1 <;> rfl
  | CNSubtract l r =>
    simp only [print, printedChildren, printList, label]
    cases print P junk l (nextDepth d) (os ++ [indent d ++ "- subtract"]) with
    | error f => rfl
    | ok os1 => simp only; cases print P junk r (nextDepth d) os1 <;> rfl
  | CNMultiply l r =>
    simp only [print, printedChildren, printList, label]
    cases print P junk l (nextDepth d) (os ++ [indent d ++ "* multiply"]) with
    | error f => rfl
    | ok os1 => simp only; cases print P junk r (nextDepth d) os1 <;> rfl
  | CNDivide l r =>
    simp only [print, printedChildren, printList, label]
    cases print P junk l (nextDepth d) (os ++ [indent d ++ "/ divide"]) with
    | error f => rfl
    | ok os1 => simp only; cases print P junk r (nextDepth d) os1 <;> rfl
  | CNModulo l r =>
    simp only [print, printedChildren, printList, label]
    cases print P junk l (nextDepth d) (os ++ [indent d ++ "% modulo"]) with
    | error f => rfl
    | ok os1 => simp only; cases print P junk r (nextDepth d) os1 <;> rfl
  | CNPower l r =>
    simp only [print, printedChildren, printList, label]
    cases print P junk l (nextDepth d) (os ++ [indent d ++ "^ power"]) with
    | error f => rfl
    | ok os1 => simp only; cases print P junk r (nextDepth d) os1 <;> rfl
  | CNStatement l r =>
    simp only [print, printedChildren, printList, label]
    cases print P junk l (nextDepth d) (os ++ [indent d ++ " statement"]) with
    | error f => rfl
    | ok os1 => simp only; cases print P junk r (nextDepth d) os1 <;> rfl
  | CNCompare fn l r =>
    simp only [print, printedChildren, printList, label, String.append_assoc]
    cases print P junk l (nextDepth d) (os ++ [indent d ++ (toString fn ++ " compare")]) with
    | error f => rfl
    | ok os1 => simp only; cases print P junk r (nextDepth d) os1 <;> rfl
  | CNBinaryFunction fn l r =>
    simp only [print, printedChildren, printList, label, String.append_assoc]
    cases print P junk l (nextDepth d)
      (os ++ [indent d ++ (toString fn ++ " binaryfunction")]) with
    | error f => rfl
    | ok os1 => simp only; cases print P junk r (nextDepth d) os1 <;> rfl
  | CNCustomFunction name l r =>
    simp only [print, printedChildren, printList, label, String.append_assoc]
    cases print P junk l (nextDepth d) (os ++ [indent d ++ (" function:" ++ name)]) with
    | error f => rfl
    | ok os1 => simp only; cases print P junk r (nextDepth d) os1 <;> rfl

/-- A child that `print` visits is lower than its parent. -/
theorem printedChildren_height {node c : YxlangNode} (h : c ∈ printedChildren node) :
    height c < height node := by
  cases node <;> simp only [printedChildren, List.mem_cons, List.mem_singleton,
    List.not_mem_nil, or_false, List.mem_append] at h
  all_goals first
    | exact absurd h id
    | (split_ifs at h <;> simp only [List.mem_cons, List.mem_singleton, List.not_mem_nil,
        or_false, false_or] at h <;> simp only [height] <;>
        rcases h with rfl | rfl | rfl <;> omega)
    | (simp only [height]; rcases h with rfl | rfl <;> omega)

/-- The children of a list are printed after what is on the stream. -/
theorem printList_grows (P : Platform) (junk : ℕ → Dbl) (d : ℕ) :
    ∀ (cs : List YxlangNode),
      (∀ c ∈ cs, ∀ os out, print P junk c d os = .ok out → ∃ post, out = os ++ post) →
      ∀ os out, printList P junk cs d os = .ok out → ∃ post, out = os ++ post := by
  intro cs
  induction cs with
  | nil =>
    intro _ os out h
    simp only [printList, Except.ok.injEq] at h
    exact ⟨[], by simp [h]⟩
  | cons c cs ih =>
    intro hc os out h
    simp only [printList] at h
    cases h1 : print P junk c d os with
    | error f => simp [h1] at h
    | ok os1 =>
      simp only [h1] at h
      obtain ⟨p1, rfl⟩ := hc c (by simp) os os1 h1
      obtain ⟨p2, rfl⟩ := ih (fun c' hc' => hc c' (by simp [hc'])) _ _ h
      exact ⟨p1 ++ p2, by simp⟩

/-- A `print` that returns has written the line of the node right after what was on the
stream, and then the rest. -/
theorem print_header (P : Platform) (junk : ℕ → Dbl) : ∀ (k : ℕ) (node : YxlangNode),
    height node ≤ k → ∀ (d : ℕ) (os out : List String), print P junk node d os = .ok out →
      ∃ post, out = os ++ (indent d ++ label P (junk os.length) node) :: post := by
  intro k
  induction k with
  | zero =>
    intro node hk
    cases node <;> simp [height] at hk
  | succ k ih =>
    intro node hk d os out h
    have hnode : node ≠ YxlangNode.NULL := by
      rintro rfl
      simp [print] at h
    rw [print_eq_printList P junk node hnode] at h
    obtain ⟨post, rfl⟩ := printList_grows P junk (nextDepth d) (printedChildren node)
      (fun c hc os' out' h' => by
        obtain ⟨p, hp⟩ := ih c (by have := printedChildren_height hc; omega) _ os' out' h'
        exact ⟨_, hp⟩) _ _ h
    exact ⟨post, by simp⟩

/-- Each child of a list is printed on a stream that holds what was there, and what it
leaves is the beginning of what the list leaves. -/
theorem printList_child (P : Platform) (junk : ℕ → Dbl) (d : ℕ) :
    ∀ (cs : List YxlangNode) (c : YxlangNode), c ∈ cs →
      ∀ os out, printList P junk cs d os = .ok out →
        ∃ mid out1 post, print P junk c d (os ++ mid) = .ok out1 ∧ out = out1 ++ post := by
  intro cs
  induction cs with
  | nil => intro c hc; simp at hc
  | cons c0 cs ih =>
    intro c hc os out h
    simp only [printList] at h
    cases h1 : print P junk c0 d os with
    | error f => simp [h1] at h
    | ok os1 =>
      simp only [h1] at h
      rcases List.mem_cons.1 hc with rfl | hc'
      · obtain ⟨post, rfl⟩ := printList_grows P junk d cs
          (fun c' _ os' out' h' => by
            obtain ⟨p, hp⟩ := print_header P junk (height c') c' (le_refl _) d os' out' h'
            exact ⟨_, hp⟩) _ _ h
        exact ⟨[], os1, post, by simpa using h1, rfl⟩
      · obtain ⟨p1, hp1⟩ := print_header P junk (height c0) c0 (le_refl _) d os os1 h1
        obtain ⟨mid, out1, post, h2, h3⟩ := ih c hc' os1 out h
        rw [hp1, List.append_assoc] at h2
        exact ⟨_, out1, post, h2, h3⟩

/-- The line of a node `n` levels below the root of a trace. -/
theorem print_nested (P : Platform) (junk : ℕ → Dbl) : ∀ (n : ℕ) (root sub : YxlangNode),
    NestedAt n root sub → ∀ (d : ℕ) (os out : List String), d + n < 4294967296 →
      print P junk root d os = .ok out →
      ∃ mid post, out =
        (os ++ mid) ++ (indent (d + n) ++ label P (junk (os ++ mid).length) sub) :: post := by
  intro n root sub h
  induction h with
  | self root =>
    intro d os out _ hp
    obtain ⟨post, rfl⟩ := print_header P junk (height root) root (le_refl _) d os out hp
    exact ⟨[], post, by simp⟩
  | @step n root child sub hc _ ih =>
    intro d os out hd hp
    have hroot : root ≠ YxlangNode.NULL := by
      rintro rfl
      simp [printedChildren] at hc
    rw [print_eq_printList P junk root hroot, nextDepth_eq d (by omega)] at hp
    obtain ⟨mid, out1, post, h1, rfl⟩ := printList_child P junk (d + 1) _ child hc _ _ hp
    obtain ⟨mid2, post2, rfl⟩ := ih (d + 1) _ _ (by omega) h1
    refine ⟨[indent d ++ label P (junk os.length) root] ++ mid ++ mid2, post2 ++ post, ?_⟩
    have e : d + (n + 1) = d + 1 + n := by omega
    simp only [e, List.append_assoc, List.cons_append, List.nil_append, List.singleton_append]

/-- C38 fails as stated: `indent` computes `d * 2` in `unsigned int`, which wraps at
`2^32`.  `indent(2147483648)` is the empty string, not `4294967296` spaces, and
`indent(2147483649)` is two spaces. -/
theorem C38_counterexample :
    indent 2147483648 = "" ∧ (indent 2147483648).length = 0 ∧
    (0 : ℕ) ≠ 2 * 2147483648 ∧ (indent 2147483649).length = 2 := by
  refine ⟨?_, ?_, by decide, ?_⟩ <;> simp [indent, String.length]

/-- C38 as amended.  For every depth `d` below `2^31`, `indent(d)` is the string of
exactly `2 * d` spaces.  Printing an Add node at a depth `d` below `2^32 - 1` writes the
line `indent(d)` followed by `+ add`, then the trace of the left child at depth `d + 1`,
then the trace of the right child at depth `d + 1`, and stops where a child is the null
pointer.  Hence when a trace is printed at depth `d` and returns, a node that lies `n`
levels below the root, with `d + n` below `2^31`, has its line in the trace, after what
was on the stream before, and the line is `2 * (d + n)` spaces followed by the text of
the node; at depth `0` these are `2 * n` spaces. -/
theorem C38_indented_trace (P : Platform) (junk : ℕ → Dbl) :
    (∀ d, d < 2147483648 →
      (indent d).data = List.replicate (2 * d) (Char.ofNat 32) ∧ (indent d).length = 2 * d) ∧
    (∀ l r d os, d < 4294967295 →
      print P junk (.CNAdd l r) d os =
        match print P junk l (d + 1) (os ++ [indent d ++ "+ add"]) with
        | .error f => .error f
        | .ok os1 => print P junk r (d + 1) os1) ∧
    (∀ n root sub, NestedAt n root sub → ∀ d os out, d + n < 2147483648 →
      print P junk root d os = .ok out →
      ∃ mid post, out =
          (os ++ mid) ++ (indent (d + n) ++ label P (junk (os ++ mid).length) sub) :: post ∧
        (indent (d + n)).data = List.replicate (2 * (d + n)) (Char.ofNat 32)) ∧
    (∀ n root sub, NestedAt n root sub → ∀ out, n < 2147483648 →
      print P junk root 0 [] = .ok out →
      ∃ pre post, out = pre ++ (indent n ++ label P (junk pre.length) sub) :: post ∧
        (indent n).data = List.replicate (2 * n) (Char.ofNat 32)) := by
  have h3 : ∀ n root sub, NestedAt n root sub → ∀ d os out, d + n < 2147483648 →
      print P junk root d os = .ok out →
      ∃ mid post, out =
          (os ++ mid) ++ (indent (d + n) ++ label P (junk (os ++ mid).length) sub) :: post ∧
        (indent (d + n)).data = List.replicate (2 * (d + n)) (Char.ofNat 32) := by
    intro n root sub hn d os out hd hp
    obtain ⟨mid, post, h⟩ := print_nested P junk n root sub hn d os out (by omega) hp
    exact ⟨mid, post, h, (indent_data _ hd).1⟩
  refine ⟨indent_data, fun l r d os hd => ?_, h3, fun n root sub hn out hd hp => ?_⟩
  · rw [print, nextDepth_eq d (by omega)]
  · obtain ⟨mid, post, h, hi⟩ := h3 n root sub hn 0 [] out (by omega) hp
    refine ⟨mid, post, ?_, ?_⟩
    · simpa using h
    · simpa using hi

/-- C38 as amended, at the trace of `1 + (-x)` printed at depth `0`: the variable lies two
levels below the root, and its line starts with four spaces. -/
theorem C38_indented_trace_witness :
    ∃ pre post,
      print samplePlatform (fun _ => Dbl.zero)
        (.CNAdd (.CNConstant (Dbl.ofInt 1)) (.CNNegate (.CNVariable "x"))) 0 [] =
        .ok (pre ++ (indent 2 ++ label samplePlatform Dbl.zero (.CNVariable "x")) :: post) ∧
      (indent 2).data = List.replicate 4 (Char.ofNat 32) := by
  obtain ⟨pre, post, h1, h2⟩ :=
    (C38_indented_trace samplePlatform (fun _ => Dbl.zero)).2.2.2 2
      (.CNAdd (.CNConstant (Dbl.ofInt 1)) (.CNNegate (.CNVariable "x"))) (.CNVariable "x")
      (@NestedAt.step 1 (.CNAdd (.CNConstant (Dbl.ofInt 1)) (.CNNegate (.CNVariable "x")))
        (.CNNegate (.CNVariable "x")) (.CNVariable "x") (by simp [printedChildren])
        (@NestedAt.step 0 (.CNNegate (.CNVariable "x")) (.CNVariable "x") (.CNVariable "x")
          (by simp [printedChildren]) (NestedAt.self _)))
      _ (by decide) rfl
  exact ⟨pre, post, by rw [← h1]; rfl, h2⟩

